import Mathlib

/-!
dnscontrol: serial generator, diff engine and zone label order.

A shallow embedding of parts of the repository:

* `providers/bind/serial.go`    : `generateSerial`
* `providers/diff/diff.go`      : `differ.IncrementalDiff`
* `providers/bind/prettyzone.go`: `zoneLabelLess`

Machine integers are natural numbers reduced modulo `2 ^ 32` where the Go
code computes in `uint32`.  Fatal exits (`log.Fatalf`, `panic`) are the `error`
side of `Except`.  Go maps are association lists: Go ranges over a map in an
unspecified order, the embedding ranges in the order of first insertion, and
what is proved about a plan concerns which correlations it holds and how often,
not where they stand.  Record pointers are the records themselves.
-/

namespace Dnscontrol

deriving instance DecidableEq for Except

/-! ## Go standard library pieces used by the sources -/

/-- Decimal value of a digit string, most significant digit first
(the accumulation loop of `strconv.ParseUint` in base 10). -/
def digitsValue (cs : List Char) : Nat :=
  cs.foldl (fun v c => v * 10 + (c.toNat - 48)) 0

/-- Go `strconv.ParseUint(s, 10, bitSize)`: an error (`none`) on the empty
string, on any character that is not a decimal digit, and on a value that
does not fit in `bitSize` bits. -/
def ParseUint (s : String) (bitSize : Nat) : Option Nat :=
  if s.data = [] then none
  else if s.data.all Char.isDigit then
    (if digitsValue s.data < 2 ^ bitSize then some (digitsValue s.data) else none)
  else none

/-- Go `strconv.FormatUint(n, 10)`. -/
def FormatUint (n : Nat) : String := Nat.repr n

/-- Go `strings.HasPrefix`. -/
def HasPrefix (s pre : String) : Bool := pre.data.isPrefixOf s.data

/-- Decimal rendering of `n`, left-padded with `0` to at least `w` characters
(how `time.Format` renders the `2006`, `01` and `02` layout elements). -/
def zeroPad (w n : Nat) : String :=
  ⟨List.replicate (w - (Nat.repr n).data.length) '0' ++ (Nat.repr n).data⟩

/-- The calendar date of `nowFunc().UTC()`. -/
structure UTCDate where
  year : Nat
  month : Nat
  day : Nat
  deriving DecidableEq, Repr

/-- A date of the calendar: month 1..12, day 1..31. -/
def UTCDate.valid (t : UTCDate) : Prop :=
  1 ≤ t.month ∧ t.month ≤ 12 ∧ 1 ≤ t.day ∧ t.day ≤ 31

instance (t : UTCDate) : Decidable t.valid := by
  unfold UTCDate.valid; infer_instance

/-- Go `today.Format("20060102")`. -/
def UTCDate.Format20060102 (t : UTCDate) : String :=
  zeroPad 4 t.year ++ zeroPad 2 t.month ++ zeroPad 2 t.day

/-- The number `YYYYMMDD` of a date. -/
def UTCDate.yyyymmdd (t : UTCDate) : Nat := t.year * 10000 + t.month * 100 + t.day

/-! ## providers/bind/serial.go -/

/-- The ways `generateSerial` ends without a serial. -/
inductive SerialError where
  /-- The fatal exit `log.Fatalf` when the date does not parse into 32 bits. -/
  | wontFit
  /-- The final check `oldSerial == newSerial`. -/
  | oldEqNew
  /-- The final check `oldSerial > newSerial`. -/
  | oldGtNew
  deriving DecidableEq, Repr

/-- The `uint32` modulus. -/
def u32 : Nat := 2 ^ 32

/-- The five-way branch of `generateSerial`: the debugging `method` tag and the
value assigned to `newSerial`, in `uint32` arithmetic. -/
def serialBranch (oldSerial draft : Nat) (oldSerialStr todayStr : String) : String × Nat :=
  if oldSerial > draft then ("o>d", (oldSerial + 1) % u32)
  else if oldSerial = draft then ("o=d", (draft + 1) % u32)
  else if oldSerialStr.data.length ≠ 10 then ("len!=10", draft)
  else if HasPrefix oldSerialStr todayStr then ("prefix", (oldSerial + 1) % u32)
  else ("default", draft)

/-- Go `generateSerial`, after the clock has been read: `oldSerial` is the
argument, `today` the date of `nowFunc().UTC()`.  The two final checks leave the
function through a bare `return`, without a serial; they are the `error` side,
as is the `log.Fatalf` on a date that does not parse. -/
def generateSerial (oldSerial : Nat) (today : UTCDate) : Except SerialError Nat :=
  let oldSerialStr := FormatUint oldSerial
  let todayStr := today.Format20060102
  let version := 1
  match ParseUint todayStr 32 with
  | none => .error .wontFit
  | some todayNum =>
    let draft := ((todayNum % u32) * 100 + version) % u32
    let newSerial := (serialBranch oldSerial draft oldSerialStr todayStr).2
    let newSerial := if newSerial = 0 then 1 else newSerial
    if oldSerial = newSerial then .error .oldEqNew
    else if oldSerial > newSerial then .error .oldGtNew
    else .ok newSerial

/-- The `method` tag `generateSerial` ends with (the branch it took). -/
def generateSerialMethod (oldSerial : Nat) (today : UTCDate) : Option String :=
  let oldSerialStr := FormatUint oldSerial
  let todayStr := today.Format20060102
  match ParseUint todayStr 32 with
  | none => none
  | some todayNum =>
    let draft := ((todayNum % u32) * 100 + 1) % u32
    some (serialBranch oldSerial draft oldSerialStr todayStr).1

/-! ## providers/diff/diff.go -/

/-- Go `sort.Strings`: ascending in the byte order of Go strings. -/
def sortStrings (l : List String) : List String :=
  l.insertionSort (fun a b => a.data ≤ b.data)

/-- A Go `map[string]string`, as its entries. -/
abbrev ValueMap := List (String × String)

/-- Go `models.RecordKey`. -/
structure RecordKey where
  NameFQDN : String
  Type_ : String
  deriving DecidableEq, Repr

/-- Go `models.RecordConfig`, reduced to what the diff engine reads: the type,
the label (`GetLabel`), the fully qualified label (`GetLabelFQDN`), the TTL, the
target field (`GetTargetField`), the combined target rendering
(`GetTargetCombined`) and the metadata. -/
structure RecordConfig where
  Type_ : String
  Name : String
  NameFQDN : String
  TTL : Nat
  Target : String
  TargetCombined : String
  Metadata : ValueMap
  deriving DecidableEq, Repr

/-- Go `RecordConfig.GetLabel`. -/
def RecordConfig.GetLabel (r : RecordConfig) : String := r.Name

/-- Go `RecordConfig.GetLabelFQDN`. -/
def RecordConfig.GetLabelFQDN (r : RecordConfig) : String := r.NameFQDN

/-- Go `RecordConfig.GetTargetField`. -/
def RecordConfig.GetTargetField (r : RecordConfig) : String := r.Target

/-- Go `RecordConfig.GetTargetCombined`. -/
def RecordConfig.GetTargetCombined (r : RecordConfig) : String := r.TargetCombined

/-- Go `RecordConfig.Key`: the pair (labelFQDN, type). -/
def RecordConfig.Key (r : RecordConfig) : RecordKey := ⟨r.NameFQDN, r.Type_⟩

/-- Go `Correlation`; a nil record pointer is `none`. -/
structure Correlation where
  Existing : Option RecordConfig
  Desired : Option RecordConfig
  deriving DecidableEq, Repr

/-- Go `Changeset`. -/
abbrev Changeset := List Correlation

/-- Go `models.Nameserver`. -/
structure Nameserver where
  Name : String
  deriving DecidableEq, Repr

/-- Go `models.DNSProviderInstance`, the fields the nameserver layer reads; the
driver is its `GetNameservers` method, which returns a list or an error. -/
structure DNSProviderInstance where
  Name : String
  NumberOfNameservers : Int
  GetNameservers : String → Except String (List Nameserver)

/-- Go `models.DomainConfig`, the fields the diff engine and the nameserver layer
read. -/
structure DomainConfig where
  Records : List RecordConfig
  KeepUnknown : Bool
  Name : String := ""
  Nameservers : List Nameserver := []
  Metadata : ValueMap := []
  DNSProviderInstances : List DNSProviderInstance := []

/-- A compiled `glob.Glob`, as its `Match` method. -/
abbrev Glob := String → Bool

/-- Go `differ`. -/
structure differ where
  dc : DomainConfig
  extraValues : List (RecordConfig → ValueMap)
  compiledIgnoredLabels : List Glob

/-- The panics of the diff engine. -/
inductive DiffError where
  /-- The panic `OOPS! control != content` of `content`. -/
  | controlMismatch
  /-- The panic `Trying to update/add IGNOREd record`. -/
  | ignoredRecord
  /-- The panic `DUPLICATE E_RECORD FOUND`. -/
  | duplicateExisting
  /-- The panic `DUPLICATE D_RECORD FOUND`. -/
  | duplicateDesired
  deriving DecidableEq, Repr

/-- The inner loop of `content` for one extractor result: the keys are sorted
and ` k=v` is appended for each. -/
def appendExtra (content : String) (valueMap : ValueMap) : String :=
  (sortStrings (valueMap.map Prod.fst)).foldl
    (fun c k => c ++ " " ++ k ++ "=" ++ (valueMap.lookup k).getD "") content

/-- The `"%v ttl=%d"` rendering both `content` and `ToDiffable` start from. -/
def RecordConfig.ttlText (r : RecordConfig) : String :=
  r.GetTargetCombined ++ " ttl=" ++ toString r.TTL

/-- Modelled from the spec: `models.RecordConfig.ToDiffable`, whose package is
not part of the sources.  Spec 4.4: the fingerprint is the combined target,
` ttl=` and the TTL, then for each extra map ` k=v` over its sorted keys, and it
"must match the record's own diffable projection". -/
def RecordConfig.ToDiffable (r : RecordConfig) (extraMaps : List ValueMap) : String :=
  extraMaps.foldl appendExtra r.ttlText

/-- The text `content` builds before its control check. -/
def differ.fingerprint (d : differ) (r : RecordConfig) : String :=
  d.extraValues.foldl (fun c f => appendExtra c (f r)) r.ttlText

/-- Go `differ.content`. -/
def differ.content (d : differ) (r : RecordConfig) : Except DiffError String :=
  let content := d.fingerprint r
  let allMaps := d.extraValues.map (fun f => f r)
  let control := r.ToDiffable allMaps
  if control ≠ content then .error .controlMismatch else .ok content

/-- Go `differ.matchIgnored`. -/
def differ.matchIgnored (d : differ) (name : String) : Bool :=
  d.compiledIgnoredLabels.any (fun tst => tst name)

/-- The four result slices of `IncrementalDiff`. -/
structure Plan where
  unchanged : Changeset
  create : Changeset
  toDelete : Changeset
  modify : Changeset
  deriving DecidableEq, Repr

/-- A Go `map[models.RecordKey][]*models.RecordConfig`, as its entries in order
of first insertion. -/
abbrev Buckets := List (RecordKey × List RecordConfig)

/-- The statement `m[k] = append(m[k], r)`. -/
def Buckets.add : Buckets → RecordKey → RecordConfig → Buckets
  | [], k, r => [(k, [r])]
  | (k', rs) :: rest, k, r =>
    if k' = k then (k', rs ++ [r]) :: rest else (k', rs) :: Buckets.add rest k r

/-- The value `m[k]`, the empty slice for a missing key. -/
def Buckets.get (m : Buckets) (k : RecordKey) : List RecordConfig :=
  match m.find? (fun e => e.1 = k) with
  | some e => e.2
  | none => []

/-- The test `_, ok := m[k]`. -/
def Buckets.has (m : Buckets) (k : RecordKey) : Bool := m.any (fun e => e.1 = k)

/-- The statement `delete(m, k)`. -/
def Buckets.delete (m : Buckets) (k : RecordKey) : Buckets := m.filter (fun e => e.1 ≠ k)

/-- The first loop of `IncrementalDiff`: existing records with an ignored label
are skipped, the others are bucketed by key. -/
def bucketExisting (d : differ) : List RecordConfig → Buckets → Buckets
  | [], m => m
  | e :: rest, m =>
    if d.matchIgnored e.GetLabel then bucketExisting d rest m
    else bucketExisting d rest (m.add e.Key e)

/-- The second loop: a desired record with an ignored label panics, the others
are bucketed by key. -/
def bucketDesired (d : differ) : List RecordConfig → Buckets → Except DiffError Buckets
  | [], m => .ok m
  | dr :: rest, m =>
    if d.matchIgnored dr.GetLabel then .error .ignoredRecord
    else bucketDesired d rest (m.add dr.Key dr)

/-- The `KeepUnknown` loop: every existing key without a desired bucket is
deleted from the existing buckets. -/
def dropUnknown (existingByNameAndType desiredByNameAndType : Buckets) : Buckets :=
  existingByNameAndType.filter (fun e => desiredByNameAndType.has e.1)

/-- The inner loop of the exact-match pass: the first desired record whose
content equals that of `ex`, and the desired slice without it. -/
def findSameContent (d : differ) (ex : RecordConfig) :
    List RecordConfig → Except DiffError (Option (RecordConfig × List RecordConfig))
  | [] => .ok none
  | de :: rest =>
    match d.content de with
    | .error e => .error e
    | .ok cde =>
      match d.content ex with
      | .error e => .error e
      | .ok cex =>
        if cde ≠ cex then
          match findSameContent d ex rest with
          | .error e => .error e
          | .ok none => .ok none
          | .ok (some (m, rest')) => .ok (some (m, de :: rest'))
        else .ok (some (de, rest))

/-- The exact-match pass.  The loop runs `i` from the last index down and
deleting index `i` leaves the lower indices in place, so the tail of the
existing slice is handled before its head.  Returns the remaining existing
records, the remaining desired records and `unchanged`. -/
def exactMatchPass (d : differ) :
    List RecordConfig → List RecordConfig → Changeset →
      Except DiffError (List RecordConfig × List RecordConfig × Changeset)
  | [], desiredRecords, unchanged => .ok ([], desiredRecords, unchanged)
  | ex :: higher, desiredRecords, unchanged =>
    match exactMatchPass d higher desiredRecords unchanged with
    | .error e => .error e
    | .ok (higher', desiredRecords', unchanged') =>
      match findSameContent d ex desiredRecords' with
      | .error e => .error e
      | .ok none => .ok (ex :: higher', desiredRecords', unchanged')
      | .ok (some (de, desiredRecords'')) =>
        .ok (higher', desiredRecords'', unchanged' ++ [⟨some ex, some de⟩])

/-- The inner loop of the same-target pass. -/
def findSameTarget (ex : RecordConfig) :
    List RecordConfig → Option (RecordConfig × List RecordConfig)
  | [] => none
  | de :: rest =>
    if de.GetTargetField = ex.GetTargetField then some (de, rest)
    else
      match findSameTarget ex rest with
      | none => none
      | some (m, rest') => some (m, de :: rest')

/-- The same-target pass, in the same index order as the exact-match pass. -/
def sameTargetPass :
    List RecordConfig → List RecordConfig → Changeset →
      List RecordConfig × List RecordConfig × Changeset
  | [], desiredRecords, modify => ([], desiredRecords, modify)
  | ex :: higher, desiredRecords, modify =>
    match sameTargetPass higher desiredRecords modify with
    | (higher', desiredRecords', modify') =>
      match findSameTarget ex desiredRecords' with
      | none => (ex :: higher', desiredRecords', modify')
      | some (de, desiredRecords'') =>
        (higher', desiredRecords'', modify' ++ [⟨some ex, some de⟩])

/-- A Go `map[string]*models.RecordConfig`, as its entries in insertion order. -/
abbrev Lookup := List (String × RecordConfig)

/-- The loops that fill `existingLookup` and `desiredLookup`: a content already
in the map panics with `dup`. -/
def buildLookup (d : differ) (dup : DiffError) :
    List RecordConfig → Lookup → Except DiffError Lookup
  | [], m => .ok m
  | r :: rest, m =>
    match d.content r with
    | .error e => .error e
    | .ok normalized =>
      if (m.lookup normalized).isSome then .error dup
      else buildLookup d dup rest (m ++ [(normalized, r)])

/-- The loop over `existingLookup` that moves every content found in both maps
to `unchanged` and deletes it from both. -/
def commonContent :
    Lookup → Lookup → Lookup → Changeset → Lookup × Lookup × Changeset
  | [], existingLookup, desiredLookup, unchanged => (existingLookup, desiredLookup, unchanged)
  | (norm, ex) :: rest, existingLookup, desiredLookup, unchanged =>
    match desiredLookup.lookup norm with
    | some de =>
      commonContent rest (existingLookup.filter (fun e => e.1 ≠ norm))
        (desiredLookup.filter (fun e => e.1 ≠ norm)) (unchanged ++ [⟨some ex, some de⟩])
    | none => commonContent rest existingLookup desiredLookup unchanged

/-- Go `sortedKeys`. -/
def sortedKeys (m : Lookup) : List String := sortStrings (m.map Prod.fst)

/-- The positional pairing loop: while both key slices are non-empty their
heads become a `modify`.  Returns `modify` and the two leftover slices. -/
def pairModify (existingLookup desiredLookup : Lookup) :
    List String → List String → Changeset → Changeset × List String × List String
  | e :: existingStrings, de :: desiredStrings, modify =>
    pairModify existingLookup desiredLookup existingStrings desiredStrings
      (modify ++ [⟨existingLookup.lookup e, desiredLookup.lookup de⟩])
  | existingStrings, desiredStrings, modify => (modify, existingStrings, desiredStrings)

/-- The body of the loop over `existingByNameAndType` for one key, appending to
the four result slices. -/
def diffKey (d : differ) (existingRecords desiredRecords : List RecordConfig) (p : Plan) :
    Except DiffError Plan :=
  match exactMatchPass d existingRecords desiredRecords p.unchanged with
  | .error e => .error e
  | .ok (existingRecords, desiredRecords, unchanged) =>
    match sameTargetPass existingRecords desiredRecords p.modify with
    | (existingRecords, desiredRecords, modify) =>
      match buildLookup d .duplicateExisting existingRecords [] with
      | .error e => .error e
      | .ok existingLookup =>
        match buildLookup d .duplicateDesired desiredRecords [] with
        | .error e => .error e
        | .ok desiredLookup =>
          match commonContent existingLookup existingLookup desiredLookup unchanged with
          | (existingLookup, desiredLookup, unchanged) =>
            match pairModify existingLookup desiredLookup (sortedKeys existingLookup)
                (sortedKeys desiredLookup) modify with
            | (modify, existingStrings, desiredStrings) =>
              .ok { unchanged := unchanged
                    create := p.create ++
                      desiredStrings.map (fun norm => ⟨none, desiredLookup.lookup norm⟩)
                    toDelete := p.toDelete ++
                      existingStrings.map (fun norm => ⟨existingLookup.lookup norm, none⟩)
                    modify := modify }

/-- The loop over `existingByNameAndType`: each key is diffed against its
desired bucket, which is then deleted from `desiredByNameAndType`. -/
def diffKeys (d : differ) : Buckets → Buckets → Plan → Except DiffError (Plan × Buckets)
  | [], desiredByNameAndType, p => .ok (p, desiredByNameAndType)
  | (key, existingRecords) :: rest, desiredByNameAndType, p =>
    match diffKey d existingRecords (desiredByNameAndType.get key) p with
    | .error e => .error e
    | .ok p' => diffKeys d rest (desiredByNameAndType.delete key) p'

/-- The loop `for name := range existingByNameAndType` that deletes every
existing key from `desiredByNameAndType`. -/
def deleteKeys (existingByNameAndType desiredByNameAndType : Buckets) : Buckets :=
  existingByNameAndType.foldl (fun m e => m.delete e.1) desiredByNameAndType

/-- The final loop: every record left in `desiredByNameAndType` is a create. -/
def createRest (desiredByNameAndType : Buckets) (create : Changeset) : Changeset :=
  desiredByNameAndType.foldl
    (fun c e => e.2.foldl (fun c rec => c ++ [⟨none, some rec⟩]) c) create

/-- Go `differ.IncrementalDiff`. -/
def differ.IncrementalDiff (d : differ) (existing : List RecordConfig) :
    Except DiffError Plan :=
  let desired := d.dc.Records
  let existingByNameAndType := bucketExisting d existing []
  match bucketDesired d desired [] with
  | .error e => .error e
  | .ok desiredByNameAndType =>
    let existingByNameAndType :=
      if d.dc.KeepUnknown then dropUnknown existingByNameAndType desiredByNameAndType
      else existingByNameAndType
    match diffKeys d existingByNameAndType desiredByNameAndType ⟨[], [], [], []⟩ with
    | .error e => .error e
    | .ok (p, desiredByNameAndType) =>
      let desiredByNameAndType := deleteKeys existingByNameAndType desiredByNameAndType
      .ok { p with create := createRest desiredByNameAndType p.create }

/-! ## providers/bind/prettyzone.go -/

/-- Go string comparison `x < y`: lexicographic in the bytes, which for UTF-8
text is lexicographic in the characters. -/
def stringLess (x y : String) : Bool := decide (x.data < y.data)

/-- The pieces of a character list between occurrences of `sep`. -/
def splitChars (sep : Char) : List Char → List (List Char)
  | [] => [[]]
  | c :: cs =>
    if c = sep then [] :: splitChars sep cs
    else
      match splitChars sep cs with
      | [] => [[c]]
      | w :: ws => (c :: w) :: ws

/-- Go `strings.Split(s, ".")`. -/
def Split (s : String) : List String := (splitChars '.' s.data).map String.mk

/-- The comparison of two different components in `zoneLabelLess` once the `*`
tests are past: numeric when both parse as unsigned 64-bit integers, else as
strings. -/
def componentLess (x y : String) : Bool :=
  match ParseUint x 64, ParseUint y 64 with
  | some au, some bu => decide (au < bu)
  | _, _ => stringLess x y

/-- The loop of `zoneLabelLess`, with `n = min + 1` iterations left and the
indices `i`, `j`; `none` when the loop ends without returning. -/
def zoneLabelLoop (as bs : List String) : Nat → Nat → Nat → Option Bool
  | 0, _, _ => none
  | n + 1, i, j =>
    if as.getD i "" ≠ bs.getD j "" then
      if i = 0 ∧ as.getD i "" = "*" then some true
      else if j = 0 ∧ bs.getD j "" = "*" then some false
      else some (componentLess (as.getD i "") (bs.getD j ""))
    else zoneLabelLoop as bs n (i - 1) (j - 1)

/-- Go `zoneLabelLess`.  The two `*` tests before the split read, in the source,
`return (if a == "*") ? true : (if b == "*")? false :`; they are taken as the
two early returns they spell. -/
def zoneLabelLess (a b : String) : Bool :=
  if a = b then false
  else if a = "@" then true
  else if b = "@" then false
  else if a = "*" then true
  else if b = "*" then false
  else
    let as := Split a
    let bs := Split b
    let ia := as.length - 1
    let ib := bs.length - 1
    let min := if ia < ib then as.length - 1 else bs.length - 1
    match zoneLabelLoop as bs (min + 1) ia ib with
    | some r => r
    | none => decide (ia < ib)

/-- The comparison of `zoneLabelLess` on the component lists read from the
right: the first difference decides, a `*` that is the leftmost component of its
label sorts first, and a label that runs out first is the smaller one. -/
def revLess : List String → List String → Bool
  | [], [] => false
  | [], _ :: _ => true
  | _ :: _, [] => false
  | x :: xs, y :: ys =>
    if x ≠ y then
      if xs = [] ∧ x = "*" then true
      else if ys = [] ∧ y = "*" then false
      else componentLess x y
    else revLess xs ys

/-- No component of the label parses as an unsigned integer. -/
def plainLabel (a : String) : Prop := ∀ x ∈ Split a, ParseUint x 64 = none

instance (a : String) : Decidable (plainLabel a) := by
  unfold plainLabel; infer_instance

/-! ## Reference forms of the two greedy passes

The exact-match pass and the same-target pass are one loop with two different
tests; these definitions give that loop once, without the accumulator. -/

/-- The first element satisfying `q`, and the list without it. -/
def extractFirst (q : RecordConfig → Bool) :
    List RecordConfig → Option (RecordConfig × List RecordConfig)
  | [] => none
  | de :: rest =>
    if q de then some (de, rest)
    else
      match extractFirst q rest with
      | none => none
      | some (m, rest') => some (m, de :: rest')

/-- Greedy pairing, last existing record first: the remaining existing records,
the remaining desired records and the pairs made, in the order made. -/
def greedyPairs (q : RecordConfig → RecordConfig → Bool) :
    List RecordConfig → List RecordConfig →
      List RecordConfig × List RecordConfig × List (RecordConfig × RecordConfig)
  | [], de => ([], de, [])
  | ex :: higher, de =>
    match extractFirst (q ex) (greedyPairs q higher de).2.1 with
    | none => (ex :: (greedyPairs q higher de).1, (greedyPairs q higher de).2.1,
        (greedyPairs q higher de).2.2)
    | some (m, de'') => ((greedyPairs q higher de).1, de'',
        (greedyPairs q higher de).2.2 ++ [(ex, m)])

/-- The correlation of a matched pair. -/
def pairCorr (x : RecordConfig × RecordConfig) : Correlation := ⟨some x.1, some x.2⟩

/-- The test of the exact-match pass. -/
def sameContent (d : differ) (e m : RecordConfig) : Bool :=
  decide (d.fingerprint m = d.fingerprint e)

/-- The test of the same-target pass. -/
def sameTarget (e m : RecordConfig) : Bool :=
  decide (m.GetTargetField = e.GetTargetField)

/-- The outcome of the exact-match pass on one key. -/
def afterExact (d : differ) (ex de : List RecordConfig) :
    List RecordConfig × List RecordConfig × List (RecordConfig × RecordConfig) :=
  greedyPairs (sameContent d) ex de

/-- The outcome of the same-target pass on what the exact-match pass left. -/
def afterTarget (d : differ) (ex de : List RecordConfig) :
    List RecordConfig × List RecordConfig × List (RecordConfig × RecordConfig) :=
  greedyPairs sameTarget (afterExact d ex de).1 (afterExact d ex de).2.1

/-- The records `rs` in the order of their sorted fingerprints, read back
through the lookup map as the residual pass does. -/
def byFingerprint (d : differ) (rs : List RecordConfig) : List RecordConfig :=
  (sortStrings (rs.map d.fingerprint)).filterMap
    (fun k => (rs.map (fun r => (d.fingerprint r, r))).lookup k)

/-- What one key adds to the four result slices when no panic occurs. -/
def keyPlan (d : differ) (ex de : List RecordConfig) : Plan :=
  { unchanged := (afterExact d ex de).2.2.map pairCorr
    create := ((byFingerprint d (afterTarget d ex de).2.1).drop
      (byFingerprint d (afterTarget d ex de).1).length).map (fun m => ⟨none, some m⟩)
    toDelete := ((byFingerprint d (afterTarget d ex de).1).drop
      (byFingerprint d (afterTarget d ex de).2.1).length).map (fun e => ⟨some e, none⟩)
    modify := (afterTarget d ex de).2.2.map pairCorr ++
      ((byFingerprint d (afterTarget d ex de).1).zip
        (byFingerprint d (afterTarget d ex de).2.1)).map pairCorr }

/-- Bucketing a list of records by key, as both bucketing loops do. -/
def bucketAll (l : List RecordConfig) (m : Buckets) : Buckets :=
  l.foldl (fun m r => m.add r.Key r) m

/-- The keys of a bucket map, in order. -/
def Buckets.keys (m : Buckets) : List RecordKey := m.map Prod.fst

/-- The records of `l` under key `k`. -/
def underKey (l : List RecordConfig) (k : RecordKey) : List RecordConfig :=
  l.filter (fun r => decide (r.Key = k))

/-- The existing records the first loop keeps. -/
def differ.kept (d : differ) (existing : List RecordConfig) : List RecordConfig :=
  existing.filter (fun e => !d.matchIgnored e.GetLabel)

/-- Componentwise concatenation of two plans. -/
def Plan.append (p q : Plan) : Plan :=
  ⟨p.unchanged ++ q.unchanged, p.create ++ q.create, p.toDelete ++ q.toDelete,
    p.modify ++ q.modify⟩

/-- The plan with four empty slices. -/
def Plan.empty : Plan := ⟨[], [], [], []⟩

/-- The existing sides of a change set. -/
def existingOf (c : Changeset) : List RecordConfig := c.filterMap Correlation.Existing

/-- The desired sides of a change set. -/
def desiredOf (c : Changeset) : List RecordConfig := c.filterMap Correlation.Desired

/-- All correlations of a plan. -/
def Plan.all (p : Plan) : Changeset := p.unchanged ++ p.create ++ p.toDelete ++ p.modify

/-- No record of the correlation lies under key `k`. -/
def Correlation.awayFrom (c : Correlation) (k : RecordKey) : Prop :=
  (∀ r, c.Existing = some r → r.Key ≠ k) ∧ (∀ r, c.Desired = some r → r.Key ≠ k)

/-- The existing sides of the correlations that carry one: unchanged, modify
and toDelete. -/
def Plan.existingSides (p : Plan) : List RecordConfig :=
  existingOf p.unchanged ++ existingOf p.modify ++ existingOf p.toDelete

/-- The desired sides of the correlations that carry one: unchanged, modify
and create. -/
def Plan.desiredSides (p : Plan) : List RecordConfig :=
  desiredOf p.unchanged ++ desiredOf p.modify ++ desiredOf p.create

/-- One key passes both duplicate checks of the residual pass. -/
def keyOk (d : differ) (ex de : List RecordConfig) : Prop :=
  ((afterTarget d ex de).1.map d.fingerprint).Nodup ∧
    ((afterTarget d ex de).2.1.map d.fingerprint).Nodup

instance (d : differ) (ex de : List RecordConfig) : Decidable (keyOk d ex de) := by
  unfold keyOk; infer_instance

/-- What the loop over the existing buckets adds to the four result slices when
no panic occurs. -/
def keysPlan (d : differ) : Buckets → Buckets → Plan
  | [], _ => Plan.empty
  | (k, rs) :: rest, desiredByNameAndType =>
    (keyPlan d rs (desiredByNameAndType.get k)).append (keysPlan d rest desiredByNameAndType)

/-- The desired buckets, when no desired label is ignored. -/
def differ.desiredBuckets (d : differ) : Buckets := bucketAll d.dc.Records []

/-- The existing buckets the loop over the keys runs over. -/
def differ.existingBuckets (d : differ) (existing : List RecordConfig) : Buckets :=
  if d.dc.KeepUnknown then dropUnknown (bucketAll (d.kept existing) []) d.desiredBuckets
  else bucketAll (d.kept existing) []

/-- Every key passes the duplicate checks. -/
def differ.allKeysOk (d : differ) (existing : List RecordConfig) : Prop :=
  ∀ e ∈ d.existingBuckets existing, keyOk d e.2 (d.desiredBuckets.get e.1)

instance (d : differ) (existing : List RecordConfig) : Decidable (d.allKeysOk existing) := by
  unfold differ.allKeysOk; infer_instance

/-- The plan `IncrementalDiff` returns when no panic occurs. -/
def differ.plan (d : differ) (existing : List RecordConfig) : Plan :=
  { keysPlan d (d.existingBuckets existing) d.desiredBuckets with
    create := createRest
      (deleteKeys (d.existingBuckets existing)
        (deleteKeys (d.existingBuckets existing) d.desiredBuckets))
      (keysPlan d (d.existingBuckets existing) d.desiredBuckets).create }

/-- The RecordKey and the fingerprint of a record. -/
def differ.keyPrint (d : differ) (r : RecordConfig) : RecordKey × String :=
  (r.Key, d.fingerprint r)

/-! ## Sample data -/

/-- An `A` record of the zone `example.com`. -/
def sampleA (label : String) (ttl : Nat) (target : String) : RecordConfig :=
  { Type_ := "A", Name := label, NameFQDN := label ++ ".example.com", TTL := ttl,
    Target := target, TargetCombined := target, Metadata := [] }

/-- An apex `MX` record of the zone `example.com`. -/
def sampleMX (ttl pref : Nat) (host : String) : RecordConfig :=
  { Type_ := "MX", Name := "@", NameFQDN := "example.com", TTL := ttl,
    Target := host, TargetCombined := toString pref ++ " " ++ host, Metadata := [] }

/-- The glob `legacy.*` compiled with separator `.`: the literal `legacy.`
followed by any run of characters other than the separator. -/
def globLegacy : Glob := fun name =>
  HasPrefix name "legacy." && !((name.data.drop 7).contains '.')

/-- A differ without extra-value extractors. -/
def sampleDiffer (desired : List RecordConfig) (keepUnknown : Bool) (globs : List Glob) :
    differ :=
  { dc := { Records := desired, KeepUnknown := keepUnknown }, extraValues := [],
    compiledIgnoredLabels := globs }

/-! ## More of providers/bind/prettyzone.go -/

/-- The text with `sep` between the pieces: the inverse of `splitChars`. -/
def joinChars (sep : Char) : List (List Char) → List Char
  | [] => []
  | [w] => w
  | w :: w' :: ws => w ++ sep :: joinChars sep (w' :: ws)

/-- Two different components that are numerals of one value, such as `01` and
`1`. -/
def numericTie (x y : String) : Prop :=
  x ≠ y ∧ ParseUint x 64 ≠ none ∧ ParseUint x 64 = ParseUint y 64

instance (x y : String) : Decidable (numericTie x y) := by
  unfold numericTie; infer_instance

/-- The type code `dns.TypeSOA` of the `miekg/dns` library (RFC 1035). -/
def TypeSOA : Nat := 6

/-- The type code `dns.TypeNS` of the `miekg/dns` library (RFC 1035). -/
def TypeNS : Nat := 2

/-- Go `zoneRrtypeLess`, on `uint16` type codes. -/
def zoneRrtypeLess (a b : Nat) : Bool :=
  if a = b then false
  else if a = TypeSOA then true
  else if b = TypeSOA then false
  else if a = TypeNS then true
  else if b = TypeNS then false
  else decide (a < b)

/-- The position of a type code in the order of `zoneRrtypeLess`. -/
def rrtypeRank (a : Nat) : Nat :=
  if a = TypeSOA then 0 else if a = TypeNS then 1 else a + 2

/-! ## pkg/nameservers/nameservers.go -/

/-- Go `strings.TrimRight(s, cutset)`: `s` without its trailing characters that
occur in `cutset`. -/
def TrimRight (s cutset : String) : String :=
  ⟨(s.data.reverse.dropWhile (fun c => cutset.data.contains c)).reverse⟩

/-- Go `strings.HasSuffix`. -/
def HasSuffix (s suffix : String) : Bool := suffix.data.isSuffixOf s.data

/-- The body of the loop of `DetermineNameservers` for a queried binding: of the
driver's list `nss` the first `take` entries, each with its name trimmed, are
appended, where `take` is `len(nss)`, or `n` if `0 < n < len(nss)`. -/
def appendNameservers (n : Int) (nss ns : List Nameserver) : List Nameserver :=
  let take : Int := if n > 0 ∧ n < nss.length then n else nss.length
  ns ++ (nss.take take.toNat).map (fun x => { x with Name := TrimRight x.Name "." })

/-- The loop of `DetermineNameservers` over the DSP bindings. -/
def determineLoop (name : String) :
    List DNSProviderInstance → List Nameserver → Except String (List Nameserver)
  | [], ns => .ok ns
  | dnsProvider :: rest, ns =>
    if dnsProvider.NumberOfNameservers = 0 then determineLoop name rest ns
    else
      match dnsProvider.GetNameservers name with
      | .error err => .error err
      | .ok nss => determineLoop name rest (appendNameservers dnsProvider.NumberOfNameservers nss ns)

/-- Go `DetermineNameservers`. -/
def DetermineNameservers (dc : DomainConfig) : Except String (List Nameserver) :=
  determineLoop dc.Name dc.DNSProviderInstances dc.Nameservers

/-- The list a driver reports for the domain, empty when it fails. -/
def DNSProviderInstance.reported (p : DNSProviderInstance) (name : String) : List Nameserver :=
  match p.GetNameservers name with
  | .ok nss => nss
  | .error _ => []

/-- What one binding with quota `n` and driver list `l` is expected to
contribute: nothing for `n = 0`, the first `min(len(l), n)` entries for `n > 0`,
all of `l` for `n < 0`, each name without its trailing dots. -/
def quotaNameservers (n : Int) (l : List Nameserver) : List Nameserver :=
  if n = 0 then []
  else if n > 0 then (l.take (min l.length n.toNat)).map (fun x => ⟨TrimRight x.Name "."⟩)
  else l.map (fun x => ⟨TrimRight x.Name "."⟩)

/-- A driver that reports the given names. -/
def sampleProvider (quota : Int) (names : List String) : DNSProviderInstance :=
  { Name := "dsp", NumberOfNameservers := quota,
    GetNameservers := fun _ => .ok (names.map Nameserver.mk) }

/-- A driver whose lookup fails. -/
def failingProvider (quota : Int) : DNSProviderInstance :=
  { Name := "down", NumberOfNameservers := quota, GetNameservers := fun _ => .error "down" }

/-- Modelled from the spec: `RecordConfig.SetLabel` of package models, which is
not part of the sources.  Spec 4.1: it "stores the label as apex (`@`) when
`name == origin` or empty, otherwise as the short name"; spec 3: labelFQDN is
"equal to `origin` when label is `@`, otherwise `label + "." + origin`". -/
def RecordConfig.SetLabel (rc : RecordConfig) (name origin : String) : RecordConfig :=
  let label := if name = origin ∨ name = "" then "@" else name
  { rc with Name := label,
            NameFQDN := if label = "@" then origin else label ++ "." ++ origin }

/-- Modelled from the spec: `RecordConfig.SetTarget` of package models, which is
not part of the sources, on a record of a hostname-valued type.  Spec 4.1: it
"ensures absolute hostnames for `CNAME`/`NS`/`PTR`/`MX` targets; fails with
`InvalidTarget` on malformed input"; spec 3: such targets "are stored as absolute
names ending in `.`".  An absolute name is stored, any other value is refused
(`none`). -/
def RecordConfig.SetTarget (rc : RecordConfig) (value : String) : Option RecordConfig :=
  if HasSuffix value "." then some { rc with Target := value, TargetCombined := value }
  else none

/-- The TTL `AddNSRecords` gives its records: 300, or the `ns_ttl` metadata
entry when it parses as an unsigned 32-bit decimal number. -/
def nsTTL (dc : DomainConfig) : Nat :=
  match dc.Metadata.lookup "ns_ttl" with
  | some ttls =>
    match ParseUint ttls 32 with
    | none => 300
    | some t => t % u32
  | none => 300

/-- The record the loop of `AddNSRecords` builds for one nameserver.  The error
`SetTarget` may return is dropped, as in the source. -/
def nsRecord (dc : DomainConfig) (ttl : Nat) (ns : Nameserver) : RecordConfig :=
  let rc : RecordConfig :=
    { Type_ := "NS", Name := "", NameFQDN := "", TTL := ttl, Target := "",
      TargetCombined := "", Metadata := [] }
  let rc := rc.SetLabel "@" dc.Name
  let t := if ¬ HasSuffix ns.Name "." then ns.Name ++ "." else ns.Name
  match rc.SetTarget t with
  | some rc' => rc'
  | none => rc

/-- Go `AddNSRecords`: the domain with one record appended per nameserver. -/
def AddNSRecords (dc : DomainConfig) : DomainConfig :=
  let ttl := nsTTL dc
  let records := dc.Nameservers.foldl (fun records ns => records ++ [nsRecord dc ttl ns])
    dc.Records
  { dc with Records := records }

/-- The domain of the nameserver injection scenario: three resolved nameservers
and the given metadata. -/
def sampleDomain (metadata : ValueMap) : DomainConfig :=
  { Records := [sampleA "www" 300 "1.2.3.4"], KeepUnknown := false, Name := "example.com",
    Nameservers := [⟨"ns1.example.net"⟩, ⟨"d1.x"⟩, ⟨"d2.x."⟩], Metadata := metadata }

/-! ## The records of the zone serializer -/

/-- Go `dns.RR_Header` of the `miekg/dns` library. -/
structure RR_Header where
  Name : String
  Rrtype : Nat
  Class : Nat
  Ttl : Nat
  deriving DecidableEq, Repr

/-- The implementations of `dns.RR` that `zoneGenData.Less` looks into, with the
fields it reads; an IP address is its bytes. -/
inductive RData where
  | A (A : List Nat)
  | AAAA (AAAA : List Nat)
  | MX (Preference : Nat) (Mx : String)
  | SRV (Priority Weight Port : Nat) (Target : String)
  | PTR (Ptr : String)
  | CAA (Flag : Nat) (Tag Value : String)
  | other (rdata : String)
  deriving DecidableEq, Repr

/-- A Go `dns.RR`: its header and the record behind the interface. -/
structure RR where
  Hdr : RR_Header
  Data : RData
  deriving DecidableEq, Repr

/-- The type code `dns.TypeA`. -/
def TypeA : Nat := 1

/-- The type code `dns.TypePTR`. -/
def TypePTR : Nat := 12

/-- The type code `dns.TypeMX`. -/
def TypeMX : Nat := 15

/-- The type code `dns.TypeAAAA`. -/
def TypeAAAA : Nat := 28

/-- The type code `dns.TypeSRV`. -/
def TypeSRV : Nat := 33

/-- The type code `dns.TypeCAA`. -/
def TypeCAA : Nat := 257

/-- The class code `dns.ClassINET`. -/
def ClassINET : Nat := 1

/-- The functions of the `miekg/dns` library the serializer calls, taken as
given: `dnsutil.AddOrigin`, `dnsutil.TrimDomainName`, the `String` method of a
record and the table `dns.TypeToString`. -/
structure DnsLib where
  AddOrigin : String → String → String
  TrimDomainName : String → String → String
  rrString : RR → String
  TypeToString : Nat → String

/-- Go `net.IP.To4`: the four-byte form of an address, `none` for nil. -/
def To4 (ip : List Nat) : Option (List Nat) :=
  if ip.length = 4 then some ip
  else if ip.length = 16 ∧ ip.take 10 = List.replicate 10 0 ∧ ip.drop 10 = 255 :: 255 :: ip.drop 12
  then some (ip.drop 12)
  else none

/-- Go `net.IP.To16`: the sixteen-byte form of an address, nil being the empty
slice. -/
def To16 (ip : List Nat) : List Nat :=
  if ip.length = 4 then List.replicate 10 0 ++ [255, 255] ++ ip
  else if ip.length = 16 then ip
  else []

/-- The test `bytes.Compare(a, b) == -1`. -/
def bytesLess (a b : List Nat) : Bool := decide (a < b)

/-- Go `zoneGenData`. -/
structure zoneGenData where
  Origin : String
  DefaultTTL : Nat
  Records : List RR

/-- The body of `zoneGenData.Less` on the two records `a` and `b`; `none` is a
failed type assertion or the `log.Fatalf` on an address that is not four bytes. -/
def lessRR (lib : DnsLib) (origin : String) (a b : RR) : Option Bool :=
  let compA := lib.AddOrigin a.Hdr.Name (origin ++ ".")
  let compB := lib.AddOrigin b.Hdr.Name (origin ++ ".")
  if compA ≠ compB then
    let compA := if compA = origin ++ "." then "@" else compA
    let compB := if compB = origin ++ "." then "@" else compB
    some (zoneLabelLess compA compB)
  else
    let rrtypeA := a.Hdr.Rrtype
    let rrtypeB := b.Hdr.Rrtype
    if rrtypeA ≠ rrtypeB then some (zoneRrtypeLess rrtypeA rrtypeB)
    else
      let byText := some (stringLess (lib.rrString a) (lib.rrString b))
      if rrtypeA = TypeA then
        match a.Data, b.Data with
        | .A ta, .A tb =>
          match To4 ta, To4 tb with
          | some ipa, some ipb => some (bytesLess ipa ipb)
          | _, _ => none
        | _, _ => none
      else if rrtypeA = TypeAAAA then
        match a.Data, b.Data with
        | .AAAA ta, .AAAA tb => some (bytesLess (To16 ta) (To16 tb))
        | _, _ => none
      else if rrtypeA = TypeMX then
        match a.Data, b.Data with
        | .MX pa mxa, .MX pb mxb =>
          if pa ≠ pb then some (decide (pa < pb)) else some (stringLess mxa mxb)
        | _, _ => none
      else if rrtypeA = TypeSRV then
        match a.Data, b.Data with
        | .SRV prioA weightA portA _, .SRV prioB weightB portB _ =>
          if portA ≠ portB then some (decide (portA < portB))
          else if prioA ≠ prioB then some (decide (prioA < prioB))
          else if weightA ≠ weightB then some (decide (weightA < weightB))
          else byText
        | _, _ => none
      else if rrtypeA = TypePTR then
        match a.Data, b.Data with
        | .PTR pa, .PTR pb => if pa ≠ pb then some (stringLess pa pb) else byText
        | _, _ => none
      else if rrtypeA = TypeCAA then
        match a.Data, b.Data with
        | .CAA fa ta _, .CAA fb tb _ =>
          if ta ≠ tb then some (stringLess ta tb)
          else if fa ≠ fb then some (decide (fa > fb))
          else byText
        | _, _ => none
      else byText

/-- Go `zoneGenData.Less`; an index out of range is `none`. -/
def zoneGenData.Less (lib : DnsLib) (z : zoneGenData) (i j : Nat) : Option Bool :=
  match z.Records[i]?, z.Records[j]? with
  | some a, some b => lessRR lib z.Origin a b
  | _, _ => none

/-- A Go `map[uint32]int`, as its entries in insertion order. -/
abbrev TTLCounts := List (Nat × Nat)

/-- The statement `d[ttl]++`. -/
def TTLCounts.incr : TTLCounts → Nat → TTLCounts
  | [], ttl => [(ttl, 1)]
  | (k, v) :: rest, ttl =>
    if k = ttl then (k, v + 1) :: rest else (k, v) :: TTLCounts.incr rest ttl

/-- The first loop of `mostCommonTTL`: the TTLs of the records that are not NS
records are counted. -/
def countTTLs (records : List RR) : TTLCounts :=
  records.foldl (fun d r => if r.Hdr.Rrtype ≠ TypeNS then d.incr r.Hdr.Ttl else d) []

/-- Go `mostCommonTTL`. -/
def mostCommonTTL (records : List RR) : Nat :=
  let d := countTTLs records
  let mc : Nat := d.foldl (fun (mc : Nat) e => if e.2 > mc then e.2 else mc) 0
  let mk : Nat :=
    d.foldl (fun (mk : Nat) e => if e.2 = mc then (if e.1 > mk then e.1 else mk) else mk) 0
  mk

/-- The TTLs of the records that are not NS records. -/
def nonNSTTLs (records : List RR) : List Nat :=
  (records.filter (fun r => decide (r.Hdr.Rrtype ≠ TypeNS))).map (fun r => r.Hdr.Ttl)

/-- A library whose `String` method renders a record as its owner name. -/
def sampleLib : DnsLib :=
  { AddOrigin := fun s _ => s, TrimDomainName := fun s _ => s,
    rrString := fun r => r.Hdr.Name, TypeToString := fun t => toString t }

/-- A record of the zone `example.com.` with the given type, TTL and data. -/
def sampleRR (name : String) (rrtype ttl : Nat) (data : RData) : RR :=
  { Hdr := { Name := name, Rrtype := rrtype, Class := ClassINET, Ttl := ttl }, Data := data }

/-- A zone holding the two given records. -/
def sampleZone (a b : RR) : zoneGenData := ⟨"example.com", 300, [a, b]⟩

/-- The keys of a count map. -/
def TTLCounts.keys (d : TTLCounts) : List Nat := d.map Prod.fst

/-- The count map holds exactly the TTLs of `ttls`, each with the number of its
occurrences. -/
def TTLCounts.counts (d : TTLCounts) (ttls : List Nat) : Prop :=
  d.keys.Nodup ∧ ∀ k v, (k, v) ∈ d ↔ (v = ttls.count k ∧ 0 < v)


/-! ## providers/bind/prettyzone.go: formatLine -/

/-- A Go `int` after an addition: the sum wrapped to 64 bits, two's complement. -/
def wrapInt64 (x : Int) : Int := (x + 2 ^ 63) % 2 ^ 64 - 2 ^ 63

/-- The string of `n` spaces. -/
def spaces (n : Nat) : String := ⟨List.replicate n ' '⟩

/-- The loop `for len(result) < c { result += " " }` of `formatLine`; Go `len` is
the length in bytes. -/
def padTo (result : String) (c : Int) : String :=
  result ++ spaces (c - result.utf8ByteSize).toNat

/-- The loop of `formatLine` from position `i` on, with `lengths` and `fields` the
slices from `i` on: `fields[i]` beyond the end of the slice is a panic, `none`. -/
def formatLineLoop : List Int → List String → Int → String → Option String
  | [], _, _, result => some result
  | _ :: _, [], _, _ => none
  | length :: lengths, item :: fields, c, result =>
    let result := padTo result c
    let result := if item ≠ "" then result ++ item ++ " " else result
    formatLineLoop lengths fields (wrapInt64 (c + (length + 1))) result

/-- Go `formatLine`. -/
def formatLine (lengths : List Int) (fields : List String) : Option String :=
  (formatLineLoop lengths fields 0 "").map (fun result => TrimRight result " ")

/-- The text a column adds to the line: `pad` spaces, then the field and one space
if the field is not empty. -/
def cell (pad : Nat) (field : String) : String :=
  spaces pad ++ (if field = "" then "" else field ++ " ")

/-- The columns of the line one after the other. -/
def cells : List Nat → List String → String
  | pad :: pads, field :: fields => cell pad field ++ cells pads fields
  | _, _ => ""

/-- The field occurs in the line at byte offset `o`. -/
def startsAt (line field : String) (o : Int) : Bool :=
  (List.range (line.length + 1)).any fun n =>
    decide ((String.utf8Len (line.data.take n) : Int) = o) &&
      field.data.isPrefixOf (line.data.drop n)


/-! ## providers/bind/prettyzone.go: generateZoneFileHelper -/

/-- The pieces of Go `strings.SplitN` on a character list: at most `n` pieces, the
last one the unsplit rest; none for `n = 0`. -/
def splitNChars (sep : Char) : Nat → List Char → List (List Char)
  | 0, _ => []
  | 1, cs => [cs]
  | _ + 2, [] => [[]]
  | n + 2, c :: cs =>
    if c = sep then [] :: splitNChars sep (n + 1) cs
    else
      match splitNChars sep (n + 2) cs with
      | [] => [[c]]
      | w :: ws => (c :: w) :: ws

/-- Go `strings.SplitN(s, "\t", n)` for `n ≥ 0`. -/
def SplitN (s : String) (n : Nat) : List String := (splitNChars '\t' n s.data).map String.mk

/-- The statement `line= trim( line[0], ';')` of the loop.  No `trim` is declared in
the repository and the statement is not Go as it stands; it is read as what it
spells, the line without a `;` at `line[0]`.  `line[0]` of an empty line is a panic,
`none`. -/
def trimLine (line : String) : Option String :=
  match line.data with
  | [] => none
  | c :: cs => some (if c = ';' then ⟨cs⟩ else line)

/-- The first three statements on `line` in the loop of `generateZoneFileHelper`:
`line := rr.String()`, the trimming of `line` and
`items := strings.SplitN(line, "\t", 5)`. -/
def zoneItems (lib : DnsLib) (rr : RR) : Option (List String) :=
  let line := lib.rrString rr
  match trimLine line with
  | none => none
  | some line => some (SplitN line 5)

/-- The body of the loop of `generateZoneFileHelper` for the record `rr` at index `i`,
up to the call of `formatLine`: the fields of the line. An index out of range and
the `log.Fatalf` on a class other than `IN` are errors. -/
def zoneFields (lib : DnsLib) (z : zoneGenData)
    (i : Nat) (nameShortPrevious : String) (rr : RR) : Except String (List String) :=
  match zoneItems lib rr with
  | none => .error "index out of range"
  | some items =>
    let hdr := rr.Hdr
    let nameFqdn := hdr.Name
    let nameShort := lib.TrimDomainName nameFqdn z.Origin
    let name := if i > 0 ∧ nameShort = nameShortPrevious then "" else nameShort
    match (if hdr.Ttl ≠ z.DefaultTTL ∧ hdr.Ttl ≠ 0 then items[1]? else some "") with
    | none => .error "index out of range"
    | some ttl =>
      if hdr.Class ≠ ClassINET then .error "generateZoneFileHelper: Unimplemented class"
      else
        let typeStr := lib.TypeToString hdr.Rrtype
        match items[4]? with
        | none => .error "index out of range"
        | some target => .ok [name, ttl, "IN", typeStr, target]

/-- The loop of `generateZoneFileHelper` from index `i` on: the lines printed for the
records that are left. -/
def zoneLinesLoop (lib : DnsLib) (z : zoneGenData) :
    Nat → String → List RR → Except String (List String)
  | _, _, [] => .ok []
  | i, nameShortPrevious, rr :: rest =>
    match zoneFields lib z i nameShortPrevious rr with
    | .error e => .error e
    | .ok fields =>
      match formatLine [10, 5, 2, 5, 0] fields with
      | none => .error "index out of range"
      | some line =>
        match zoneLinesLoop lib z (i + 1) (lib.TrimDomainName rr.Hdr.Name z.Origin) rest with
        | .error e => .error e
        | .ok lines => .ok (line :: lines)

/-- Go `zoneGenData.generateZoneFileHelper`: the lines written to `w`. The library
function `sort.Sort` is taken as given, from the comparison `Less` and the records
to the records in their new order, `none` if the comparison panics. -/
def generateZoneFileHelper (lib : DnsLib)
    (sortSort : (RR → RR → Option Bool) → List RR → Option (List RR))
    (z : zoneGenData) : Except String (List String) :=
  match sortSort (lessRR lib z.Origin) z.Records with
  | none => .error "panic in Less"
  | some records =>
    let z : zoneGenData := { z with Records := records }
    match zoneLinesLoop lib z 0 "" z.Records with
    | .error e => .error e
    | .ok lines => .ok (("$TTL " ++ toString z.DefaultTTL) :: lines)

/-- The functions of the `miekg/dns` library together with what the library promises
of them and the zone writer relies on: `TrimDomainName` never returns the empty
string (the apex is `@`), and the text of a record is its header, that is the owner
name, the TTL in decimal, the class and the type, each followed by a tab, and then
its data. -/
structure ZoneLib extends DnsLib where
  TrimDomainName_ne : ∀ s origin : String, TrimDomainName s origin ≠ ""
  rrString_header : ∀ rr : RR, ∃ name cls typ rdata : String,
    rrString rr
        = name ++ "\t" ++ Nat.repr rr.Hdr.Ttl ++ "\t" ++ cls ++ "\t" ++ typ ++ "\t" ++ rdata ∧
      '\t' ∉ name.data ∧ '\t' ∉ cls.data ∧ '\t' ∉ typ.data

/-- The loop `insertionSort` of Go's package `sort`, which is all `sort.Sort` runs on
a slice of at most six elements: the element at `i` is swapped to the left while
it is `Less` than its left neighbour.  The sorted part is kept last element
first. -/
def insertLeft (less : RR → RR → Option Bool) (x : RR) : List RR → Option (List RR)
  | [] => some [x]
  | y :: ys =>
    match less x y with
    | none => none
    | some true => (insertLeft less x ys).map (fun l => y :: l)
    | some false => some (x :: y :: ys)

/-- Go `sort.Sort` on a slice of at most six elements. -/
def insertionSort (less : RR → RR → Option Bool) (records : List RR) : Option (List RR) :=
  (records.foldl (fun acc x => acc.bind (insertLeft less x)) (some [])).map List.reverse

/-- The text of a type code in the sample library. -/
def typeText (t : Nat) : String :=
  if t = 1 then "A" else if t = 2 then "NS" else if t = 5 then "CNAME"
  else if t = 6 then "SOA" else if t = 15 then "MX" else if t = 16 then "TXT"
  else if t = 28 then "AAAA" else "TYPE"

/-- The text of the data of a record in the sample library: an address as its bytes
in decimal with dots between them. -/
def rdataText : RData → String
  | .A ip => ".".intercalate (ip.map Nat.repr)
  | .AAAA ip => ":".intercalate (ip.map Nat.repr)
  | .MX p mx => Nat.repr p ++ " " ++ mx
  | .SRV p w port t => Nat.repr p ++ " " ++ Nat.repr w ++ " " ++ Nat.repr port ++ " " ++ t
  | .PTR ptr => ptr
  | .CAA f tag v => Nat.repr f ++ " " ++ tag ++ " " ++ v
  | .other rdata => rdata

/-- A library for the sample zones, with the library's behaviour on plain names:
`AddOrigin` leaves a name that ends with a dot as it is, `TrimDomainName` drops the
origin and the dot before it and gives `@` for the origin itself, and the text of a
record is its header and data with tabs between; a tab in a name is written
`\009`. -/
def sampleZoneLib : ZoneLib where
  AddOrigin := fun s origin =>
    if HasSuffix s "." then s
    else if origin = "" then s
    else if s = "@" ∨ s = "" then origin
    else if origin = "." then s ++ "."
    else s ++ "." ++ origin
  TrimDomainName := fun s origin =>
    let t : String :=
      if s = origin then ""
      else if HasSuffix s ("." ++ origin) then
        ⟨s.data.take (s.data.length - origin.data.length - 1)⟩
      else s
    if t = "" then "@" else t
  rrString := fun rr =>
    (⟨rr.Hdr.Name.data.flatMap (fun c => if c = '\t' then ['\\', '0', '0', '9'] else [c])⟩ :
        String) ++ "\t" ++ Nat.repr rr.Hdr.Ttl ++ "\t" ++
      (if rr.Hdr.Class = 1 then "IN" else "CLASS") ++ "\t" ++ typeText rr.Hdr.Rrtype ++ "\t" ++
      rdataText rr.Data
  TypeToString := typeText
  TrimDomainName_ne := by
    intro s origin
    simp only
    split_ifs with h1 h2 h3 h4 h5 <;> first | decide | assumption
  rrString_header := by
    intro rr
    refine ⟨_, _, _, _, rfl, ?_, ?_, ?_⟩
    · simp only [List.mem_flatMap, not_exists, not_and]
      intro c _ hc
      split_ifs at hc with h
      · revert hc; decide
      · simp only [List.mem_singleton] at hc
        exact h hc.symm
    · split_ifs <;> decide
    · unfold typeText
      split_ifs <;> decide

/-- A zone `example.com.` with its default TTL 300: the apex, two records under
`www`, one with TTL 0 and one with TTL 7200. -/
def sampleZoneFile : zoneGenData :=
  ⟨"example.com.", 300,
    [sampleRR "www.example.com." 1 300 (.A [1, 2, 3, 4]),
     sampleRR "www.example.com." 1 600 (.A [1, 2, 3, 5]),
     sampleRR "ftp.example.com." 1 0 (.A [5, 6, 7, 8]),
     sampleRR "example.com." 1 300 (.A [1, 1, 1, 1]),
     sampleRR "mail.example.com." 1 7200 (.A [9, 9, 9, 9])]⟩

/-! ## More sample data -/

/-- The records `9`, `10` and `1a` of the zone `example.com.`. -/
def cycleZone : zoneGenData :=
  ⟨"example.com.", 300,
    [sampleRR "9.example.com." 1 300 (.A [1, 2, 3, 4]),
     sampleRR "10.example.com." 1 300 (.A [1, 2, 3, 4]),
     sampleRR "1a.example.com." 1 300 (.A [1, 2, 3, 4])]⟩

/-- The records `01` and `1` of the zone `example.com.`. -/
def tieZone : zoneGenData :=
  ⟨"example.com.", 300,
    [sampleRR "01.example.com." 1 300 (.A [1, 2, 3, 4]),
     sampleRR "1.example.com." 1 300 (.A [1, 2, 3, 4])]⟩

/-- Desired records for a diff with one record of each fate. -/
def mixedDesired : List RecordConfig :=
  [sampleA "www" 300 "1.2.3.4", sampleA "mail" 600 "5.6.7.8", sampleA "new" 300 "9.9.9.9"]

/-- Existing records for a diff with one record of each fate: `www` is unchanged,
`mail` has another TTL, `old` is not desired and `legacy.x` is ignored. -/
def mixedExisting : List RecordConfig :=
  [sampleA "www" 300 "1.2.3.4", sampleA "mail" 300 "5.6.7.8", sampleA "old" 300 "7.7.7.7",
    sampleA "legacy.x" 300 "6.6.6.6"]

/-- The plan of the diff of `mixedExisting` against `mixedDesired`. -/
def mixedPlan : Plan :=
  { unchanged := [⟨some (sampleA "www" 300 "1.2.3.4"), some (sampleA "www" 300 "1.2.3.4")⟩]
    create := [⟨none, some (sampleA "new" 300 "9.9.9.9")⟩]
    toDelete := [⟨some (sampleA "old" 300 "7.7.7.7"), none⟩]
    modify := [⟨some (sampleA "mail" 300 "5.6.7.8"), some (sampleA "mail" 600 "5.6.7.8")⟩] }


/-! ## providers/bind/bindProvider.go -/

/-- Go `SoaInfo`; the five numbers are `uint32`. -/
structure SoaInfo where
  Ns : String
  Mbox : String
  Serial : Nat
  Refresh : Nat
  Retry : Nat
  Expire : Nat
  Minttl : Nat
  deriving DecidableEq, Repr

/-- Go `SoaInfo.String`: `fmt.Sprintf("%s %s %d %d %d %d %d", ...)` of the seven
fields. -/
def SoaInfo.String (s : SoaInfo) : String :=
  s.Ns ++ " " ++ s.Mbox ++ " " ++ Nat.repr s.Serial ++ " " ++ Nat.repr s.Refresh ++ " " ++
    Nat.repr s.Retry ++ " " ++ Nat.repr s.Expire ++ " " ++ Nat.repr s.Minttl

/-- Modelled from the spec: `RecordConfig.SetTarget` of package models, which is
not part of the sources, on a record of type SOA.  Spec 4.1 calls `setTarget`
"type-dispatched" and names a check for the address types `A`/`AAAA` and the
hostname types `CNAME`/`NS`/`PTR`/`MX` only; the text of an SOA record is stored
as given. -/
def RecordConfig.SetTargetSOA (rc : RecordConfig) (value : String) : Option RecordConfig :=
  some { rc with Target := value, TargetCombined := value }

/-- Go `makeDefaultSOA`; `len(s) == 0` is on the byte length.  The error
`SetTarget` may return is dropped, as in the source. -/
def makeDefaultSOA (info : SoaInfo) (origin : String) : RecordConfig :=
  let soaRec : RecordConfig :=
    { Type_ := "SOA", Name := "", NameFQDN := "", TTL := 0, Target := "",
      TargetCombined := "", Metadata := [] }
  let soaRec := soaRec.SetLabel "@" origin
  let info := if info.Ns.utf8ByteSize = 0 then { info with Ns := "DEFAULT_NOT_SET." } else info
  let info :=
    if info.Mbox.utf8ByteSize = 0 then { info with Mbox := "DEFAULT_NOT_SET." } else info
  let info := if info.Serial = 0 then { info with Serial := 1 } else info
  let info := if info.Refresh = 0 then { info with Refresh := 3600 } else info
  let info := if info.Retry = 0 then { info with Retry := 600 } else info
  let info := if info.Expire = 0 then { info with Expire := 604800 } else info
  let info := if info.Minttl = 0 then { info with Minttl := 1440 } else info
  match soaRec.SetTargetSOA info.String with
  | some rc => rc
  | none => soaRec

/-! ## providers/config/providerConfig.go -/

/-- The process environment, as its entries. -/
abbrev Environ := List (String × String)

/-- Go `os.Getenv`: the value of the variable, the empty string when it is not
set. -/
def Getenv (environ : Environ) (key : String) : String := (environ.lookup key).getD ""

/-- The statement `keys[k] = newVal` on a Go `map[string]string`. -/
def ValueMap.set : ValueMap → String → String → ValueMap
  | [], k, v => [(k, v)]
  | (k', v') :: rest, k, v =>
    if k' = k then (k, v) :: rest else (k', v') :: ValueMap.set rest k v

/-- The inner loop of `replaceEnvVars` over the entries of one map, writing to
the map `keys`; `v[1:]` after the one-byte prefix `$` is the text without its
first character. -/
def replaceKeys (environ : Environ) : List (String × String) → ValueMap → ValueMap
  | [], keys => keys
  | (k, v) :: rest, keys =>
    if HasPrefix v "$" then
      let env : String := ⟨v.data.drop 1⟩
      let newVal := Getenv environ env
      replaceKeys environ rest (keys.set k newVal)
    else replaceKeys environ rest keys

/-- Go `replaceEnvVars`: the mapping after the loops, which write to the inner
maps in place, and the `nil` error. -/
def replaceEnvVars (environ : Environ) (m : List (String × ValueMap)) :
    Except String (List (String × ValueMap)) :=
  .ok (m.map (fun e => (e.1, replaceKeys environ e.2 e.2)))

/-! # Theorems -/

/-! ## Decimal rendering and parsing -/

theorem digitsValue_foldl (v : Nat) (cs : List Char) :
    cs.foldl (fun v c => v * 10 + (c.toNat - 48)) v = v * 10 ^ cs.length + digitsValue cs := by
  induction cs generalizing v with
  | nil => simp [digitsValue]
  | cons c cs ih =>
    simp only [List.foldl_cons, List.length_cons, digitsValue]
    rw [ih, ih (0 * 10 + (c.toNat - 48))]
    ring

theorem digitsValue_append (a b : List Char) :
    digitsValue (a ++ b) = digitsValue a * 10 ^ b.length + digitsValue b := by
  unfold digitsValue
  rw [List.foldl_append, digitsValue_foldl]
  rfl

theorem digitsValue_replicate_zero (k : Nat) : digitsValue (List.replicate k '0') = 0 := by
  induction k with
  | zero => rfl
  | succ k ih =>
    rw [List.replicate_succ, ← List.singleton_append, digitsValue_append, ih]
    have : digitsValue ['0'] = 0 := by decide
    simp [this]

theorem digitChar_value (d : Nat) (h : d < 10) : (Nat.digitChar d).toNat - 48 = d := by
  interval_cases d <;> rfl

theorem digitChar_isDigit (d : Nat) (h : d < 10) : (Nat.digitChar d).isDigit = true := by
  interval_cases d <;> rfl

theorem toDigitsCore_append (f n : Nat) (acc : List Char) :
    Nat.toDigitsCore 10 f n acc = Nat.toDigitsCore 10 f n [] ++ acc := by
  induction f generalizing n acc with
  | zero => simp [Nat.toDigitsCore]
  | succ f ih =>
    simp only [Nat.toDigitsCore]
    split
    · simp
    · rw [ih, ih (n / 10) [_]]; simp

theorem digitsValue_toDigitsCore (f n : Nat) (h : n < f) :
    digitsValue (Nat.toDigitsCore 10 f n []) = n := by
  induction f generalizing n with
  | zero => omega
  | succ f ih =>
    simp only [Nat.toDigitsCore]
    split
    · rename_i h0
      have : n < 10 := by omega
      show 0 * 10 + ((Nat.digitChar (n % 10)).toNat - 48) = n
      rw [digitChar_value _ (Nat.mod_lt _ (by norm_num))]; omega
    · rename_i h0
      rw [toDigitsCore_append, digitsValue_append, ih (n / 10) (by omega)]
      show n / 10 * 10 ^ 1 + (0 * 10 + ((Nat.digitChar (n % 10)).toNat - 48)) = n
      rw [digitChar_value _ (Nat.mod_lt _ (by norm_num))]; omega

theorem allDigits_toDigitsCore (f n : Nat) :
    (Nat.toDigitsCore 10 f n []).all Char.isDigit = true := by
  induction f generalizing n with
  | zero => simp [Nat.toDigitsCore]
  | succ f ih =>
    simp only [Nat.toDigitsCore]
    split
    · simp [digitChar_isDigit _ (Nat.mod_lt n (by norm_num : 10 > 0))]
    · rw [toDigitsCore_append, List.all_append, ih]
      simp [digitChar_isDigit _ (Nat.mod_lt n (by norm_num : 10 > 0))]

theorem repr_data (n : Nat) : (Nat.repr n).data = Nat.toDigitsCore 10 (n + 1) n [] := rfl

theorem digitsValue_repr (n : Nat) : digitsValue (Nat.repr n).data = n :=
  digitsValue_toDigitsCore _ _ (Nat.lt_succ_self n)

theorem allDigits_repr (n : Nat) : (Nat.repr n).data.all Char.isDigit = true :=
  allDigits_toDigitsCore _ _

theorem repr_ne_nil (n : Nat) : (Nat.repr n).data ≠ [] := by
  rw [repr_data]; simp only [Nat.toDigitsCore]
  split
  · simp
  · rw [toDigitsCore_append]; simp

theorem zeroPad_value (w n : Nat) : digitsValue (zeroPad w n).data = n := by
  simp only [zeroPad]
  rw [digitsValue_append, digitsValue_replicate_zero, digitsValue_repr]; simp

theorem zeroPad_allDigits (w n : Nat) : (zeroPad w n).data.all Char.isDigit = true := by
  simp only [zeroPad]
  rw [List.all_append, allDigits_repr]
  simp

theorem zeroPad_length (w n : Nat) (hw : 0 < w) (h : n < 10 ^ w) :
    (zeroPad w n).data.length = w := by
  have := Nat.repr_length n w hw h
  simp only [String.length] at this
  simp only [zeroPad, List.length_append, List.length_replicate]
  omega

theorem Format_data (t : UTCDate) :
    t.Format20060102.data = (zeroPad 4 t.year).data ++ ((zeroPad 2 t.month).data ++
      (zeroPad 2 t.day).data) := by
  simp [UTCDate.Format20060102, String.data_append]

theorem Format_value (t : UTCDate) (hm : t.month < 100) (hd : t.day < 100) :
    digitsValue t.Format20060102.data = t.yyyymmdd := by
  rw [Format_data, digitsValue_append, digitsValue_append, zeroPad_value, zeroPad_value,
    zeroPad_value, List.length_append, zeroPad_length 2 _ (by norm_num) (by simpa using hm),
    zeroPad_length 2 _ (by norm_num) (by simpa using hd)]
  simp only [UTCDate.yyyymmdd]; ring

theorem Format_length (t : UTCDate) (hy : t.year < 10000) (hm : t.month < 100)
    (hd : t.day < 100) : t.Format20060102.data.length = 8 := by
  rw [Format_data, List.length_append, List.length_append,
    zeroPad_length 4 _ (by norm_num) (by simpa using hy),
    zeroPad_length 2 _ (by norm_num) (by simpa using hm),
    zeroPad_length 2 _ (by norm_num) (by simpa using hd)]

theorem ParseUint_Format (t : UTCDate) (hm : t.month < 100) (hd : t.day < 100)
    (h : t.yyyymmdd < 2 ^ 32) : ParseUint t.Format20060102 32 = some t.yyyymmdd := by
  have hne : t.Format20060102.data ≠ [] := by
    rw [Format_data]; simp only [zeroPad]
    intro h0
    have := congrArg List.length h0
    have h1 := repr_ne_nil t.day
    have h2 : 0 < (Nat.repr t.day).data.length := List.length_pos.mpr h1
    simp only [List.length_append, List.length_nil] at this
    omega
  have hall : t.Format20060102.data.all Char.isDigit = true := by
    rw [Format_data, List.all_append, List.all_append, zeroPad_allDigits, zeroPad_allDigits,
      zeroPad_allDigits]; rfl
  unfold ParseUint
  rw [if_neg hne, if_pos hall, Format_value t hm hd, if_pos h]

/-- A ten-character decimal rendering that starts with an eight-character
string has that string's value as its leading eight digits. -/
theorem prefix_value (old : Nat) (p : String) (hp : HasPrefix (FormatUint old) p = true)
    (hlen : (FormatUint old).data.length = 10) (hpl : p.data.length = 8) :
    digitsValue p.data * 100 ≤ old := by
  unfold HasPrefix at hp
  rw [List.isPrefixOf_iff_prefix] at hp
  obtain ⟨r, hr⟩ := hp
  have hv := digitsValue_repr old
  unfold FormatUint at hr hlen
  rw [← hr, digitsValue_append] at hv
  have hrl : r.length = 2 := by
    have := congrArg List.length hr
    simp only [List.length_append] at this
    omega
  rw [hrl] at hv
  omega

/-! ## The serial generator -/

theorem serialBranch_snd_lt (o d : Nat) (a b : String) (hd : d < u32) :
    (serialBranch o d a b).2 < u32 := by
  have hpos : 0 < u32 := by unfold u32; norm_num
  unfold serialBranch
  split_ifs <;> first | exact Nat.mod_lt _ hpos | exact hd

/-- With no wrap-around in reach, the five branches compute `max draft (old + 1)`. -/
theorem serialBranch_max (old : Nat) (today : UTCDate) (hv : today.valid)
    (hdraft : today.yyyymmdd * 100 + 1 < 2 ^ 32) (hold : old < 2 ^ 32 - 1) :
    (serialBranch old (today.yyyymmdd * 100 + 1) (FormatUint old) today.Format20060102).2
      = max (today.yyyymmdd * 100 + 1) (old + 1) := by
  obtain ⟨hm1, hm2, hd1, hd2⟩ := hv
  have hy : today.year < 10000 := by unfold UTCDate.yyyymmdd at hdraft; omega
  have hmod : (old + 1) % u32 = old + 1 := Nat.mod_eq_of_lt (by unfold u32; omega)
  unfold serialBranch
  split_ifs with h1 h2 h3 h4
  · simp only [hmod]; omega
  · subst h2; simp only [hmod]; omega
  · simp only; omega
  · simp only [hmod]
    have hlen : (FormatUint old).data.length = 10 := by simpa using h3
    have := prefix_value old _ h4 hlen (Format_length today hy (by omega) (by omega))
    rw [Format_value today (by omega) (by omega)] at this
    omega
  · simp only; omega

theorem generateSerial_eq_max (old : Nat) (today : UTCDate) (hv : today.valid)
    (hdraft : today.yyyymmdd * 100 + 1 < 2 ^ 32) (hold : old < 2 ^ 32 - 1) :
    generateSerial old today = .ok (max (today.yyyymmdd * 100 + 1) (old + 1)) := by
  have hp : ParseUint today.Format20060102 32 = some today.yyyymmdd :=
    ParseUint_Format today (by have := hv.2.1; omega) (by have := hv.2.2.2; omega) (by omega)
  have h1 : today.yyyymmdd % u32 = today.yyyymmdd := Nat.mod_eq_of_lt (by unfold u32; omega)
  have h2 : (today.yyyymmdd * 100 + 1) % u32 = today.yyyymmdd * 100 + 1 :=
    Nat.mod_eq_of_lt (by unfold u32; omega)
  unfold generateSerial
  simp only [hp, h1, h2, serialBranch_max old today hv hdraft hold]
  have hne : ¬ max (today.yyyymmdd * 100 + 1) (old + 1) = 0 := by omega
  rw [if_neg hne, if_neg (by omega), if_neg (by omega)]

/-- C1: for every 32-bit `oldSerial` and every date, a serial returned by
`generateSerial` is at least `oldSerial` and at least 1; and a serial is
returned for every `oldSerial` below `2^32 - 1` on every calendar date with a
four-digit year. -/
theorem generateSerial_monotone (oldSerial : Nat) (today : UTCDate)
    (hold : oldSerial < 2 ^ 32) :
    (∀ s, generateSerial oldSerial today = .ok s → oldSerial ≤ s ∧ 1 ≤ s) ∧
    (oldSerial < 2 ^ 32 - 1 → today.valid → today.year ≤ 9999 →
      ∃ s, generateSerial oldSerial today = .ok s) := by
  refine ⟨?_, ?_⟩
  · intro s hs
    unfold generateSerial at hs
    cases hp : ParseUint today.Format20060102 32 with
    | none => simp only [hp] at hs; cases hs
    | some t =>
      simp only [hp] at hs
      split_ifs at hs <;>
        (simp only [Except.ok.injEq] at hs; subst hs; constructor <;> omega)
  · intro h1 hv hy
    obtain ⟨hm1, hm2, hd1, hd2⟩ := hv
    have hp : ParseUint today.Format20060102 32 = some today.yyyymmdd :=
      ParseUint_Format today (by omega) (by omega) (by unfold UTCDate.yyyymmdd; omega)
    have hmod : (oldSerial + 1) % u32 = oldSerial + 1 := Nat.mod_eq_of_lt (by unfold u32; omega)
    have hpos : 0 < u32 := by unfold u32; norm_num
    unfold generateSerial
    simp only [hp]
    generalize ((today.yyyymmdd % u32) * 100 + 1) % u32 = draft
    have key : oldSerial < (serialBranch oldSerial draft (FormatUint oldSerial)
        today.Format20060102).2 := by
      unfold serialBranch
      split_ifs with a b c d
      · simp only [hmod]; omega
      · subst b; simp only [hmod]; omega
      · simp only; omega
      · simp only [hmod]; omega
      · simp only; omega
    generalize (serialBranch oldSerial draft (FormatUint oldSerial)
        today.Format20060102).2 = n at key
    have hn : ¬ n = 0 := by omega
    rw [if_neg hn, if_neg (by omega), if_neg (by omega)]
    exact ⟨n, rfl⟩

theorem generateSerial_monotone_witness :
    (∀ s, generateSerial 2019010101 ⟨2020, 6, 1⟩ = .ok s → 2019010101 ≤ s ∧ 1 ≤ s) ∧
    (2019010101 < 2 ^ 32 - 1 → UTCDate.valid ⟨2020, 6, 1⟩ → 2020 ≤ 9999 →
      ∃ s, generateSerial 2019010101 ⟨2020, 6, 1⟩ = .ok s) :=
  generateSerial_monotone 2019010101 ⟨2020, 6, 1⟩ (by decide)

/-- C2: when `draft = YYYYMMDD*100+1` fits in 32 bits and `oldSerial < 2^32-1`,
`generateSerial` returns `oldSerial + 1` if `oldSerial >= draft` and `draft` if
`oldSerial < draft`, that is `max draft (oldSerial + 1)`. -/
theorem generateSerial_max (oldSerial : Nat) (today : UTCDate) (hv : today.valid)
    (hdraft : today.yyyymmdd * 100 + 1 < 2 ^ 32) (hold : oldSerial < 2 ^ 32 - 1) :
    (today.yyyymmdd * 100 + 1 ≤ oldSerial →
      generateSerial oldSerial today = .ok (oldSerial + 1)) ∧
    (oldSerial < today.yyyymmdd * 100 + 1 →
      generateSerial oldSerial today = .ok (today.yyyymmdd * 100 + 1)) ∧
    generateSerial oldSerial today = .ok (max (today.yyyymmdd * 100 + 1) (oldSerial + 1)) := by
  have h := generateSerial_eq_max oldSerial today hv hdraft hold
  refine ⟨fun hle => ?_, fun hlt => ?_, h⟩
  · rw [h, max_eq_right (by omega)]
  · rw [h, max_eq_left (by omega)]

theorem generateSerial_max_witness :
    generateSerial 2019010101 ⟨2020, 6, 1⟩ = .ok 2020060101 ∧
    generateSerial 2020060105 ⟨2020, 6, 1⟩ = .ok 2020060106 :=
  ⟨(generateSerial_max 2019010101 ⟨2020, 6, 1⟩ (by decide) (by decide) (by decide)).2.1
      (by decide),
   (generateSerial_max 2020060105 ⟨2020, 6, 1⟩ (by decide) (by decide) (by decide)).1
      (by decide)⟩

/-! ## The diff engine: the passes -/

theorem content_ok (d : differ) (r : RecordConfig) : d.content r = .ok (d.fingerprint r) := by
  unfold differ.content RecordConfig.ToDiffable differ.fingerprint
  simp [List.foldl_map]

theorem findSameContent_eq (d : differ) (ex : RecordConfig) (des : List RecordConfig) :
    findSameContent d ex des
      = .ok (extractFirst (fun de => decide (d.fingerprint de = d.fingerprint ex)) des) := by
  induction des with
  | nil => rfl
  | cons de rest ih =>
    simp only [findSameContent, content_ok, ih, extractFirst]
    by_cases h : d.fingerprint de = d.fingerprint ex
    · simp [h]
    · simp only [ne_eq, h, not_false_eq_true, ↓reduceIte, decide_False, Bool.false_eq_true]
      cases extractFirst (fun de => decide (d.fingerprint de = d.fingerprint ex)) rest with
      | none => rfl
      | some x => rfl

theorem findSameTarget_eq (ex : RecordConfig) (des : List RecordConfig) :
    findSameTarget ex des
      = extractFirst (fun de => decide (de.GetTargetField = ex.GetTargetField)) des := by
  induction des with
  | nil => rfl
  | cons de rest ih =>
    simp only [findSameTarget, ih, extractFirst]
    by_cases h : de.GetTargetField = ex.GetTargetField <;> simp [h]

theorem exactMatchPass_greedy (d : differ) (ex de : List RecordConfig) (un : Changeset) :
    exactMatchPass d ex de un =
      .ok ((greedyPairs (fun e m => decide (d.fingerprint m = d.fingerprint e)) ex de).1,
        (greedyPairs (fun e m => decide (d.fingerprint m = d.fingerprint e)) ex de).2.1,
        un ++ (greedyPairs (fun e m => decide (d.fingerprint m = d.fingerprint e))
          ex de).2.2.map pairCorr) := by
  induction ex with
  | nil => simp [exactMatchPass, greedyPairs]
  | cons e higher ih =>
    simp only [exactMatchPass, ih, findSameContent_eq, greedyPairs]
    cases extractFirst (fun de => decide (d.fingerprint de = d.fingerprint e))
        (greedyPairs (fun e m => decide (d.fingerprint m = d.fingerprint e)) higher de).2.1 with
    | none => rfl
    | some x => simp [pairCorr]

theorem exactMatchPass_eq (d : differ) (ex de : List RecordConfig) (un : Changeset) :
    exactMatchPass d ex de un =
      .ok ((afterExact d ex de).1, (afterExact d ex de).2.1,
        un ++ (afterExact d ex de).2.2.map pairCorr) :=
  exactMatchPass_greedy d ex de un

theorem sameTargetPass_greedy (ex de : List RecordConfig) (mo : Changeset) :
    sameTargetPass ex de mo =
      ((greedyPairs (fun e m => decide (m.GetTargetField = e.GetTargetField)) ex de).1,
        (greedyPairs (fun e m => decide (m.GetTargetField = e.GetTargetField)) ex de).2.1,
        mo ++ (greedyPairs (fun e m => decide (m.GetTargetField = e.GetTargetField))
          ex de).2.2.map pairCorr) := by
  induction ex with
  | nil => simp [sameTargetPass, greedyPairs]
  | cons e higher ih =>
    simp only [sameTargetPass, ih, findSameTarget_eq, greedyPairs]
    cases extractFirst (fun de => decide (de.GetTargetField = e.GetTargetField))
        (greedyPairs (fun e m => decide (m.GetTargetField = e.GetTargetField)) higher de).2.1 with
    | none => rfl
    | some x => simp [pairCorr]

theorem sameTargetPass_eq (ex de : List RecordConfig) (mo : Changeset) :
    sameTargetPass ex de mo =
      ((greedyPairs sameTarget ex de).1, (greedyPairs sameTarget ex de).2.1,
        mo ++ (greedyPairs sameTarget ex de).2.2.map pairCorr) :=
  sameTargetPass_greedy ex de mo

theorem extractFirst_none (q : RecordConfig → Bool) (l : List RecordConfig) :
    extractFirst q l = none ↔ ∀ x ∈ l, q x = false := by
  induction l with
  | nil => simp [extractFirst]
  | cons a rest ih =>
    simp only [extractFirst, List.mem_cons, forall_eq_or_imp]
    by_cases h : q a = true
    · simp [h]
    · simp only [h, Bool.false_eq_true, ↓reduceIte, Bool.not_eq_true, true_and] at *
      rw [← ih]
      cases extractFirst q rest <;> simp

theorem extractFirst_some (q : RecordConfig → Bool) (l : List RecordConfig)
    (m : RecordConfig) (rest : List RecordConfig) (h : extractFirst q l = some (m, rest)) :
    q m = true ∧ l.Perm (m :: rest) := by
  induction l generalizing rest with
  | nil => simp [extractFirst] at h
  | cons a tl ih =>
    simp only [extractFirst] at h
    by_cases ha : q a = true
    · simp only [ha, ↓reduceIte, Option.some.injEq, Prod.mk.injEq] at h
      obtain ⟨rfl, rfl⟩ := h
      exact ⟨ha, List.Perm.refl _⟩
    · simp only [ha, Bool.false_eq_true, ↓reduceIte] at h
      cases hr : extractFirst q tl with
      | none => simp [hr] at h
      | some x =>
        obtain ⟨m', rest'⟩ := x
        simp only [hr, Option.some.injEq, Prod.mk.injEq] at h
        obtain ⟨rfl, rfl⟩ := h
        obtain ⟨hq, hp⟩ := ih rest' hr
        exact ⟨hq, (List.Perm.cons a hp).trans (List.Perm.swap _ _ _)⟩

theorem greedyPairs_perm_existing (q : RecordConfig → RecordConfig → Bool)
    (ex de : List RecordConfig) :
    ex.Perm ((greedyPairs q ex de).1 ++ (greedyPairs q ex de).2.2.map Prod.fst) := by
  induction ex with
  | nil => simp [greedyPairs]
  | cons e higher ih =>
    simp only [greedyPairs]
    cases extractFirst (q e) (greedyPairs q higher de).2.1 with
    | none => simpa using ih
    | some x =>
      simp only [List.map_append, List.map_cons, List.map_nil]
      rw [← List.append_assoc]
      exact (List.Perm.cons e ih).trans (List.perm_append_singleton _ _).symm

theorem greedyPairs_perm_desired (q : RecordConfig → RecordConfig → Bool)
    (ex de : List RecordConfig) :
    de.Perm ((greedyPairs q ex de).2.1 ++ (greedyPairs q ex de).2.2.map Prod.snd) := by
  induction ex with
  | nil => simp [greedyPairs]
  | cons e higher ih =>
    simp only [greedyPairs]
    cases hx : extractFirst (q e) (greedyPairs q higher de).2.1 with
    | none => simpa using ih
    | some x =>
      obtain ⟨m, rest⟩ := x
      have hp := (extractFirst_some _ _ _ _ hx).2
      simp only [List.map_append, List.map_cons, List.map_nil]
      rw [← List.append_assoc]
      refine ih.trans ?_
      refine (List.Perm.append_right _ hp).trans ?_
      simp only [List.cons_append]
      refine (List.perm_append_singleton m (rest ++ _)).symm.trans ?_
      simp

theorem greedyPairs_pairs (q : RecordConfig → RecordConfig → Bool)
    (ex de : List RecordConfig) :
    ∀ x ∈ (greedyPairs q ex de).2.2, q x.1 x.2 = true := by
  induction ex with
  | nil => simp [greedyPairs]
  | cons e higher ih =>
    simp only [greedyPairs]
    cases hx : extractFirst (q e) (greedyPairs q higher de).2.1 with
    | none => simpa using ih
    | some x =>
      obtain ⟨m, rest⟩ := x
      have hq := (extractFirst_some _ _ _ _ hx).1
      intro y hy
      simp only [List.mem_append, List.mem_singleton] at hy
      rcases hy with hy | rfl
      · exact ih y hy
      · exact hq

theorem greedyPairs_unmatched (q : RecordConfig → RecordConfig → Bool)
    (ex de : List RecordConfig) :
    ∀ e ∈ (greedyPairs q ex de).1, ∀ m ∈ (greedyPairs q ex de).2.1, q e m = false := by
  induction ex with
  | nil => simp [greedyPairs]
  | cons e higher ih =>
    simp only [greedyPairs]
    cases hx : extractFirst (q e) (greedyPairs q higher de).2.1 with
    | none =>
      intro a ha m hm
      simp only [List.mem_cons] at ha
      rcases ha with rfl | ha
      · exact (extractFirst_none _ _).mp hx m hm
      · exact ih a ha m hm
    | some x =>
      obtain ⟨m', rest⟩ := x
      have hp := (extractFirst_some _ _ _ _ hx).2
      intro a ha m hm
      exact ih a ha m (hp.symm.subset (List.mem_cons_of_mem _ hm))

/-! ## The diff engine: the residual pass -/

theorem lookup_isSome_iff (m : Lookup) (k : String) :
    (m.lookup k).isSome = true ↔ k ∈ m.map Prod.fst := by
  induction m with
  | nil => simp
  | cons a rest ih =>
    obtain ⟨k', r⟩ := a
    by_cases h : k = k'
    · subst h; simp [List.lookup]
    · have h' : (k == k') = false := by simpa using h
      simp only [List.lookup, h', ih, List.map_cons, List.mem_cons, h, false_or]

theorem lookup_eq_none_iff (m : Lookup) (k : String) :
    m.lookup k = none ↔ k ∉ m.map Prod.fst := by
  rw [← lookup_isSome_iff]
  cases m.lookup k <;> simp

theorem buildLookup_eq (d : differ) (dup : DiffError) (rs : List RecordConfig) (m : Lookup)
    (hm : (m.map Prod.fst).Nodup) :
    buildLookup d dup rs m =
      if (m.map Prod.fst ++ rs.map d.fingerprint).Nodup
      then .ok (m ++ rs.map (fun r => (d.fingerprint r, r))) else .error dup := by
  induction rs generalizing m with
  | nil => simp [buildLookup, hm]
  | cons r rest ih =>
    simp only [buildLookup, content_ok]
    by_cases hk : d.fingerprint r ∈ m.map Prod.fst
    · rw [if_pos ((lookup_isSome_iff m _).mpr hk), if_neg]
      intro hn
      rw [List.nodup_append] at hn
      exact hn.2.2 hk (by simp)
    · rw [if_neg (by rw [lookup_isSome_iff]; exact hk), ih]
      · simp only [List.map_append, List.map_cons, List.map_nil, List.append_assoc,
          List.singleton_append]
      · rw [List.map_append, List.nodup_append]
        refine ⟨hm, by simp, ?_⟩
        intro a ha hb
        simp only [List.map_cons, List.map_nil, List.mem_singleton] at hb
        exact hk (hb ▸ ha)

theorem buildLookup_nil (d : differ) (dup : DiffError) (rs : List RecordConfig) :
    buildLookup d dup rs [] =
      if (rs.map d.fingerprint).Nodup
      then .ok (rs.map (fun r => (d.fingerprint r, r))) else .error dup := by
  rw [buildLookup_eq d dup rs [] (by simp)]; simp

theorem commonContent_noop (entries existingLookup desiredLookup : Lookup) (un : Changeset)
    (h : ∀ e ∈ entries, desiredLookup.lookup e.1 = none) :
    commonContent entries existingLookup desiredLookup un
      = (existingLookup, desiredLookup, un) := by
  induction entries with
  | nil => rfl
  | cons a rest ih =>
    obtain ⟨norm, ex⟩ := a
    have h1 : desiredLookup.lookup norm = none := h (norm, ex) (by simp)
    simp only [commonContent, h1]
    exact ih (fun e he => h e (List.mem_cons_of_mem _ he))

theorem pairModify_eq (existingLookup desiredLookup : Lookup) (es ds : List String)
    (mo : Changeset) :
    pairModify existingLookup desiredLookup es ds mo =
      (mo ++ (es.zip ds).map (fun x => ⟨existingLookup.lookup x.1, desiredLookup.lookup x.2⟩),
        es.drop ds.length, ds.drop es.length) := by
  induction es generalizing ds mo with
  | nil => cases ds <;> simp [pairModify]
  | cons e es ih =>
    cases ds with
    | nil => simp [pairModify]
    | cons de ds => simp [pairModify, ih]

/-- In the lookup built from records with pairwise different fingerprints, each
record is found under its own fingerprint. -/
theorem lookup_fingerprint (fp : RecordConfig → String) (rs : List RecordConfig)
    (hn : (rs.map fp).Nodup) (r : RecordConfig) (hr : r ∈ rs) :
    (rs.map (fun r => (fp r, r))).lookup (fp r) = some r := by
  induction rs with
  | nil => simp at hr
  | cons a rest ih =>
    simp only [List.map_cons, List.nodup_cons] at hn
    simp only [List.map_cons, List.lookup]
    rcases List.mem_cons.mp hr with rfl | hr'
    · simp
    · have hne : fp r ≠ fp a := fun h => hn.1 (h ▸ List.mem_map_of_mem fp hr')
      have : (fp r == fp a) = false := by simpa using hne
      rw [this]
      exact ih hn.2 hr'

theorem map_filterMap_some {α β : Type} (f : α → Option β) (S : List α)
    (h : ∀ k ∈ S, (f k).isSome = true) : S.map f = (S.filterMap f).map some := by
  induction S with
  | nil => rfl
  | cons a rest ih =>
    have ha := h a (by simp)
    obtain ⟨b, hb⟩ := Option.isSome_iff_exists.mp ha
    simp only [List.map_cons, List.filterMap_cons, hb]
    rw [ih (fun k hk => h k (List.mem_cons_of_mem _ hk))]

theorem sortStrings_perm (l : List String) : (sortStrings l).Perm l :=
  List.perm_insertionSort _ l

/-- Reading the sorted keys back through the lookup yields every record. -/
theorem byFingerprint_lookup (d : differ) (rs : List RecordConfig)
    (hn : (rs.map d.fingerprint).Nodup) :
    (sortStrings (rs.map d.fingerprint)).map
        (fun k => (rs.map (fun r => (d.fingerprint r, r))).lookup k)
      = (byFingerprint d rs).map some := by
  unfold byFingerprint
  apply map_filterMap_some
  intro k hk
  have hk' : k ∈ rs.map d.fingerprint := (sortStrings_perm _).subset hk
  obtain ⟨r, hr, rfl⟩ := List.mem_map.mp hk'
  rw [lookup_fingerprint d.fingerprint rs hn r hr]; rfl

theorem byFingerprint_perm (d : differ) (rs : List RecordConfig)
    (hn : (rs.map d.fingerprint).Nodup) : (byFingerprint d rs).Perm rs := by
  unfold byFingerprint
  refine ((sortStrings_perm _).filterMap _).trans ?_
  rw [List.filterMap_map]
  have : ∀ r ∈ rs, ((fun k => (rs.map (fun r => (d.fingerprint r, r))).lookup k) ∘
      d.fingerprint) r = some r := fun r hr => lookup_fingerprint d.fingerprint rs hn r hr
  rw [List.filterMap_congr this]
  simp

theorem byFingerprint_length (d : differ) (rs : List RecordConfig)
    (hn : (rs.map d.fingerprint).Nodup) :
    (byFingerprint d rs).length = (sortStrings (rs.map d.fingerprint)).length := by
  rw [(byFingerprint_perm d rs hn).length_eq, (sortStrings_perm _).length_eq, List.length_map]

theorem afterTarget_existing_subset (d : differ) (ex de : List RecordConfig) :
    (afterTarget d ex de).1 ⊆ (afterExact d ex de).1 := fun _ hx =>
  (greedyPairs_perm_existing sameTarget _ _).symm.subset (List.mem_append_left _ hx)

theorem afterTarget_desired_subset (d : differ) (ex de : List RecordConfig) :
    (afterTarget d ex de).2.1 ⊆ (afterExact d ex de).2.1 := fun _ hx =>
  (greedyPairs_perm_desired sameTarget _ _).symm.subset (List.mem_append_left _ hx)

/-- After the exact-match pass no remaining existing record has the fingerprint
of a remaining desired record. -/
theorem afterExact_disjoint (d : differ) (ex de : List RecordConfig)
    (e : RecordConfig) (he : e ∈ (afterExact d ex de).1)
    (m : RecordConfig) (hm : m ∈ (afterExact d ex de).2.1) :
    d.fingerprint m ≠ d.fingerprint e := by
  have := greedyPairs_unmatched (sameContent d) ex de e he m hm
  simpa [sameContent] using this

theorem diffKey_eq (d : differ) (ex de : List RecordConfig) (p : Plan) :
    diffKey d ex de p =
      if ((afterTarget d ex de).1.map d.fingerprint).Nodup then
        if ((afterTarget d ex de).2.1.map d.fingerprint).Nodup then
          .ok (p.append (keyPlan d ex de))
        else .error .duplicateDesired
      else .error .duplicateExisting := by
  unfold diffKey
  simp only [exactMatchPass_eq, sameTargetPass_eq, buildLookup_nil]
  rw [show greedyPairs sameTarget (afterExact d ex de).1 (afterExact d ex de).2.1
    = afterTarget d ex de from rfl]
  by_cases h1 : ((afterTarget d ex de).1.map d.fingerprint).Nodup
  swap
  · simp only [h1, ↓reduceIte]
  by_cases h2 : ((afterTarget d ex de).2.1.map d.fingerprint).Nodup
  swap
  · simp only [h1, h2, ↓reduceIte]
  simp only [h1, h2, ↓reduceIte]
  have hno : ∀ e ∈ (afterTarget d ex de).1.map (fun r => (d.fingerprint r, r)),
      ((afterTarget d ex de).2.1.map (fun r => (d.fingerprint r, r))).lookup e.1 = none := by
    intro e he
    obtain ⟨r, hr, rfl⟩ := List.mem_map.mp he
    rw [lookup_eq_none_iff]
    intro hmem
    simp only [List.map_map, List.mem_map, Function.comp] at hmem
    obtain ⟨m, hm, hfm⟩ := hmem
    exact afterExact_disjoint d ex de r (afterTarget_existing_subset d ex de hr) m
      (afterTarget_desired_subset d ex de hm) hfm
  rw [commonContent_noop _ _ _ _ hno]
  simp only [pairModify_eq, sortedKeys, List.map_map]
  have hk1 : (Prod.fst ∘ fun r => (d.fingerprint r, r)) = d.fingerprint := rfl
  simp only [hk1]
  have e1 := byFingerprint_lookup d _ h1
  have e2 := byFingerprint_lookup d _ h2
  have l1 := byFingerprint_length d _ h1
  have l2 := byFingerprint_length d _ h2
  congr 1
  simp only [Plan.append, keyPlan, Plan.mk.injEq, List.append_cancel_left_eq, true_and,
    List.append_assoc]
  refine ⟨?_, ?_, ?_⟩
  · rw [← l1]
    have := congrArg (fun l => (l.drop (byFingerprint d (afterTarget d ex de).1).length).map
      (fun o => (⟨none, o⟩ : Correlation))) e2
    simpa [List.map_drop, Function.comp] using this
  · rw [← l2]
    have := congrArg (fun l => (l.drop (byFingerprint d (afterTarget d ex de).2.1).length).map
      (fun o => (⟨o, none⟩ : Correlation))) e1
    simpa [List.map_drop, Function.comp] using this
  · have := congrArg₂ (fun a b => (List.zip a b).map
      (fun x => (⟨x.1, x.2⟩ : Correlation))) e1 e2
    simpa [List.zip_map, Function.comp, pairCorr] using this

/-! ## The diff engine: bucket maps -/

theorem bucketExisting_eq (d : differ) (l : List RecordConfig) (m : Buckets) :
    bucketExisting d l m = bucketAll (d.kept l) m := by
  induction l generalizing m with
  | nil => rfl
  | cons e rest ih =>
    simp only [bucketExisting, differ.kept, List.filter_cons]
    by_cases h : d.matchIgnored e.GetLabel = true
    · simp only [h, ↓reduceIte, Bool.not_true, Bool.false_eq_true]
      exact ih m
    · simp only [h, ↓reduceIte, Bool.not_eq_true] at *
      simp only [h, Bool.not_false, ↓reduceIte, bucketAll, List.foldl_cons]
      exact ih _

theorem bucketDesired_eq (d : differ) (l : List RecordConfig) (m : Buckets) :
    bucketDesired d l m =
      if l.any (fun r => d.matchIgnored r.GetLabel) then .error .ignoredRecord
      else .ok (bucketAll l m) := by
  induction l generalizing m with
  | nil => rfl
  | cons e rest ih =>
    simp only [bucketDesired, List.any_cons]
    by_cases h : d.matchIgnored e.GetLabel = true
    · simp [h]
    · simp only [h, ↓reduceIte, Bool.not_eq_true] at *
      simp only [h, Bool.false_or, Bool.false_eq_true, ↓reduceIte, bucketAll, List.foldl_cons]
      exact ih _

theorem Buckets.get_add (m : Buckets) (k : RecordKey) (r : RecordConfig) (k' : RecordKey) :
    (m.add k r).get k' = if k' = k then m.get k' ++ [r] else m.get k' := by
  induction m with
  | nil =>
    by_cases h : k' = k
    · subst h; simp [Buckets.add, Buckets.get]
    · have : ¬ k = k' := fun e => h e.symm
      simp [Buckets.add, Buckets.get, h, this]
  | cons a rest ih =>
    obtain ⟨k0, rs⟩ := a
    simp only [Buckets.add]
    by_cases h0 : k0 = k
    · subst h0
      by_cases h : k' = k0
      · subst h; simp [Buckets.get]
      · have : ¬ k0 = k' := fun e => h e.symm
        simp [Buckets.get, h, this]
    · simp only [h0, ↓reduceIte]
      by_cases h1 : k0 = k'
      · subst h1
        simp [Buckets.get, h0]
      · have e1 : Buckets.get ((k0, rs) :: Buckets.add rest k r) k' = (Buckets.add rest k r).get k' := by
          simp [Buckets.get, h1]
        have e2 : Buckets.get ((k0, rs) :: rest) k' = Buckets.get rest k' := by
          simp [Buckets.get, h1]
        rw [e1, e2, ih]

theorem Buckets.keys_add (m : Buckets) (k : RecordKey) (r : RecordConfig) :
    (m.add k r).keys = if k ∈ m.keys then m.keys else m.keys ++ [k] := by
  induction m with
  | nil => simp [Buckets.add, Buckets.keys]
  | cons a rest ih =>
    obtain ⟨k0, rs⟩ := a
    simp only [Buckets.add]
    by_cases h0 : k0 = k
    · subst h0; simp [Buckets.keys]
    · have h0' : ¬ k = k0 := fun e => h0 e.symm
      simp only [h0, ↓reduceIte, Buckets.keys, List.map_cons, List.mem_cons, h0', false_or,
        List.cons_append] at *
      rw [ih]
      split_ifs <;> rfl

theorem bucketAll_get (l : List RecordConfig) (m : Buckets) (k : RecordKey) :
    (bucketAll l m).get k = m.get k ++ underKey l k := by
  induction l generalizing m with
  | nil => simp [bucketAll, underKey]
  | cons r rest ih =>
    simp only [bucketAll, List.foldl_cons] at *
    rw [ih, Buckets.get_add]
    by_cases h : r.Key = k
    · subst h; simp [underKey]
    · have : ¬ k = r.Key := fun e => h e.symm
      simp [underKey, h, this]

theorem bucketAll_keys_nodup (l : List RecordConfig) (m : Buckets) (hm : m.keys.Nodup) :
    (bucketAll l m).keys.Nodup := by
  induction l generalizing m with
  | nil => exact hm
  | cons r rest ih =>
    simp only [bucketAll, List.foldl_cons] at *
    apply ih
    rw [Buckets.keys_add]
    split_ifs with h
    · exact hm
    · rw [List.nodup_append]
      exact ⟨hm, by simp, by
        intro a ha hb
        simp only [List.mem_singleton] at hb
        exact h (hb ▸ ha)⟩

theorem bucketAll_mem_keys (l : List RecordConfig) (m : Buckets) (k : RecordKey) :
    k ∈ (bucketAll l m).keys ↔ k ∈ m.keys ∨ ∃ r ∈ l, r.Key = k := by
  induction l generalizing m with
  | nil => simp [bucketAll]
  | cons r rest ih =>
    simp only [bucketAll, List.foldl_cons] at *
    rw [ih, Buckets.keys_add]
    by_cases h : r.Key ∈ m.keys
    · simp only [h, ↓reduceIte, List.mem_cons, exists_eq_or_imp]
      constructor
      · rintro (h1 | h1)
        · exact Or.inl h1
        · exact Or.inr (Or.inr h1)
      · rintro (h1 | h1 | h1)
        · exact Or.inl h1
        · exact Or.inl (h1 ▸ h)
        · exact Or.inr h1
    · simp only [h, ↓reduceIte]
      rw [List.mem_append, List.mem_singleton]
      simp only [List.mem_cons, exists_eq_or_imp]
      constructor
      · rintro ((h1 | h1) | h1)
        · exact Or.inl h1
        · exact Or.inr (Or.inl h1.symm)
        · exact Or.inr (Or.inr h1)
      · rintro (h1 | h1 | h1)
        · exact Or.inl (Or.inl h1)
        · exact Or.inl (Or.inr h1.symm)
        · exact Or.inr h1

/-- In a map with distinct keys every entry is what `get` returns for its key. -/
theorem Buckets.get_of_mem (m : Buckets) (hn : m.keys.Nodup) (k : RecordKey)
    (rs : List RecordConfig) (h : (k, rs) ∈ m) : m.get k = rs := by
  induction m with
  | nil => simp at h
  | cons a rest ih =>
    obtain ⟨k0, rs0⟩ := a
    simp only [Buckets.keys, List.map_cons, List.nodup_cons] at hn
    rcases List.mem_cons.mp h with h1 | h1
    · simp only [Prod.mk.injEq] at h1
      obtain ⟨rfl, rfl⟩ := h1
      simp [Buckets.get]
    · have hne : ¬ k0 = k := by
        intro e
        subst e
        exact hn.1 (List.mem_map.mpr ⟨(k0, rs), h1, rfl⟩)
      have : Buckets.get ((k0, rs0) :: rest) k = Buckets.get rest k := by
        simp [Buckets.get, hne]
      rw [this]
      exact ih hn.2 h1

/-! ## The diff engine: the loop over the keys -/

theorem Plan.append_assoc (p q r : Plan) : (p.append q).append r = p.append (q.append r) := by
  simp [Plan.append]

theorem Plan.append_empty (p : Plan) : p.append Plan.empty = p := by
  simp [Plan.append, Plan.empty]

theorem Plan.empty_append (p : Plan) : Plan.empty.append p = p := by
  simp [Plan.append, Plan.empty]

theorem Buckets.get_delete_ne (m : Buckets) (k k' : RecordKey) (h : k' ≠ k) :
    (m.delete k).get k' = m.get k' := by
  induction m with
  | nil => rfl
  | cons a rest ih =>
    obtain ⟨k0, rs⟩ := a
    by_cases h0 : k0 = k
    · subst h0
      have h1 : ¬ k0 = k' := fun e => h e.symm
      have e1 : Buckets.delete ((k0, rs) :: rest) k0 = Buckets.delete rest k0 := by
        simp [Buckets.delete]
      have e2 : Buckets.get ((k0, rs) :: rest) k' = Buckets.get rest k' := by
        simp [Buckets.get, h1]
      rw [e1, e2, ih]
    · have e1 : Buckets.delete ((k0, rs) :: rest) k = (k0, rs) :: Buckets.delete rest k := by
        simp [Buckets.delete, h0]
      rw [e1]
      by_cases h1 : k0 = k'
      · subst h1; simp [Buckets.get]
      · have e2 : Buckets.get ((k0, rs) :: rest) k' = Buckets.get rest k' := by
          simp [Buckets.get, h1]
        have e3 : Buckets.get ((k0, rs) :: Buckets.delete rest k) k'
            = Buckets.get (Buckets.delete rest k) k' := by
          simp [Buckets.get, h1]
        rw [e2, e3, ih]

theorem keysPlan_congr (d : differ) (exM m1 m2 : Buckets)
    (h : ∀ e ∈ exM, m1.get e.1 = m2.get e.1) : keysPlan d exM m1 = keysPlan d exM m2 := by
  induction exM with
  | nil => rfl
  | cons a rest ih =>
    obtain ⟨k, rs⟩ := a
    simp only [keysPlan]
    rw [h (k, rs) (by simp), ih (fun e he => h e (List.mem_cons_of_mem _ he))]

theorem diffKeys_ok (d : differ) (exM desM : Buckets) (p : Plan) (hn : exM.keys.Nodup)
    (hok : ∀ e ∈ exM, keyOk d e.2 (desM.get e.1)) :
    diffKeys d exM desM p = .ok (p.append (keysPlan d exM desM), deleteKeys exM desM) := by
  induction exM generalizing desM p with
  | nil => simp [diffKeys, keysPlan, deleteKeys, Plan.append_empty]
  | cons a rest ih =>
    obtain ⟨k, rs⟩ := a
    simp only [Buckets.keys, List.map_cons, List.nodup_cons] at hn
    have hk := hok (k, rs) (by simp)
    have hne : ∀ e ∈ rest, e.1 ≠ k := fun e he h =>
      hn.1 (h ▸ List.mem_map_of_mem Prod.fst he)
    have hget : ∀ e ∈ rest, (desM.delete k).get e.1 = desM.get e.1 := fun e he =>
      Buckets.get_delete_ne desM k e.1 (hne e he)
    simp only [diffKeys, diffKey_eq]
    rw [if_pos hk.1, if_pos hk.2]
    simp only []
    rw [ih (desM.delete k) _ hn.2 (fun e he => by rw [hget e he]; exact hok e (by simp [he]))]
    rw [keysPlan_congr d rest _ _ hget]
    simp [keysPlan, Plan.append_assoc, deleteKeys]

theorem diffKeys_error (d : differ) (exM desM : Buckets) (p : Plan) (hn : exM.keys.Nodup)
    (hbad : ¬ ∀ e ∈ exM, keyOk d e.2 (desM.get e.1)) :
    diffKeys d exM desM p = .error .duplicateExisting ∨
      diffKeys d exM desM p = .error .duplicateDesired := by
  induction exM generalizing desM p with
  | nil => exact absurd (by simp) hbad
  | cons a rest ih =>
    obtain ⟨k, rs⟩ := a
    simp only [Buckets.keys, List.map_cons, List.nodup_cons] at hn
    have hne : ∀ e ∈ rest, e.1 ≠ k := fun e he h =>
      hn.1 (h ▸ List.mem_map_of_mem Prod.fst he)
    have hget : ∀ e ∈ rest, (desM.delete k).get e.1 = desM.get e.1 := fun e he =>
      Buckets.get_delete_ne desM k e.1 (hne e he)
    simp only [diffKeys, diffKey_eq]
    by_cases h1 : ((afterTarget d rs (desM.get k)).1.map d.fingerprint).Nodup
    swap
    · left; rw [if_neg h1]
    by_cases h2 : ((afterTarget d rs (desM.get k)).2.1.map d.fingerprint).Nodup
    swap
    · right; rw [if_pos h1, if_neg h2]
    rw [if_pos h1, if_pos h2]
    simp only []
    apply ih (desM.delete k) _ hn.2
    intro hall
    apply hbad
    intro e he
    rcases List.mem_cons.mp he with rfl | he'
    · exact ⟨h1, h2⟩
    · rw [← hget e he']; exact hall e he'

/-! ## The diff engine: `IncrementalDiff` as a whole -/

theorem filter_keys_nodup (m : Buckets) (q : RecordKey × List RecordConfig → Bool)
    (hn : m.keys.Nodup) : (Buckets.keys (m.filter q)).Nodup := by
  unfold Buckets.keys at *
  exact (List.Sublist.map _ (List.filter_sublist m)).nodup hn

theorem existingBuckets_keys_nodup (d : differ) (existing : List RecordConfig) :
    (d.existingBuckets existing).keys.Nodup := by
  have h0 : (bucketAll (d.kept existing) []).keys.Nodup :=
    bucketAll_keys_nodup _ _ (by simp [Buckets.keys])
  unfold differ.existingBuckets
  split_ifs
  · exact filter_keys_nodup _ _ h0
  · exact h0

theorem diff_panics_ignored (d : differ) (existing : List RecordConfig)
    (h : d.dc.Records.any (fun r => d.matchIgnored r.GetLabel) = true) :
    d.IncrementalDiff existing = .error .ignoredRecord := by
  unfold differ.IncrementalDiff
  simp only [bucketDesired_eq, h, ↓reduceIte]

theorem diff_unfold (d : differ) (existing : List RecordConfig)
    (h : d.dc.Records.any (fun r => d.matchIgnored r.GetLabel) = false) :
    d.IncrementalDiff existing =
      match diffKeys d (d.existingBuckets existing) d.desiredBuckets ⟨[], [], [], []⟩ with
      | .error e => .error e
      | .ok (p, desiredByNameAndType) =>
        .ok ⟨p.unchanged,
          createRest (deleteKeys (d.existingBuckets existing) desiredByNameAndType) p.create,
          p.toDelete, p.modify⟩ := by
  unfold differ.IncrementalDiff
  simp only [bucketDesired_eq, h, Bool.false_eq_true, ↓reduceIte, bucketExisting_eq]
  rfl

theorem diff_ok (d : differ) (existing : List RecordConfig)
    (h : d.dc.Records.any (fun r => d.matchIgnored r.GetLabel) = false)
    (hok : d.allKeysOk existing) :
    d.IncrementalDiff existing = .ok (d.plan existing) := by
  rw [diff_unfold d existing h,
    diffKeys_ok d _ _ _ (existingBuckets_keys_nodup d existing) hok]
  simp only [differ.plan, Plan.empty_append, show (⟨[], [], [], []⟩ : Plan) = Plan.empty from rfl]

theorem diff_panics_duplicate (d : differ) (existing : List RecordConfig)
    (h : d.dc.Records.any (fun r => d.matchIgnored r.GetLabel) = false)
    (hbad : ¬ d.allKeysOk existing) :
    d.IncrementalDiff existing = .error .duplicateExisting ∨
      d.IncrementalDiff existing = .error .duplicateDesired := by
  rw [diff_unfold d existing h]
  rcases diffKeys_error d _ _ ⟨[], [], [], []⟩ (existingBuckets_keys_nodup d existing) hbad
    with h1 | h1 <;> rw [h1]
  · exact Or.inl rfl
  · exact Or.inr rfl

/-- The three outcomes of `IncrementalDiff`, and when each occurs. -/
theorem diff_ok_iff (d : differ) (existing : List RecordConfig) (p : Plan) :
    d.IncrementalDiff existing = .ok p ↔
      d.dc.Records.any (fun r => d.matchIgnored r.GetLabel) = false ∧
        d.allKeysOk existing ∧ p = d.plan existing := by
  constructor
  · intro hp
    cases h : d.dc.Records.any (fun r => d.matchIgnored r.GetLabel) with
    | true => rw [diff_panics_ignored d existing h] at hp; cases hp
    | false =>
      by_cases hok : d.allKeysOk existing
      · rw [diff_ok d existing h hok] at hp
        exact ⟨rfl, hok, (Except.ok.inj hp).symm⟩
      · rcases diff_panics_duplicate d existing h hok with h1 | h1 <;>
          (rw [h1] at hp; cases hp)
  · rintro ⟨h, hok, rfl⟩
    exact diff_ok d existing h hok

/-! ## The diff engine: what a plan contains -/

theorem existingOf_pairCorr (l : List (RecordConfig × RecordConfig)) :
    existingOf (l.map pairCorr) = l.map Prod.fst := by
  induction l with
  | nil => rfl
  | cons a rest ih => simp_all [existingOf, pairCorr]

theorem desiredOf_pairCorr (l : List (RecordConfig × RecordConfig)) :
    desiredOf (l.map pairCorr) = l.map Prod.snd := by
  induction l with
  | nil => rfl
  | cons a rest ih => simp_all [desiredOf, pairCorr]

theorem existingOf_deletes (l : List RecordConfig) :
    existingOf (l.map (fun e => (⟨some e, none⟩ : Correlation))) = l := by
  induction l with
  | nil => rfl
  | cons a rest ih => simp_all [existingOf]

theorem desiredOf_deletes (l : List RecordConfig) :
    desiredOf (l.map (fun e => (⟨some e, none⟩ : Correlation))) = [] := by
  induction l with
  | nil => rfl
  | cons a rest ih => simp_all [desiredOf]

theorem existingOf_creates (l : List RecordConfig) :
    existingOf (l.map (fun m => (⟨none, some m⟩ : Correlation))) = [] := by
  induction l with
  | nil => rfl
  | cons a rest ih => simp_all [existingOf]

theorem desiredOf_creates (l : List RecordConfig) :
    desiredOf (l.map (fun m => (⟨none, some m⟩ : Correlation))) = l := by
  induction l with
  | nil => rfl
  | cons a rest ih => simp_all [desiredOf]

theorem existingOf_append (a b : Changeset) :
    existingOf (a ++ b) = existingOf a ++ existingOf b := by
  simp [existingOf]

theorem desiredOf_append (a b : Changeset) :
    desiredOf (a ++ b) = desiredOf a ++ desiredOf b := by
  simp [desiredOf]

theorem zip_map_fst_take {α β : Type} (l1 : List α) (l2 : List β) :
    (l1.zip l2).map Prod.fst = l1.take l2.length := by
  induction l1 generalizing l2 with
  | nil => simp
  | cons a rest ih =>
    cases l2 with
    | nil => simp
    | cons b rest2 => simp [ih]

theorem zip_map_snd_take {α β : Type} (l1 : List α) (l2 : List β) :
    (l1.zip l2).map Prod.snd = l2.take l1.length := by
  induction l1 generalizing l2 with
  | nil => simp
  | cons a rest ih =>
    cases l2 with
    | nil => simp
    | cons b rest2 => simp [ih]

theorem keyPlan_existingSides (d : differ) (ex de : List RecordConfig) (h : keyOk d ex de) :
    (keyPlan d ex de).existingSides.Perm ex := by
  simp only [Plan.existingSides, keyPlan, existingOf_append, existingOf_pairCorr,
    existingOf_deletes, zip_map_fst_take, List.append_assoc, List.take_append_drop]
  have p1 := greedyPairs_perm_existing (sameContent d) ex de
  have p2 := greedyPairs_perm_existing sameTarget (afterExact d ex de).1 (afterExact d ex de).2.1
  have p3 := byFingerprint_perm d _ h.1
  refine List.Perm.trans ?_ p1.symm
  refine List.perm_append_comm.trans (List.Perm.append_right _ ?_)
  refine List.Perm.trans ?_ p2.symm
  exact List.perm_append_comm.trans (List.Perm.append_right _ p3)

theorem keyPlan_desiredSides (d : differ) (ex de : List RecordConfig) (h : keyOk d ex de) :
    (keyPlan d ex de).desiredSides.Perm de := by
  simp only [Plan.desiredSides, keyPlan, desiredOf_append, desiredOf_pairCorr,
    desiredOf_creates, zip_map_snd_take, List.append_assoc, List.take_append_drop]
  have p1 := greedyPairs_perm_desired (sameContent d) ex de
  have p2 := greedyPairs_perm_desired sameTarget (afterExact d ex de).1 (afterExact d ex de).2.1
  have p3 := byFingerprint_perm d _ h.2
  refine List.Perm.trans ?_ p1.symm
  refine List.perm_append_comm.trans (List.Perm.append_right _ ?_)
  refine List.Perm.trans ?_ p2.symm
  exact List.perm_append_comm.trans (List.Perm.append_right _ p3)

theorem keyPlan_create_existing (d : differ) (ex de : List RecordConfig) :
    existingOf (keyPlan d ex de).create = [] := by
  simp only [keyPlan, existingOf_creates]

theorem keyPlan_toDelete_desired (d : differ) (ex de : List RecordConfig) :
    desiredOf (keyPlan d ex de).toDelete = [] := by
  simp only [keyPlan, desiredOf_deletes]

theorem existingSides_append (p q : Plan) :
    (p.append q).existingSides.Perm (p.existingSides ++ q.existingSides) := by
  simp only [Plan.existingSides, Plan.append, existingOf_append]
  generalize existingOf p.unchanged = a
  generalize existingOf q.unchanged = a'
  generalize existingOf p.modify = b
  generalize existingOf q.modify = b'
  generalize existingOf p.toDelete = c
  generalize existingOf q.toDelete = c'
  rw [List.perm_iff_count]
  intro x
  simp only [List.count_append]
  omega

theorem desiredSides_append (p q : Plan) :
    (p.append q).desiredSides.Perm (p.desiredSides ++ q.desiredSides) := by
  simp only [Plan.desiredSides, Plan.append, desiredOf_append]
  generalize desiredOf p.unchanged = a
  generalize desiredOf q.unchanged = a'
  generalize desiredOf p.modify = b
  generalize desiredOf q.modify = b'
  generalize desiredOf p.create = c
  generalize desiredOf q.create = c'
  rw [List.perm_iff_count]
  intro x
  simp only [List.count_append]
  omega

theorem keysPlan_existingSides (d : differ) (exM desM : Buckets)
    (hok : ∀ e ∈ exM, keyOk d e.2 (desM.get e.1)) :
    (keysPlan d exM desM).existingSides.Perm (exM.flatMap Prod.snd) := by
  induction exM with
  | nil => simp [keysPlan, Plan.empty, Plan.existingSides, existingOf]
  | cons a rest ih =>
    obtain ⟨k, rs⟩ := a
    simp only [keysPlan, List.flatMap_cons]
    refine (existingSides_append _ _).trans ?_
    exact List.Perm.append (keyPlan_existingSides d rs _ (hok (k, rs) (by simp)))
      (ih (fun e he => hok e (List.mem_cons_of_mem _ he)))

theorem keysPlan_desiredSides (d : differ) (exM desM : Buckets)
    (hok : ∀ e ∈ exM, keyOk d e.2 (desM.get e.1)) :
    (keysPlan d exM desM).desiredSides.Perm (exM.flatMap (fun e => desM.get e.1)) := by
  induction exM with
  | nil => simp [keysPlan, Plan.empty, Plan.desiredSides, desiredOf]
  | cons a rest ih =>
    obtain ⟨k, rs⟩ := a
    simp only [keysPlan, List.flatMap_cons]
    refine (desiredSides_append _ _).trans ?_
    exact List.Perm.append (keyPlan_desiredSides d rs _ (hok (k, rs) (by simp)))
      (ih (fun e he => hok e (List.mem_cons_of_mem _ he)))

theorem keysPlan_create_existing (d : differ) (exM desM : Buckets) :
    existingOf (keysPlan d exM desM).create = [] := by
  induction exM with
  | nil => rfl
  | cons a rest ih =>
    obtain ⟨k, rs⟩ := a
    simp only [keysPlan, Plan.append, existingOf_append, keyPlan_create_existing, ih,
      List.append_nil]

theorem keysPlan_toDelete_desired (d : differ) (exM desM : Buckets) :
    desiredOf (keysPlan d exM desM).toDelete = [] := by
  induction exM with
  | nil => rfl
  | cons a rest ih =>
    obtain ⟨k, rs⟩ := a
    simp only [keysPlan, Plan.append, desiredOf_append, keyPlan_toDelete_desired, ih,
      List.append_nil]

theorem underKey_filter_ne (l : List RecordConfig) (k k' : RecordKey) (h : k' ≠ k) :
    underKey (l.filter (fun r => decide (r.Key ≠ k))) k' = underKey l k' := by
  simp only [underKey, List.filter_filter]
  apply List.filter_congr
  intro r _
  by_cases h1 : r.Key = k'
  · subst h1; simp [h]
  · simp [h1]

/-- Grouping a list by a duplicate-free list of keys that covers it only
reorders the list. -/
theorem group_perm (ks : List RecordKey) (l : List RecordConfig) (hn : ks.Nodup)
    (hcov : ∀ r ∈ l, r.Key ∈ ks) : (ks.flatMap (underKey l)).Perm l := by
  induction ks generalizing l with
  | nil =>
    cases l with
    | nil => simp
    | cons a rest => exact absurd (hcov a (by simp)) (by simp)
  | cons k ks ih =>
    rw [List.nodup_cons] at hn
    simp only [List.flatMap_cons]
    have h1 : ks.flatMap (underKey l)
        = ks.flatMap (underKey (l.filter (fun r => decide (r.Key ≠ k)))) := by
      apply List.flatMap_congr
      intro k' hk'
      exact (underKey_filter_ne l k k' (fun e => hn.1 (e ▸ hk'))).symm
    rw [h1]
    have h2 := ih (l.filter (fun r => decide (r.Key ≠ k))) hn.2 (by
      intro r hr
      simp only [List.mem_filter, decide_eq_true_eq] at hr
      rcases List.mem_cons.mp (hcov r hr.1) with h | h
      · exact absurd h hr.2
      · exact h)
    refine (List.Perm.append_left _ h2).trans ?_
    have h3 := List.filter_append_perm (fun r => decide (r.Key = k)) l
    refine List.Perm.trans ?_ h3
    simp only [underKey]
    apply List.Perm.append_left
    apply List.Perm.of_eq
    apply List.filter_congr
    intro r _
    simp

theorem deleteKeys_eq (exM m : Buckets) :
    deleteKeys exM m = m.filter (fun e => decide (e.1 ∉ exM.keys)) := by
  induction exM generalizing m with
  | nil => simp [deleteKeys, Buckets.keys]
  | cons a rest ih =>
    have : deleteKeys (a :: rest) m = deleteKeys rest (m.delete a.1) := rfl
    rw [this, ih, Buckets.delete, List.filter_filter]
    apply List.filter_congr
    intro e _
    simp only [Buckets.keys, List.map_cons, List.mem_cons, not_or, ne_eq]
    by_cases h1 : e.1 = a.1 <;> simp [h1]

theorem createRest_eq (m : Buckets) (c : Changeset) :
    createRest m c = c ++ (m.flatMap Prod.snd).map (fun r => (⟨none, some r⟩ : Correlation)) := by
  have inner : ∀ (l : List RecordConfig) (c : Changeset),
      l.foldl (fun c rec => c ++ [(⟨none, some rec⟩ : Correlation)]) c
        = c ++ l.map (fun r => (⟨none, some r⟩ : Correlation)) := by
    intro l
    induction l with
    | nil => simp
    | cons a rest ih => intro c; simp [ih]
  induction m generalizing c with
  | nil => simp [createRest]
  | cons a rest ih =>
    have : createRest (a :: rest) c
        = createRest rest (a.2.foldl (fun c rec => c ++ [(⟨none, some rec⟩ : Correlation)]) c) :=
      rfl
    rw [this, ih, inner]
    simp

theorem Buckets.get_nil (k : RecordKey) : Buckets.get [] k = [] := rfl

theorem bucketAll_entry (l : List RecordConfig) (k : RecordKey) (rs : List RecordConfig)
    (h : (k, rs) ∈ bucketAll l []) : rs = underKey l k := by
  have hn : (bucketAll l []).keys.Nodup := bucketAll_keys_nodup _ _ (by simp [Buckets.keys])
  rw [← Buckets.get_of_mem _ hn k rs h, bucketAll_get, Buckets.get_nil, List.nil_append]

theorem existingBuckets_sub (d : differ) (existing : List RecordConfig) :
    d.existingBuckets existing ⊆ bucketAll (d.kept existing) [] := by
  unfold differ.existingBuckets
  split_ifs
  · exact fun _ h => List.mem_of_mem_filter h
  · exact fun _ h => h

theorem existingBuckets_entry (d : differ) (existing : List RecordConfig) (k : RecordKey)
    (rs : List RecordConfig) (h : (k, rs) ∈ d.existingBuckets existing) :
    rs = underKey (d.kept existing) k :=
  bucketAll_entry _ k rs (existingBuckets_sub d existing h)

theorem existingBuckets_flatMap (d : differ) (existing : List RecordConfig) :
    (d.existingBuckets existing).flatMap Prod.snd
      = (d.existingBuckets existing).keys.flatMap (underKey (d.kept existing)) := by
  unfold Buckets.keys
  rw [List.flatMap_map]
  apply List.flatMap_congr
  intro e he
  exact existingBuckets_entry d existing e.1 e.2 he

theorem desiredBuckets_get (d : differ) (k : RecordKey) :
    d.desiredBuckets.get k = underKey d.dc.Records k := by
  unfold differ.desiredBuckets
  rw [bucketAll_get, Buckets.get_nil, List.nil_append]

theorem desiredBuckets_keys_nodup (d : differ) : d.desiredBuckets.keys.Nodup :=
  bucketAll_keys_nodup _ _ (by simp [Buckets.keys])

theorem desiredBuckets_flatMap (d : differ) :
    (d.desiredBuckets.flatMap Prod.snd).Perm d.dc.Records := by
  have e : d.desiredBuckets.flatMap Prod.snd
      = d.desiredBuckets.keys.flatMap (underKey d.dc.Records) := by
    unfold Buckets.keys
    rw [List.flatMap_map]
    apply List.flatMap_congr
    intro e he
    exact bucketAll_entry _ e.1 e.2 he
  rw [e]
  apply group_perm _ _ (desiredBuckets_keys_nodup d)
  intro r hr
  unfold differ.desiredBuckets
  rw [bucketAll_mem_keys]
  exact Or.inr ⟨r, hr, rfl⟩

theorem plan_existingSides (d : differ) (existing : List RecordConfig)
    (hok : d.allKeysOk existing) :
    (d.plan existing).existingSides.Perm
      ((d.existingBuckets existing).keys.flatMap (underKey (d.kept existing))) := by
  rw [← existingBuckets_flatMap]
  exact keysPlan_existingSides d _ _ hok

/-- Without `KeepUnknown` the existing sides of the plan are the kept existing
records, each exactly as often as it occurs. -/
theorem plan_existingSides_all (d : differ) (existing : List RecordConfig)
    (hk : d.dc.KeepUnknown = false) (hok : d.allKeysOk existing) :
    (d.plan existing).existingSides.Perm (d.kept existing) := by
  refine (plan_existingSides d existing hok).trans ?_
  apply group_perm _ _ (existingBuckets_keys_nodup d existing)
  intro r hr
  simp only [differ.existingBuckets, hk, Bool.false_eq_true, ↓reduceIte]
  rw [bucketAll_mem_keys]
  exact Or.inr ⟨r, hr, rfl⟩

theorem plan_desiredSides (d : differ) (existing : List RecordConfig)
    (hok : d.allKeysOk existing) :
    (d.plan existing).desiredSides.Perm d.dc.Records := by
  have h1 := keysPlan_desiredSides d (d.existingBuckets existing) d.desiredBuckets hok
  have e1 : (d.existingBuckets existing).flatMap (fun e => d.desiredBuckets.get e.1)
      = (d.existingBuckets existing).keys.flatMap (underKey d.dc.Records) := by
    unfold Buckets.keys
    rw [List.flatMap_map]
    apply List.flatMap_congr
    intro e _
    exact desiredBuckets_get d e.1
  have e2 : (List.filter (fun e => decide (e.1 ∉ (d.existingBuckets existing).keys))
        d.desiredBuckets).flatMap Prod.snd
      = (d.desiredBuckets.keys.filter
          (fun k => decide (k ∉ (d.existingBuckets existing).keys))).flatMap
            (underKey d.dc.Records) := by
    unfold Buckets.keys
    rw [List.filter_map, List.flatMap_map]
    apply List.flatMap_congr
    intro e he
    exact bucketAll_entry _ e.1 e.2 (List.mem_of_mem_filter he)
  simp only [Plan.desiredSides, differ.plan, createRest_eq, deleteKeys_eq, desiredOf_append,
    desiredOf_creates, List.filter_filter, Bool.and_self]
  rw [e2, ← List.append_assoc]
  rw [e1] at h1
  refine (List.Perm.append_right _ h1).trans ?_
  rw [← List.flatMap_append]
  apply group_perm
  · rw [List.nodup_append]
    refine ⟨existingBuckets_keys_nodup d existing,
      (desiredBuckets_keys_nodup d).filter _, ?_⟩
    intro k hk1 hk2
    simp only [List.mem_filter, decide_eq_true_eq] at hk2
    exact hk2.2 hk1
  · intro r hr
    by_cases hk : r.Key ∈ (d.existingBuckets existing).keys
    · exact List.mem_append_left _ hk
    · refine List.mem_append_right _ ?_
      simp only [List.mem_filter, decide_eq_true_eq]
      refine ⟨?_, hk⟩
      unfold differ.desiredBuckets
      rw [bucketAll_mem_keys]
      exact Or.inr ⟨r, hr, rfl⟩

theorem plan_create_existing (d : differ) (existing : List RecordConfig) :
    existingOf (d.plan existing).create = [] := by
  simp only [differ.plan, createRest_eq, existingOf_append, existingOf_creates,
    keysPlan_create_existing, List.append_nil]

theorem plan_toDelete_desired (d : differ) (existing : List RecordConfig) :
    desiredOf (d.plan existing).toDelete = [] := by
  simp only [differ.plan, keysPlan_toDelete_desired]

/-! ## The diff engine: the contract -/

theorem existingSides_sub_kept (d : differ) (existing : List RecordConfig)
    (hok : d.allKeysOk existing) (r : RecordConfig)
    (hr : r ∈ (d.plan existing).existingSides) : r ∈ d.kept existing := by
  have h1 := (plan_existingSides d existing hok).subset hr
  obtain ⟨k, _, hk⟩ := List.mem_flatMap.mp h1
  exact List.mem_of_mem_filter hk

theorem mem_existingOf (c : Correlation) (l : Changeset) (r : RecordConfig) (hc : c ∈ l)
    (h : c.Existing = some r) : r ∈ existingOf l :=
  List.mem_filterMap.mpr ⟨c, hc, h⟩

theorem mem_desiredOf (c : Correlation) (l : Changeset) (r : RecordConfig) (hc : c ∈ l)
    (h : c.Desired = some r) : r ∈ desiredOf l :=
  List.mem_filterMap.mpr ⟨c, hc, h⟩

theorem not_ignored_of_kept (d : differ) (existing : List RecordConfig) (r : RecordConfig)
    (h : r ∈ d.kept existing) : d.matchIgnored r.GetLabel = false := by
  simp only [differ.kept, List.mem_filter, Bool.not_eq_true'] at h
  exact h.2

/-- C5: with `keepUnknown = false`, whenever `IncrementalDiff` returns a plan,
the existing sides of unchanged, modify and toDelete are exactly the existing
records with a label that is not ignored, each as often as it occurs, and no
create has an existing side; the desired sides of unchanged, modify and create
are exactly the desired records, and no delete has a desired side; with no
existing record every desired record is a create and the other three slices are
empty. -/
theorem IncrementalDiff_exactly_once (d : differ) (existing : List RecordConfig) (p : Plan)
    (hk : d.dc.KeepUnknown = false) (hp : d.IncrementalDiff existing = .ok p) :
    (existingOf p.unchanged ++ existingOf p.modify ++ existingOf p.toDelete).Perm
        (existing.filter (fun e => !d.matchIgnored e.GetLabel)) ∧
      existingOf p.create = [] ∧
      (desiredOf p.unchanged ++ desiredOf p.modify ++ desiredOf p.create).Perm d.dc.Records ∧
      desiredOf p.toDelete = [] ∧
      (existing = [] → p.unchanged = [] ∧ p.toDelete = [] ∧ p.modify = [] ∧
        p.create.Perm (d.dc.Records.map (fun r => ⟨none, some r⟩))) := by
  obtain ⟨_, hok, rfl⟩ := (diff_ok_iff d existing p).mp hp
  refine ⟨plan_existingSides_all d existing hk hok, plan_create_existing d existing,
    plan_desiredSides d existing hok, plan_toDelete_desired d existing, ?_⟩
  rintro rfl
  have hE : d.existingBuckets [] = [] := by
    simp [differ.existingBuckets, hk, differ.kept, bucketAll]
  have hc : (d.plan []).create
      = (d.desiredBuckets.flatMap Prod.snd).map (fun r => (⟨none, some r⟩ : Correlation)) := by
    simp [differ.plan, hE, keysPlan, Plan.empty, createRest_eq, deleteKeys_eq, Buckets.keys]
  refine ⟨by simp [differ.plan, hE, keysPlan, Plan.empty],
    by simp [differ.plan, hE, keysPlan, Plan.empty],
    by simp [differ.plan, hE, keysPlan, Plan.empty], ?_⟩
  rw [hc]
  exact (desiredBuckets_flatMap d).map _

/-- C5 at a diff with one record of each fate, `www` unchanged, `mail` modified, `old`
deleted, `new` created and `legacy.x` ignored, and at a diff with no existing
record. -/
theorem IncrementalDiff_exactly_once_witness :
    (sampleDiffer mixedDesired false [globLegacy]).IncrementalDiff mixedExisting
        = .ok mixedPlan ∧
      mixedExisting.filter
          (fun e => !(sampleDiffer mixedDesired false [globLegacy]).matchIgnored e.GetLabel)
        = [sampleA "www" 300 "1.2.3.4", sampleA "mail" 300 "5.6.7.8",
            sampleA "old" 300 "7.7.7.7"] ∧
      (existingOf mixedPlan.unchanged ++ existingOf mixedPlan.modify ++
          existingOf mixedPlan.toDelete).Perm
        (mixedExisting.filter
          (fun e => !(sampleDiffer mixedDesired false [globLegacy]).matchIgnored e.GetLabel)) ∧
      existingOf mixedPlan.create = [] ∧
      (desiredOf mixedPlan.unchanged ++ desiredOf mixedPlan.modify ++
          desiredOf mixedPlan.create).Perm mixedDesired ∧
      desiredOf mixedPlan.toDelete = [] ∧
      (([] : Changeset) = [] ∧ ([] : Changeset) = [] ∧ ([] : Changeset) = [] ∧
        List.Perm [(⟨none, some (sampleA "www" 300 "1.2.3.4")⟩ : Correlation)]
          ([sampleA "www" 300 "1.2.3.4"].map (fun r => ⟨none, some r⟩))) :=
  ⟨by decide, by decide,
    (IncrementalDiff_exactly_once (sampleDiffer mixedDesired false [globLegacy]) mixedExisting
      mixedPlan (by decide) (by decide)).1,
    (IncrementalDiff_exactly_once (sampleDiffer mixedDesired false [globLegacy]) mixedExisting
      mixedPlan (by decide) (by decide)).2.1,
    (IncrementalDiff_exactly_once (sampleDiffer mixedDesired false [globLegacy]) mixedExisting
      mixedPlan (by decide) (by decide)).2.2.1,
    (IncrementalDiff_exactly_once (sampleDiffer mixedDesired false [globLegacy]) mixedExisting
      mixedPlan (by decide) (by decide)).2.2.2.1,
    (IncrementalDiff_exactly_once (sampleDiffer [sampleA "www" 300 "1.2.3.4"] false []) []
      ⟨[], [⟨none, some (sampleA "www" 300 "1.2.3.4")⟩], [], []⟩ (by decide)
      (by decide)).2.2.2.2 rfl⟩

/-- C6: an existing record whose label matches an ignored-label pattern is on
neither side of any correlation in the four outputs of `IncrementalDiff`. -/
theorem IncrementalDiff_ignored_existing (d : differ) (existing : List RecordConfig)
    (p : Plan) (e : RecordConfig) (_he : e ∈ existing)
    (hign : d.matchIgnored e.GetLabel = true) (hp : d.IncrementalDiff existing = .ok p) :
    ∀ c ∈ p.unchanged ++ p.create ++ p.toDelete ++ p.modify,
      c.Existing ≠ some e ∧ c.Desired ≠ some e := by
  obtain ⟨hdes, hok, rfl⟩ := (diff_ok_iff d existing p).mp hp
  have hE : ∀ r ∈ (d.plan existing).existingSides, r ≠ e := by
    intro r hr hre
    have := not_ignored_of_kept d existing r (existingSides_sub_kept d existing hok r hr)
    rw [hre, hign] at this
    cases this
  have hD : ∀ r ∈ (d.plan existing).desiredSides, r ≠ e := by
    intro r hr hre
    have hmem := (plan_desiredSides d existing hok).subset hr
    have := List.any_eq_false.mp hdes r hmem
    rw [hre, hign] at this
    exact this rfl
  intro c hc
  simp only [List.mem_append] at hc
  constructor
  · intro h
    rcases hc with ((hc | hc) | hc) | hc
    · exact hE e (by simp [Plan.existingSides, mem_existingOf c _ e hc h]) rfl
    · have := mem_existingOf c _ e hc h
      rw [plan_create_existing] at this
      cases this
    · exact hE e (by simp [Plan.existingSides, mem_existingOf c _ e hc h]) rfl
    · exact hE e (by simp [Plan.existingSides, mem_existingOf c _ e hc h]) rfl
  · intro h
    rcases hc with ((hc | hc) | hc) | hc
    · exact hD e (by simp [Plan.desiredSides, mem_desiredOf c _ e hc h]) rfl
    · exact hD e (by simp [Plan.desiredSides, mem_desiredOf c _ e hc h]) rfl
    · have := mem_desiredOf c _ e hc h
      rw [plan_toDelete_desired] at this
      cases this
    · exact hD e (by simp [Plan.desiredSides, mem_desiredOf c _ e hc h]) rfl

theorem IncrementalDiff_ignored_existing_witness :
    (sampleDiffer [sampleA "www" 300 "1.2.3.4"] false [globLegacy]).IncrementalDiff
        [sampleA "legacy.a" 300 "9.9.9.9", sampleA "www" 300 "1.2.3.4"]
      = .ok ⟨[⟨some (sampleA "www" 300 "1.2.3.4"), some (sampleA "www" 300 "1.2.3.4")⟩],
          [], [], []⟩ ∧
    (⟨some (sampleA "www" 300 "1.2.3.4"), some (sampleA "www" 300 "1.2.3.4")⟩ :
        Correlation).Existing ≠ some (sampleA "legacy.a" 300 "9.9.9.9") ∧
    (⟨some (sampleA "www" 300 "1.2.3.4"), some (sampleA "www" 300 "1.2.3.4")⟩ :
        Correlation).Desired ≠ some (sampleA "legacy.a" 300 "9.9.9.9") :=
  ⟨by decide,
    IncrementalDiff_ignored_existing
      (sampleDiffer [sampleA "www" 300 "1.2.3.4"] false [globLegacy])
      [sampleA "legacy.a" 300 "9.9.9.9", sampleA "www" 300 "1.2.3.4"]
      ⟨[⟨some (sampleA "www" 300 "1.2.3.4"), some (sampleA "www" 300 "1.2.3.4")⟩], [], [], []⟩
      (sampleA "legacy.a" 300 "9.9.9.9") (by decide) (by decide) (by decide)
      ⟨some (sampleA "www" 300 "1.2.3.4"), some (sampleA "www" 300 "1.2.3.4")⟩ (by decide)⟩

/-- C7: if a desired record's label matches an ignored-label pattern,
`IncrementalDiff` panics instead of returning a plan, whatever the existing
records are. -/
theorem IncrementalDiff_ignored_desired (d : differ) (existing : List RecordConfig)
    (dr : RecordConfig) (hmem : dr ∈ d.dc.Records)
    (hign : d.matchIgnored dr.GetLabel = true) :
    d.IncrementalDiff existing = .error .ignoredRecord := by
  apply diff_panics_ignored
  rw [List.any_eq_true]
  exact ⟨dr, hmem, hign⟩

theorem IncrementalDiff_ignored_desired_witness :
    (sampleDiffer [sampleA "legacy.a" 300 "1.2.3.4"] false [globLegacy]).IncrementalDiff
      [sampleA "www" 300 "1.2.3.4"] = .error .ignoredRecord :=
  IncrementalDiff_ignored_desired _ _ (sampleA "legacy.a" 300 "1.2.3.4") (by decide)
    (by decide)

theorem mem_keysPlan_toDelete (d : differ) (exM desM : Buckets) (c : Correlation)
    (hc : c ∈ (keysPlan d exM desM).toDelete) :
    ∃ e ∈ exM, c ∈ (keyPlan d e.2 (desM.get e.1)).toDelete := by
  induction exM with
  | nil => simp [keysPlan, Plan.empty] at hc
  | cons a rest ih =>
    obtain ⟨k, rs⟩ := a
    simp only [keysPlan, Plan.append, List.mem_append] at hc
    rcases hc with hc | hc
    · exact ⟨(k, rs), by simp, hc⟩
    · obtain ⟨e, he, h⟩ := ih hc
      exact ⟨e, List.mem_cons_of_mem _ he, h⟩

theorem Buckets.has_iff (m : Buckets) (k : RecordKey) : m.has k = true ↔ k ∈ m.keys := by
  simp only [Buckets.has, Buckets.keys, List.any_eq_true, decide_eq_true_eq, List.mem_map]

theorem mem_desiredBuckets_keys (d : differ) (k : RecordKey) :
    k ∈ d.desiredBuckets.keys ↔ ∃ m ∈ d.dc.Records, m.Key = k := by
  unfold differ.desiredBuckets
  rw [bucketAll_mem_keys]
  simp [Buckets.keys]

theorem mem_underKey (l : List RecordConfig) (k : RecordKey) (r : RecordConfig) :
    r ∈ underKey l k ↔ r ∈ l ∧ r.Key = k := by
  simp [underKey]

/-- C4 (as amended): with `keepUnknown = true` every delete correlation carries
an existing record whose RecordKey is the key of some desired record, so no
existing record under a key without desired records is ever deleted. -/
theorem IncrementalDiff_keepUnknown (d : differ) (existing : List RecordConfig) (p : Plan)
    (hk : d.dc.KeepUnknown = true) (hp : d.IncrementalDiff existing = .ok p) :
    ∀ c ∈ p.toDelete, ∃ e, c = ⟨some e, none⟩ ∧ e ∈ existing ∧
      ∃ m ∈ d.dc.Records, m.Key = e.Key := by
  obtain ⟨_, hok, rfl⟩ := (diff_ok_iff d existing p).mp hp
  intro c hc
  obtain ⟨⟨k, rs⟩, hmem, hck⟩ := mem_keysPlan_toDelete d _ _ c hc
  have hrs := existingBuckets_entry d existing k rs hmem
  have hkey := hok (k, rs) hmem
  simp only [keyPlan, List.mem_map] at hck
  obtain ⟨e, he, rfl⟩ := hck
  have he1 : e ∈ rs := by
    have h1 := (byFingerprint_perm d _ hkey.1).subset (List.mem_of_mem_drop he)
    have h2 := afterTarget_existing_subset d _ _ h1
    exact (greedyPairs_perm_existing (sameContent d) _ _).symm.subset
      (List.mem_append_left _ h2)
  rw [hrs, mem_underKey] at he1
  refine ⟨e, rfl, List.mem_of_mem_filter he1.1, ?_⟩
  have hin : (k, rs) ∈ dropUnknown (bucketAll (d.kept existing) []) d.desiredBuckets := by
    simpa [differ.existingBuckets, hk] using hmem
  simp only [dropUnknown, List.mem_filter] at hin
  rw [he1.2]
  exact (mem_desiredBuckets_keys d k).mp ((Buckets.has_iff _ _).mp hin.2)

/-- C4, counterexample: with `keepUnknown = true` an existing record that shares
its key with a desired record and is matched by none is deleted. -/
theorem keepUnknown_still_deletes :
    (sampleDiffer [sampleA "www" 300 "1.2.3.4"] true []).dc.KeepUnknown = true ∧
    (sampleDiffer [sampleA "www" 300 "1.2.3.4"] true []).IncrementalDiff
        [sampleA "www" 300 "1.2.3.4", sampleA "www" 300 "1.2.3.5"]
      = .ok ⟨[⟨some (sampleA "www" 300 "1.2.3.4"), some (sampleA "www" 300 "1.2.3.4")⟩], [],
          [⟨some (sampleA "www" 300 "1.2.3.5"), none⟩], []⟩ := by
  decide

theorem IncrementalDiff_keepUnknown_witness :
    ∃ e, (⟨some (sampleA "www" 300 "1.2.3.5"), none⟩ : Correlation) = ⟨some e, none⟩ ∧
      e ∈ [sampleA "www" 300 "1.2.3.4", sampleA "www" 300 "1.2.3.5"] ∧
      ∃ m ∈ [sampleA "www" 300 "1.2.3.4"], m.Key = e.Key :=
  IncrementalDiff_keepUnknown (sampleDiffer [sampleA "www" 300 "1.2.3.4"] true [])
    [sampleA "www" 300 "1.2.3.4", sampleA "www" 300 "1.2.3.5"]
    ⟨[⟨some (sampleA "www" 300 "1.2.3.4"), some (sampleA "www" 300 "1.2.3.4")⟩], [],
      [⟨some (sampleA "www" 300 "1.2.3.5"), none⟩], []⟩ (by decide) (by decide)
    ⟨some (sampleA "www" 300 "1.2.3.5"), none⟩ (by decide)

/-! ## The diff engine: idempotence -/

/-- When both sides carry the same fingerprints, the exact-match pass pairs
every record. -/
theorem afterExact_all (d : differ) (ex de : List RecordConfig)
    (h : (ex.map d.fingerprint).Perm (de.map d.fingerprint)) :
    (afterExact d ex de).1 = [] ∧ (afterExact d ex de).2.1 = [] := by
  have p1 := (greedyPairs_perm_existing (sameContent d) ex de).map d.fingerprint
  have p2 := (greedyPairs_perm_desired (sameContent d) ex de).map d.fingerprint
  have hq := greedyPairs_pairs (sameContent d) ex de
  have heq : ((greedyPairs (sameContent d) ex de).2.2.map Prod.snd).map d.fingerprint
      = ((greedyPairs (sameContent d) ex de).2.2.map Prod.fst).map d.fingerprint := by
    simp only [List.map_map]
    apply List.map_congr_left
    intro x hx
    have := hq x hx
    simpa [sameContent] using this
  rw [List.map_append] at p1 p2
  rw [heq] at p2
  have hperm : ((afterExact d ex de).1.map d.fingerprint).Perm
      ((afterExact d ex de).2.1.map d.fingerprint) :=
    (List.perm_append_right_iff _).mp ((p1.symm.trans h).trans p2)
  have h1 : (afterExact d ex de).1 = [] := by
    cases hl : (afterExact d ex de).1 with
    | nil => rfl
    | cons e rest =>
      exfalso
      have he : e ∈ (afterExact d ex de).1 := by rw [hl]; simp
      have : d.fingerprint e ∈ (afterExact d ex de).2.1.map d.fingerprint :=
        hperm.subset (List.mem_map_of_mem _ he)
      obtain ⟨m, hm, hfm⟩ := List.mem_map.mp this
      exact afterExact_disjoint d ex de e he m hm hfm
  refine ⟨h1, ?_⟩
  rw [h1] at hperm
  simpa using hperm.symm.eq_nil

theorem keyPlan_of_same (d : differ) (ex de : List RecordConfig)
    (h : (ex.map d.fingerprint).Perm (de.map d.fingerprint)) :
    keyOk d ex de ∧ (keyPlan d ex de).create = [] ∧ (keyPlan d ex de).toDelete = [] ∧
      (keyPlan d ex de).modify = [] := by
  obtain ⟨h1, h2⟩ := afterExact_all d ex de h
  have h3 : afterTarget d ex de = ([], [], []) := by
    simp [afterTarget, h1, h2, greedyPairs]
  simp [keyOk, keyPlan, h3, byFingerprint, sortStrings]

theorem keysPlan_of_same (d : differ) (exM desM : Buckets)
    (h : ∀ e ∈ exM, (e.2.map d.fingerprint).Perm ((desM.get e.1).map d.fingerprint)) :
    (∀ e ∈ exM, keyOk d e.2 (desM.get e.1)) ∧ (keysPlan d exM desM).create = [] ∧
      (keysPlan d exM desM).toDelete = [] ∧ (keysPlan d exM desM).modify = [] := by
  induction exM with
  | nil => simp [keysPlan, Plan.empty]
  | cons a rest ih =>
    obtain ⟨k, rs⟩ := a
    obtain ⟨i1, i2, i3, i4⟩ := ih (fun e he => h e (List.mem_cons_of_mem _ he))
    obtain ⟨j1, j2, j3, j4⟩ := keyPlan_of_same d rs (desM.get k) (h (k, rs) (by simp))
    refine ⟨?_, ?_, ?_, ?_⟩
    · intro e he
      rcases List.mem_cons.mp he with rfl | he'
      · exact j1
      · exact i1 e he'
    · simp [keysPlan, Plan.append, i2, j2]
    · simp [keysPlan, Plan.append, i3, j3]
    · simp [keysPlan, Plan.append, i4, j4]

theorem underKey_map_keyPrint (d : differ) (l : List RecordConfig) (k : RecordKey) :
    (underKey l k).map d.fingerprint
      = ((l.map d.keyPrint).filter (fun x => decide (x.1 = k))).map Prod.snd := by
  induction l with
  | nil => rfl
  | cons a rest ih =>
    by_cases h : a.Key = k
    · simp only [underKey, differ.keyPrint, List.map_cons, List.filter_cons, h, decide_True,
        ↓reduceIte, List.cons.injEq, true_and] at ih ⊢
      exact ih
    · simp only [underKey, differ.keyPrint, List.map_cons, List.filter_cons, h, decide_False,
        Bool.false_eq_true, ↓reduceIte] at ih ⊢
      exact ih

theorem keysPlan_unchanged_pairs (d : differ) (exM desM : Buckets) :
    ∃ l : List (RecordConfig × RecordConfig),
      (keysPlan d exM desM).unchanged = l.map pairCorr := by
  induction exM with
  | nil => exact ⟨[], rfl⟩
  | cons a rest ih =>
    obtain ⟨k, rs⟩ := a
    obtain ⟨l, hl⟩ := ih
    refine ⟨(afterExact d rs (desM.get k)).2.2 ++ l, ?_⟩
    simp [keysPlan, Plan.append, keyPlan, hl]

theorem kept_eq_self (d : differ) (existing : List RecordConfig)
    (hex : ∀ e ∈ existing, d.matchIgnored e.GetLabel = false) : d.kept existing = existing := by
  unfold differ.kept
  rw [List.filter_eq_self]
  intro e he
  simp [hex e he]

theorem mem_existingBuckets_keys (d : differ) (existing : List RecordConfig) (k : RecordKey)
    (h1 : ∃ e ∈ d.kept existing, e.Key = k) (h2 : ∃ m ∈ d.dc.Records, m.Key = k) :
    k ∈ (d.existingBuckets existing).keys := by
  have hk : k ∈ (bucketAll (d.kept existing) []).keys :=
    (bucketAll_mem_keys _ _ _).mpr (Or.inr h1)
  unfold differ.existingBuckets
  split_ifs
  · obtain ⟨e, he, hek⟩ := List.mem_map.mp hk
    refine List.mem_map.mpr ⟨e, ?_, hek⟩
    simp only [dropUnknown, List.mem_filter]
    refine ⟨he, ?_⟩
    rw [Buckets.has_iff, hek]
    exact (mem_desiredBuckets_keys d k).mpr h2
  · exact hk

/-- C3: diff idempotence.  If no desired label is ignored and the existing
records are the desired records in any order (the same RecordKeys and
fingerprints, as often, and no ignored label), `IncrementalDiff` returns a plan
with empty create, modify and toDelete whose unchanged slice holds exactly one
correlation per desired record. -/
theorem IncrementalDiff_idempotent (d : differ) (existing : List RecordConfig)
    (hdes : ∀ r ∈ d.dc.Records, d.matchIgnored r.GetLabel = false)
    (hex : ∀ e ∈ existing, d.matchIgnored e.GetLabel = false)
    (hperm : (existing.map d.keyPrint).Perm (d.dc.Records.map d.keyPrint)) :
    ∃ p, d.IncrementalDiff existing = .ok p ∧ p.create = [] ∧ p.modify = [] ∧
      p.toDelete = [] ∧ (desiredOf p.unchanged).Perm d.dc.Records ∧
      (existingOf p.unchanged).Perm existing ∧
      p.unchanged.length = d.dc.Records.length := by
  have hany : d.dc.Records.any (fun r => d.matchIgnored r.GetLabel) = false := by
    rw [List.any_eq_false]
    intro r hr
    simp [hdes r hr]
  have hkept := kept_eq_self d existing hex
  have hsame : ∀ e ∈ d.existingBuckets existing,
      (e.2.map d.fingerprint).Perm ((d.desiredBuckets.get e.1).map d.fingerprint) := by
    intro e he
    rw [existingBuckets_entry d existing e.1 e.2 he, desiredBuckets_get, hkept,
      underKey_map_keyPrint, underKey_map_keyPrint]
    exact (hperm.filter _).map _
  obtain ⟨hok, hc, ht, hm⟩ := keysPlan_of_same d _ _ hsame
  have hcover : ∀ k ∈ d.desiredBuckets.keys, k ∈ (d.existingBuckets existing).keys := by
    intro k hk
    have h2 := (mem_desiredBuckets_keys d k).mp hk
    obtain ⟨m, hm1, hm2⟩ := h2
    have : d.keyPrint m ∈ existing.map d.keyPrint :=
      hperm.symm.subset (List.mem_map_of_mem _ hm1)
    obtain ⟨x, hx1, hx2⟩ := List.mem_map.mp this
    have hxk : x.Key = k := by
      have := congrArg Prod.fst hx2
      simp only [differ.keyPrint] at this
      rw [this, hm2]
    exact mem_existingBuckets_keys d existing k ⟨x, by rw [hkept]; exact hx1, hxk⟩
      ⟨m, hm1, hm2⟩
  have hcreate : (d.plan existing).create = [] := by
    simp only [differ.plan, createRest_eq, deleteKeys_eq, hc, List.nil_append,
      List.filter_filter, Bool.and_self]
    have : d.desiredBuckets.filter
        (fun e => decide (e.1 ∉ (d.existingBuckets existing).keys)) = [] := by
      rw [List.filter_eq_nil_iff]
      intro e he
      simp only [decide_eq_true_eq, not_not]
      exact hcover e.1 (List.mem_map_of_mem Prod.fst he)
    rw [this]
    rfl
  have hmod : (d.plan existing).modify = [] := by simp only [differ.plan, hm]
  have hdel : (d.plan existing).toDelete = [] := by simp only [differ.plan, ht]
  have hD := plan_desiredSides d existing hok
  simp only [Plan.desiredSides, hcreate, hmod, desiredOf, List.filterMap_nil,
    List.append_nil] at hD
  have hE := plan_existingSides d existing hok
  simp only [Plan.existingSides, hdel, hmod, existingOf, List.filterMap_nil,
    List.append_nil] at hE
  have hE2 : ((d.existingBuckets existing).keys.flatMap (underKey (d.kept existing))).Perm
      (d.kept existing) := by
    apply group_perm _ _ (existingBuckets_keys_nodup d existing)
    intro r hr
    have : d.keyPrint r ∈ d.dc.Records.map d.keyPrint := by
      rw [hkept] at hr
      exact hperm.subset (List.mem_map_of_mem _ hr)
    obtain ⟨m, hm1, hm2⟩ := List.mem_map.mp this
    have hmk : m.Key = r.Key := by
      have := congrArg Prod.fst hm2
      simpa [differ.keyPrint] using this
    exact mem_existingBuckets_keys d existing r.Key ⟨r, hr, rfl⟩ ⟨m, hm1, hmk⟩
  rw [hkept] at hE2 hE
  refine ⟨d.plan existing, diff_ok d existing hany hok, hcreate, hmod, hdel, hD,
    hE.trans hE2, ?_⟩
  obtain ⟨l, hl⟩ := keysPlan_unchanged_pairs d (d.existingBuckets existing) d.desiredBuckets
  have hu : (d.plan existing).unchanged = l.map pairCorr := by simp only [differ.plan, hl]
  have hlen := hD.length_eq
  rw [hu] at hlen ⊢
  have := desiredOf_pairCorr l
  simp only [desiredOf] at this
  rw [this] at hlen
  simpa using hlen

theorem IncrementalDiff_idempotent_witness :
    ∃ p, (sampleDiffer [sampleMX 300 20 "b.", sampleMX 300 10 "a."] false []).IncrementalDiff
        [sampleMX 300 10 "a.", sampleMX 300 20 "b."] = .ok p ∧
      p.create = [] ∧ p.modify = [] ∧ p.toDelete = [] ∧
      (desiredOf p.unchanged).Perm [sampleMX 300 20 "b.", sampleMX 300 10 "a."] ∧
      (existingOf p.unchanged).Perm [sampleMX 300 10 "a.", sampleMX 300 20 "b."] ∧
      p.unchanged.length = [sampleMX 300 20 "b.", sampleMX 300 10 "a."].length :=
  IncrementalDiff_idempotent (sampleDiffer [sampleMX 300 20 "b.", sampleMX 300 10 "a."] false [])
    [sampleMX 300 10 "a.", sampleMX 300 20 "b."] (by decide) (by decide) (by decide)

/-! ## The diff engine: one key at a time -/

theorem keysPlan_append (d : differ) (a b desM : Buckets) :
    keysPlan d (a ++ b) desM = (keysPlan d a desM).append (keysPlan d b desM) := by
  induction a with
  | nil => simp [keysPlan, Plan.empty_append]
  | cons x rest ih =>
    obtain ⟨k, rs⟩ := x
    show (keyPlan d rs (desM.get k)).append (keysPlan d (rest ++ b) desM) = _
    rw [ih]
    simp only [keysPlan, Plan.append_assoc]

/-- A correlation in a slice of the loop's plan comes from one key. -/
theorem mem_keysPlan_sel (sel : Plan → Changeset) (hempty : sel Plan.empty = [])
    (happ : ∀ p q, sel (p.append q) = sel p ++ sel q)
    (d : differ) (exM desM : Buckets) (c : Correlation)
    (hc : c ∈ sel (keysPlan d exM desM)) :
    ∃ e ∈ exM, c ∈ sel (keyPlan d e.2 (desM.get e.1)) := by
  induction exM with
  | nil => simp [keysPlan, hempty] at hc
  | cons a rest ih =>
    obtain ⟨k, rs⟩ := a
    simp only [keysPlan, happ, List.mem_append] at hc
    rcases hc with hc | hc
    · exact ⟨(k, rs), by simp, hc⟩
    · obtain ⟨e, he, h⟩ := ih hc
      exact ⟨e, List.mem_cons_of_mem _ he, h⟩

/-- Every record in the plan of one key is a record of that key's buckets. -/
theorem keyPlan_sides_mem (d : differ) (ex de : List RecordConfig) (hok : keyOk d ex de)
    (c : Correlation)
    (hc : c ∈ (keyPlan d ex de).unchanged ++ (keyPlan d ex de).create ++
      (keyPlan d ex de).toDelete ++ (keyPlan d ex de).modify) :
    (∀ r, c.Existing = some r → r ∈ ex) ∧ (∀ r, c.Desired = some r → r ∈ de) := by
  have hE := keyPlan_existingSides d ex de hok
  have hD := keyPlan_desiredSides d ex de hok
  simp only [List.mem_append] at hc
  constructor
  · intro r h
    apply hE.subset
    rcases hc with ((hc | hc) | hc) | hc
    · simp [Plan.existingSides, mem_existingOf c _ r hc h]
    · have := mem_existingOf c _ r hc h
      rw [keyPlan_create_existing] at this
      cases this
    · simp [Plan.existingSides, mem_existingOf c _ r hc h]
    · simp [Plan.existingSides, mem_existingOf c _ r hc h]
  · intro r h
    apply hD.subset
    rcases hc with ((hc | hc) | hc) | hc
    · simp [Plan.desiredSides, mem_desiredOf c _ r hc h]
    · simp [Plan.desiredSides, mem_desiredOf c _ r hc h]
    · have := mem_desiredOf c _ r hc h
      rw [keyPlan_toDelete_desired] at this
      cases this
    · simp [Plan.desiredSides, mem_desiredOf c _ r hc h]

/-- One existing and one desired record with different fingerprints become one
modify, whether the same-target pass or the residual pass pairs them. -/
theorem keyPlan_single (d : differ) (e m : RecordConfig)
    (hfp : d.fingerprint e ≠ d.fingerprint m) :
    keyOk d [e] [m] ∧ keyPlan d [e] [m] = ⟨[], [], [], [⟨some e, some m⟩]⟩ := by
  have hfp' : ¬ d.fingerprint m = d.fingerprint e := fun h => hfp h.symm
  have h1 : afterExact d [e] [m] = ([e], [m], []) := by
    simp [afterExact, greedyPairs, extractFirst, sameContent, hfp']
  by_cases ht : m.GetTargetField = e.GetTargetField
  · have h2 : afterTarget d [e] [m] = ([], [], [(e, m)]) := by
      simp [afterTarget, h1, greedyPairs, extractFirst, sameTarget, ht]
    simp [keyOk, keyPlan, h1, h2, byFingerprint, sortStrings, pairCorr]
  · have h2 : afterTarget d [e] [m] = ([e], [m], []) := by
      simp [afterTarget, h1, greedyPairs, extractFirst, sameTarget, ht]
    simp [keyOk, keyPlan, h1, h2, byFingerprint, sortStrings, pairCorr, List.lookup]

theorem Plan.all_empty : Plan.empty.all = [] := rfl

theorem Plan.mem_all_append (p q : Plan) (c : Correlation) :
    c ∈ (p.append q).all ↔ c ∈ p.all ∨ c ∈ q.all := by
  simp only [Plan.all, Plan.append, List.mem_append]
  tauto

/-- The keys other than `k` contribute no correlation with a record under `k`. -/
theorem keysPlan_awayFrom (d : differ) (existing : List RecordConfig) (k : RecordKey)
    (x : Buckets) (hx : ∀ e ∈ x, e ∈ d.existingBuckets existing ∧ e.1 ≠ k)
    (hok : d.allKeysOk existing) (c : Correlation)
    (hc : c ∈ (keysPlan d x d.desiredBuckets).all) : c.awayFrom k := by
  induction x with
  | nil => simp [keysPlan, Plan.all_empty] at hc
  | cons a rest ih =>
    obtain ⟨k', rs⟩ := a
    simp only [keysPlan, Plan.mem_all_append] at hc
    rcases hc with hc | hc
    · obtain ⟨hmem, hne⟩ := hx (k', rs) (by simp)
      have hkey := hok (k', rs) hmem
      have hrs := existingBuckets_entry d existing k' rs hmem
      obtain ⟨h1, h2⟩ := keyPlan_sides_mem d rs _ hkey c hc
      constructor
      · intro r hr
        have := h1 r hr
        rw [hrs, mem_underKey] at this
        rw [this.2]; exact hne
      · intro r hr
        have := h2 r hr
        rw [desiredBuckets_get, mem_underKey] at this
        rw [this.2]; exact hne
    · exact ih (fun e he => hx e (List.mem_cons_of_mem _ he)) hc

/-- C9 (as amended): if under key `k` there is exactly one existing record with
a label that is not ignored and exactly one desired record, and their
fingerprints differ, then every plan `IncrementalDiff` returns has that pair
exactly once in modify and no unchanged, create or delete correlation with a
record under `k`. -/
theorem IncrementalDiff_single_modify (d : differ) (existing : List RecordConfig) (p : Plan)
    (k : RecordKey) (e m : RecordConfig)
    (hex : (d.kept existing).filter (fun r => decide (r.Key = k)) = [e])
    (hde : d.dc.Records.filter (fun r => decide (r.Key = k)) = [m])
    (hfp : d.fingerprint e ≠ d.fingerprint m)
    (hp : d.IncrementalDiff existing = .ok p) :
    p.modify.count ⟨some e, some m⟩ = 1 ∧
      ∀ c ∈ p.unchanged ++ p.create ++ p.toDelete,
        (∀ r, c.Existing = some r → r.Key ≠ k) ∧ (∀ r, c.Desired = some r → r.Key ≠ k) := by
  obtain ⟨_, hok, rfl⟩ := (diff_ok_iff d existing p).mp hp
  have hex' : underKey (d.kept existing) k = [e] := hex
  have hde' : underKey d.dc.Records k = [m] := hde
  have he : e ∈ d.kept existing ∧ e.Key = k := by
    rw [← mem_underKey, hex']; simp
  have hm : m ∈ d.dc.Records ∧ m.Key = k := by
    rw [← mem_underKey, hde']; simp
  have hkE := mem_existingBuckets_keys d existing k ⟨e, he.1, he.2⟩ ⟨m, hm.1, hm.2⟩
  obtain ⟨⟨k0, rs⟩, hmem, hk0⟩ := List.mem_map.mp hkE
  simp only at hk0
  subst hk0
  have hrs : rs = [e] := by rw [existingBuckets_entry d existing k0 rs hmem, hex']
  subst hrs
  obtain ⟨a, b, hab⟩ := List.append_of_mem hmem
  have hn := existingBuckets_keys_nodup d existing
  rw [hab] at hn
  simp only [Buckets.keys, List.map_append, List.map_cons] at hn
  have hna : ∀ x ∈ a, x ∈ d.existingBuckets existing ∧ x.1 ≠ k0 := by
    intro x hxa
    refine ⟨by rw [hab]; simp [hxa], ?_⟩
    intro h
    have h1 : k0 ∈ a.map Prod.fst := h ▸ List.mem_map_of_mem Prod.fst hxa
    exact (List.nodup_append.mp hn).2.2 h1 (by simp)
  have hnb : ∀ x ∈ b, x ∈ d.existingBuckets existing ∧ x.1 ≠ k0 := by
    intro x hxb
    refine ⟨by rw [hab]; simp [hxb], ?_⟩
    intro h
    have h1 : k0 ∈ b.map Prod.fst := h ▸ List.mem_map_of_mem Prod.fst hxb
    have h2 := (List.nodup_append.mp hn).2.1
    rw [List.nodup_cons] at h2
    exact h2.1 h1
  have hA := keysPlan_awayFrom d existing k0 a hna hok
  have hB := keysPlan_awayFrom d existing k0 b hnb hok
  have hsingle := (keyPlan_single d e m hfp).2
  have hplan : keysPlan d (d.existingBuckets existing) d.desiredBuckets
      = (keysPlan d a d.desiredBuckets).append
          ((⟨[], [], [], [⟨some e, some m⟩]⟩ : Plan).append (keysPlan d b d.desiredBuckets)) := by
    rw [hab, keysPlan_append]
    simp only [keysPlan, desiredBuckets_get, hde', hsingle]
  have hc0 : ¬ (⟨some e, some m⟩ : Correlation).awayFrom k0 := fun h => h.1 e rfl he.2
  constructor
  · simp only [differ.plan, hplan, Plan.append, List.nil_append, List.count_append,
      List.singleton_append]
    have h1 : List.count (⟨some e, some m⟩ : Correlation)
        (keysPlan d a d.desiredBuckets).modify = 0 := by
      rw [List.count_eq_zero]
      intro hin
      exact hc0 (hA _ (by simp [Plan.all, hin]))
    have h2 : List.count (⟨some e, some m⟩ : Correlation)
        (keysPlan d b d.desiredBuckets).modify = 0 := by
      rw [List.count_eq_zero]
      intro hin
      exact hc0 (hB _ (by simp [Plan.all, hin]))
    rw [h1, List.count_cons_self, h2]
  · intro c hc
    simp only [differ.plan, hplan, Plan.append, List.nil_append, createRest_eq, deleteKeys_eq,
      List.mem_append, List.mem_map, List.filter_filter, Bool.and_self] at hc
    rcases hc with ((hc | hc) | ((hc | hc) | hc)) | (hc | hc)
    · exact hA c (by simp [Plan.all, hc])
    · exact hB c (by simp [Plan.all, hc])
    · exact hA c (by simp [Plan.all, hc])
    · exact hB c (by simp [Plan.all, hc])
    · obtain ⟨r, hr, rfl⟩ := hc
      obtain ⟨x, hx, hrx⟩ := List.mem_flatMap.mp hr
      simp only [List.mem_filter, decide_eq_true_eq] at hx
      have hxs := bucketAll_entry _ x.1 x.2 hx.1
      rw [hxs, mem_underKey] at hrx
      constructor
      · intro r' h; cases h
      · intro r' h
        simp only [Option.some.injEq] at h
        subst h
        rw [hrx.2]
        intro hk
        exact hx.2 (hk ▸ hkE)
    · exact hA c (by simp [Plan.all, hc])
    · exact hB c (by simp [Plan.all, hc])

theorem IncrementalDiff_single_modify_witness :
    List.count (⟨some (sampleA "www" 300 "1.2.3.4"), some (sampleA "www" 600 "1.2.3.4")⟩ :
        Correlation)
      [⟨some (sampleA "www" 300 "1.2.3.4"), some (sampleA "www" 600 "1.2.3.4")⟩] = 1 ∧
      ∀ c ∈ ([] : Changeset) ++ [] ++ [],
        (∀ r, c.Existing = some r → r.Key ≠ ⟨"www.example.com", "A"⟩) ∧
          (∀ r, c.Desired = some r → r.Key ≠ ⟨"www.example.com", "A"⟩) :=
  IncrementalDiff_single_modify (sampleDiffer [sampleA "www" 600 "1.2.3.4"] false [])
    [sampleA "www" 300 "1.2.3.4"]
    ⟨[], [], [], [⟨some (sampleA "www" 300 "1.2.3.4"), some (sampleA "www" 600 "1.2.3.4")⟩]⟩
    ⟨"www.example.com", "A"⟩ (sampleA "www" 300 "1.2.3.4") (sampleA "www" 600 "1.2.3.4")
    (by decide) (by decide) (by decide) (by decide)

/-- C9, counterexample: one existing and one desired record under the key of
`www` with different fingerprints, and no plan at all, because two equal existing
records under another key panic. -/
theorem single_pair_without_plan :
    ((sampleDiffer [sampleA "www" 600 "1.2.3.4"] false []).kept
        [sampleA "www" 300 "1.2.3.4", sampleA "old" 300 "9.9.9.9",
          sampleA "old" 300 "9.9.9.9"]).filter
        (fun r => decide (r.Key = ⟨"www.example.com", "A"⟩)) = [sampleA "www" 300 "1.2.3.4"] ∧
    (sampleDiffer [sampleA "www" 600 "1.2.3.4"] false []).dc.Records.filter
        (fun r => decide (r.Key = ⟨"www.example.com", "A"⟩)) = [sampleA "www" 600 "1.2.3.4"] ∧
    (sampleDiffer [sampleA "www" 600 "1.2.3.4"] false []).fingerprint
        (sampleA "www" 300 "1.2.3.4") ≠
      (sampleDiffer [sampleA "www" 600 "1.2.3.4"] false []).fingerprint
        (sampleA "www" 600 "1.2.3.4") ∧
    (sampleDiffer [sampleA "www" 600 "1.2.3.4"] false []).IncrementalDiff
        [sampleA "www" 300 "1.2.3.4", sampleA "old" 300 "9.9.9.9",
          sampleA "old" 300 "9.9.9.9"] = .error .duplicateExisting := by
  decide

/-! ## The diff engine: duplicate fingerprints -/

theorem extractFirst_filter (q : RecordConfig → Bool) (l : List RecordConfig)
    (m : RecordConfig) (rest : List RecordConfig) (h : extractFirst q l = some (m, rest))
    (f : RecordConfig → Bool) (hf : f m = false) : rest.filter f = l.filter f := by
  induction l generalizing rest with
  | nil => simp [extractFirst] at h
  | cons a tl ih =>
    simp only [extractFirst] at h
    by_cases ha : q a = true
    · simp only [ha, ↓reduceIte, Option.some.injEq, Prod.mk.injEq] at h
      obtain ⟨rfl, rfl⟩ := h
      simp [List.filter_cons, hf]
    · simp only [ha, Bool.false_eq_true, ↓reduceIte] at h
      cases hr : extractFirst q tl with
      | none => simp [hr] at h
      | some x =>
        obtain ⟨m', rest'⟩ := x
        simp only [hr, Option.some.injEq, Prod.mk.injEq] at h
        obtain ⟨rfl, rfl⟩ := h
        simp only [List.filter_cons, ih rest' hr]

theorem greedyPairs_desired_subset (q : RecordConfig → RecordConfig → Bool)
    (ex de : List RecordConfig) : (greedyPairs q ex de).2.1 ⊆ de := fun _ hx =>
  (greedyPairs_perm_desired q ex de).symm.subset (List.mem_append_left _ hx)

/-- An existing record that no desired record satisfies the test with is left
over by the pass. -/
theorem greedyPairs_existing_survive (q : RecordConfig → RecordConfig → Bool)
    (ex de : List RecordConfig) :
    (ex.filter (fun e => de.all (fun m => !q e m))).Sublist (greedyPairs q ex de).1 := by
  induction ex with
  | nil => simp [greedyPairs]
  | cons e higher ih =>
    simp only [greedyPairs]
    cases hx : extractFirst (q e) (greedyPairs q higher de).2.1 with
    | none =>
      simp only [List.filter_cons]
      split_ifs
      · exact ih.cons₂ e
      · exact ih.cons e
    | some x =>
      obtain ⟨m, rest⟩ := x
      obtain ⟨hq, hp⟩ := extractFirst_some _ _ _ _ hx
      have hm : m ∈ de := greedyPairs_desired_subset q higher de (hp.symm.subset (by simp))
      have : (de.all fun m => !q e m) = false := by
        rw [List.all_eq_false]
        exact ⟨m, hm, by simp [hq]⟩
      simp only [List.filter_cons, this, Bool.false_eq_true, ↓reduceIte]
      exact ih

/-- A desired record that no existing record satisfies the test with is left
over by the pass. -/
theorem greedyPairs_desired_survive (q : RecordConfig → RecordConfig → Bool)
    (ex de : List RecordConfig) :
    (de.filter (fun m => ex.all (fun e => !q e m))).Sublist (greedyPairs q ex de).2.1 := by
  induction ex with
  | nil => simp [greedyPairs]
  | cons e higher ih =>
    have hsub : (de.filter (fun m => (e :: higher).all (fun e => !q e m)))
        = (de.filter (fun m => higher.all (fun e => !q e m))).filter (fun m => !q e m) := by
      rw [List.filter_filter]
      apply List.filter_congr
      intro m _
      simp [List.all_cons]
    simp only [greedyPairs]
    cases hx : extractFirst (q e) (greedyPairs q higher de).2.1 with
    | none =>
      rw [hsub]
      exact (List.filter_sublist _).trans ih
    | some x =>
      obtain ⟨m, rest⟩ := x
      obtain ⟨hq, _⟩ := extractFirst_some _ _ _ _ hx
      rw [hsub]
      have h1 := ih.filter (fun m => !q e m)
      rw [← extractFirst_filter _ _ _ _ hx (fun m => !q e m) (by simp [hq])] at h1
      exact h1.trans (List.filter_sublist _)

theorem pair_sublist_filter (f : RecordConfig → Bool) (a b : RecordConfig)
    (l : List RecordConfig) (h : [a, b].Sublist l) (ha : f a = true) (hb : f b = true) :
    [a, b].Sublist (l.filter f) := by
  have := h.filter f
  simpa [List.filter_cons, ha, hb] using this

theorem not_nodup_of_pair (fp : RecordConfig → String) (a b : RecordConfig)
    (l : List RecordConfig) (h : [a, b].Sublist l) (hab : fp a = fp b) :
    ¬ (l.map fp).Nodup := by
  intro hn
  have := (h.map fp).nodup hn
  simp [hab] at this

theorem greedyPairs_existing_subset (q : RecordConfig → RecordConfig → Bool)
    (ex de : List RecordConfig) : (greedyPairs q ex de).1 ⊆ ex := fun _ hx =>
  (greedyPairs_perm_existing q ex de).symm.subset (List.mem_append_left _ hx)

/-- Two existing records with one fingerprint that no desired record can be
paired with are both left for the residual pass. -/
theorem existing_pair_survives (d : differ) (ex de : List RecordConfig)
    (e1 e2 : RecordConfig) (h : [e1, e2].Sublist ex)
    (hfp : d.fingerprint e1 = d.fingerprint e2)
    (hno : ∀ m ∈ de, d.fingerprint m ≠ d.fingerprint e1 ∧
      m.GetTargetField ≠ e1.GetTargetField ∧ m.GetTargetField ≠ e2.GetTargetField) :
    ¬ keyOk d ex de := by
  intro hok
  have s1 : [e1, e2].Sublist (afterExact d ex de).1 := by
    refine (pair_sublist_filter _ e1 e2 ex h ?_ ?_).trans
      (greedyPairs_existing_survive (sameContent d) ex de)
    · rw [List.all_eq_true]; intro m hm; simp [sameContent, (hno m hm).1]
    · rw [List.all_eq_true]; intro m hm; simp [sameContent, ← hfp, (hno m hm).1]
  have s2 : [e1, e2].Sublist (afterTarget d ex de).1 := by
    refine (pair_sublist_filter _ e1 e2 _ s1 ?_ ?_).trans
      (greedyPairs_existing_survive sameTarget _ _)
    · rw [List.all_eq_true]; intro m hm
      have := hno m (greedyPairs_desired_subset _ _ _ hm)
      simp [sameTarget, this.2.1]
    · rw [List.all_eq_true]; intro m hm
      have := hno m (greedyPairs_desired_subset _ _ _ hm)
      simp [sameTarget, this.2.2]
  exact not_nodup_of_pair d.fingerprint e1 e2 _ s2 hfp hok.1

/-- Two desired records with one fingerprint that no existing record can be
paired with are both left for the residual pass. -/
theorem desired_pair_survives (d : differ) (ex de : List RecordConfig)
    (m1 m2 : RecordConfig) (h : [m1, m2].Sublist de)
    (hfp : d.fingerprint m1 = d.fingerprint m2)
    (hno : ∀ e ∈ ex, d.fingerprint e ≠ d.fingerprint m1 ∧
      e.GetTargetField ≠ m1.GetTargetField ∧ e.GetTargetField ≠ m2.GetTargetField) :
    ¬ keyOk d ex de := by
  intro hok
  have s1 : [m1, m2].Sublist (afterExact d ex de).2.1 := by
    refine (pair_sublist_filter _ m1 m2 de h ?_ ?_).trans
      (greedyPairs_desired_survive (sameContent d) ex de)
    · rw [List.all_eq_true]; intro e he
      have h' : ¬ d.fingerprint m1 = d.fingerprint e := fun h => (hno e he).1 h.symm
      simp [sameContent, h']
    · rw [List.all_eq_true]; intro e he
      have h' : ¬ d.fingerprint m2 = d.fingerprint e := fun h =>
        (hno e he).1 (hfp.trans h).symm
      simp [sameContent, h']
  have s2 : [m1, m2].Sublist (afterTarget d ex de).2.1 := by
    refine (pair_sublist_filter _ m1 m2 _ s1 ?_ ?_).trans
      (greedyPairs_desired_survive sameTarget _ _)
    · rw [List.all_eq_true]; intro e he
      have h' : ¬ m1.GetTargetField = e.GetTargetField := fun h =>
        (hno e (greedyPairs_existing_subset _ _ _ he)).2.1 h.symm
      simp [sameTarget, h']
    · rw [List.all_eq_true]; intro e he
      have h' : ¬ m2.GetTargetField = e.GetTargetField := fun h =>
        (hno e (greedyPairs_existing_subset _ _ _ he)).2.2 h.symm
      simp [sameTarget, h']
  exact not_nodup_of_pair d.fingerprint m1 m2 _ s2 hfp hok.2

theorem mem_existingBuckets_keys_of (d : differ) (existing : List RecordConfig)
    (k : RecordKey) (h1 : ∃ e ∈ d.kept existing, e.Key = k)
    (h2 : d.dc.KeepUnknown = false ∨ ∃ m ∈ d.dc.Records, m.Key = k) :
    k ∈ (d.existingBuckets existing).keys := by
  rcases h2 with h2 | h2
  · simp only [differ.existingBuckets, h2, Bool.false_eq_true, ↓reduceIte]
    exact (bucketAll_mem_keys _ _ _).mpr (Or.inr h1)
  · exact mem_existingBuckets_keys d existing k h1 h2

/-- A visited key that fails a duplicate check makes `IncrementalDiff` panic. -/
theorem diff_panics_of_key (d : differ) (existing : List RecordConfig)
    (hdes : ∀ r ∈ d.dc.Records, d.matchIgnored r.GetLabel = false) (k : RecordKey)
    (hk : k ∈ (d.existingBuckets existing).keys)
    (hbad : ¬ keyOk d (underKey (d.kept existing) k) (underKey d.dc.Records k)) :
    d.IncrementalDiff existing = .error .duplicateExisting ∨
      d.IncrementalDiff existing = .error .duplicateDesired := by
  have hany : d.dc.Records.any (fun r => d.matchIgnored r.GetLabel) = false := by
    rw [List.any_eq_false]
    intro r hr
    simp [hdes r hr]
  apply diff_panics_duplicate d existing hany
  intro hall
  obtain ⟨⟨k0, rs⟩, hmem, hk0⟩ := List.mem_map.mp hk
  simp only at hk0
  subst hk0
  have := hall (k0, rs) hmem
  rw [existingBuckets_entry d existing k0 rs hmem, desiredBuckets_get] at this
  exact hbad this

/-- C8 (as amended): two records on one side with the same RecordKey and the
same fingerprint make `IncrementalDiff` panic with a duplicate-fingerprint error
when no desired label is ignored, the loop visits their key (the key has an
existing record with a label that is not ignored and, for two existing records
under `keepUnknown`, a desired record) and no record of the other side under that
key has their fingerprint or the target field of either. -/
theorem IncrementalDiff_duplicate (d : differ) (existing : List RecordConfig)
    (hdes : ∀ r ∈ d.dc.Records, d.matchIgnored r.GetLabel = false) :
    (∀ e1 e2, [e1, e2].Sublist (existing.filter (fun e => !d.matchIgnored e.GetLabel)) →
      e1.Key = e2.Key → d.fingerprint e1 = d.fingerprint e2 →
      (d.dc.KeepUnknown = false ∨ ∃ m ∈ d.dc.Records, m.Key = e1.Key) →
      (∀ m ∈ d.dc.Records, m.Key = e1.Key → d.fingerprint m ≠ d.fingerprint e1 ∧
        m.GetTargetField ≠ e1.GetTargetField ∧ m.GetTargetField ≠ e2.GetTargetField) →
      (d.IncrementalDiff existing = .error .duplicateExisting ∨
        d.IncrementalDiff existing = .error .duplicateDesired)) ∧
    (∀ m1 m2, [m1, m2].Sublist d.dc.Records →
      m1.Key = m2.Key → d.fingerprint m1 = d.fingerprint m2 →
      (∃ e ∈ existing, d.matchIgnored e.GetLabel = false ∧ e.Key = m1.Key) →
      (∀ e ∈ existing, d.matchIgnored e.GetLabel = false → e.Key = m1.Key →
        d.fingerprint e ≠ d.fingerprint m1 ∧
        e.GetTargetField ≠ m1.GetTargetField ∧ e.GetTargetField ≠ m2.GetTargetField) →
      (d.IncrementalDiff existing = .error .duplicateExisting ∨
        d.IncrementalDiff existing = .error .duplicateDesired)) := by
  constructor
  · intro e1 e2 hsub hkey hfp hvis hno
    have he1 : e1 ∈ d.kept existing := hsub.subset (by simp)
    apply diff_panics_of_key d existing hdes e1.Key
      (mem_existingBuckets_keys_of d existing e1.Key ⟨e1, he1, rfl⟩ hvis)
    apply existing_pair_survives d _ _ e1 e2 _ hfp
    · intro m hm
      rw [mem_underKey] at hm
      exact hno m hm.1 hm.2
    · exact pair_sublist_filter _ e1 e2 _ hsub (by simp) (by simp [hkey])
  · intro m1 m2 hsub hkey hfp hvis hno
    have hm1 : m1 ∈ d.dc.Records := hsub.subset (by simp)
    obtain ⟨e, he, hign, hek⟩ := hvis
    have hekept : e ∈ d.kept existing := by
      simp [differ.kept, he, hign]
    apply diff_panics_of_key d existing hdes m1.Key
      (mem_existingBuckets_keys d existing m1.Key ⟨e, hekept, hek⟩ ⟨m1, hm1, rfl⟩)
    apply desired_pair_survives d _ _ m1 m2 _ hfp
    · intro x hx
      rw [mem_underKey] at hx
      have hx1 : x ∈ existing ∧ d.matchIgnored x.GetLabel = false := by
        simpa [differ.kept] using hx.1
      exact hno x hx1.1 hx1.2 hx.2
    · exact pair_sublist_filter _ m1 m2 _ hsub (by simp) (by simp [hkey])

theorem IncrementalDiff_duplicate_witness :
    ((sampleDiffer [sampleA "www" 600 "1.2.3.4"] false []).IncrementalDiff
          [sampleA "www" 300 "1.2.3.7", sampleA "www" 300 "1.2.3.7"]
        = .error .duplicateExisting ∨
      (sampleDiffer [sampleA "www" 600 "1.2.3.4"] false []).IncrementalDiff
          [sampleA "www" 300 "1.2.3.7", sampleA "www" 300 "1.2.3.7"]
        = .error .duplicateDesired) ∧
    ((sampleDiffer [sampleA "www" 600 "1.2.3.7", sampleA "www" 600 "1.2.3.7"] false
          []).IncrementalDiff [sampleA "www" 300 "1.2.3.4"]
        = .error .duplicateExisting ∨
      (sampleDiffer [sampleA "www" 600 "1.2.3.7", sampleA "www" 600 "1.2.3.7"] false
          []).IncrementalDiff [sampleA "www" 300 "1.2.3.4"]
        = .error .duplicateDesired) :=
  ⟨(IncrementalDiff_duplicate (sampleDiffer [sampleA "www" 600 "1.2.3.4"] false [])
      [sampleA "www" 300 "1.2.3.7", sampleA "www" 300 "1.2.3.7"] (by decide)).1
      (sampleA "www" 300 "1.2.3.7") (sampleA "www" 300 "1.2.3.7")
      (by decide) (by decide) (by decide) (by decide) (by decide),
   (IncrementalDiff_duplicate
      (sampleDiffer [sampleA "www" 600 "1.2.3.7", sampleA "www" 600 "1.2.3.7"] false [])
      [sampleA "www" 300 "1.2.3.4"] (by decide)).2
      (sampleA "www" 600 "1.2.3.7") (sampleA "www" 600 "1.2.3.7")
      (by decide) (by decide) (by decide) (by decide) (by decide)⟩

/-- C8, counterexample: two desired records with one RecordKey and one
fingerprint, and two such existing records, each time with a plan returned: the
desired pair under a key without existing records becomes two creates, the
existing pair is paired off by the exact-match pass. -/
theorem duplicates_without_panic :
    (sampleDiffer [sampleA "www" 300 "1.2.3.4", sampleA "www" 300 "1.2.3.4"] false
        []).IncrementalDiff []
      = .ok ⟨[], [⟨none, some (sampleA "www" 300 "1.2.3.4")⟩,
          ⟨none, some (sampleA "www" 300 "1.2.3.4")⟩], [], []⟩ ∧
    (sampleDiffer [sampleA "www" 300 "1.2.3.4", sampleA "www" 300 "1.2.3.4"] false
        []).IncrementalDiff [sampleA "www" 300 "1.2.3.4", sampleA "www" 300 "1.2.3.4"]
      = .ok ⟨[⟨some (sampleA "www" 300 "1.2.3.4"), some (sampleA "www" 300 "1.2.3.4")⟩,
          ⟨some (sampleA "www" 300 "1.2.3.4"), some (sampleA "www" 300 "1.2.3.4")⟩],
          [], [], []⟩ := by
  decide

/-! ## The label order of the zone file -/

theorem splitChars_ne_nil (sep : Char) (cs : List Char) : splitChars sep cs ≠ [] := by
  induction cs with
  | nil => simp [splitChars]
  | cons c rest ih =>
    simp only [splitChars]
    split_ifs
    · simp
    · cases h : splitChars sep rest with
      | nil => simp
      | cons w ws => simp

theorem Split_length_pos (a : String) : 0 < (Split a).length := by
  unfold Split
  rw [List.length_map]
  exact List.length_pos.mpr (splitChars_ne_nil _ _)

theorem revLess_nil_right (xs : List String) : revLess xs [] = false := by
  cases xs <;> rfl

theorem take_succ_reverse (l : List String) (u : Nat) (h : u < l.length) :
    (l.take (u + 1)).reverse = l.getD u "" :: (l.take u).reverse := by
  rw [List.take_succ, List.reverse_append]
  simp [List.getD, List.getElem?_eq_getElem h]

/-- The index loop of `zoneLabelLess` is `revLess` on the reversed component
lists. -/
theorem zoneLabelLoop_eq (as bs : List String) (u v : Nat) (hu : u ≤ as.length)
    (hv : v ≤ bs.length) :
    (match zoneLabelLoop as bs (min u v) (u - 1) (v - 1) with
      | some r => r
      | none => decide (u < v))
      = revLess (as.take u).reverse (bs.take v).reverse := by
  induction u generalizing v with
  | zero =>
    cases v with
    | zero => simp [zoneLabelLoop, revLess]
    | succ v' =>
      rw [take_succ_reverse bs v' (by omega)]
      simp [zoneLabelLoop, revLess]
  | succ u' ih =>
    cases v with
    | zero =>
      simp [zoneLabelLoop, revLess_nil_right]
    | succ v' =>
      rw [take_succ_reverse as u' (by omega), take_succ_reverse bs v' (by omega)]
      have hmin : min (u' + 1) (v' + 1) = min u' v' + 1 := by omega
      have hx : ((as.take u').reverse = []) ↔ u' = 0 := by
        rw [List.reverse_eq_nil_iff, List.take_eq_nil_iff]
        constructor
        · rintro (h | h)
          · exact h
          · rw [h] at hu; simp at hu
        · exact Or.inl
      have hy : ((bs.take v').reverse = []) ↔ v' = 0 := by
        rw [List.reverse_eq_nil_iff, List.take_eq_nil_iff]
        constructor
        · rintro (h | h)
          · exact h
          · rw [h] at hv; simp at hv
        · exact Or.inl
      rw [hmin]
      simp only [zoneLabelLoop, revLess, Nat.add_sub_cancel, hx, hy]
      by_cases hne : as.getD u' "" = bs.getD v' ""
      · simp only [hne, ne_eq, not_true_eq_false, ↓reduceIte]
        have := ih v' (by omega) (by omega)
        simpa using this
      · simp only [ne_eq, hne, not_false_eq_true, ↓reduceIte]
        split_ifs <;> rfl

theorem zoneLabelLess_eq (a b : String) :
    zoneLabelLess a b =
      if a = b then false
      else if a = "@" then true
      else if b = "@" then false
      else if a = "*" then true
      else if b = "*" then false
      else revLess (Split a).reverse (Split b).reverse := by
  unfold zoneLabelLess
  split_ifs <;> try rfl
  have ha := Split_length_pos a
  have hb := Split_length_pos b
  have h := zoneLabelLoop_eq (Split a) (Split b) (Split a).length (Split b).length
    (le_refl _) (le_refl _)
  rw [List.take_length, List.take_length] at h
  rw [← h]
  have hmin : (if (Split a).length - 1 < (Split b).length - 1 then (Split a).length - 1
      else (Split b).length - 1) + 1 = min (Split a).length (Split b).length := by
    split_ifs <;> omega
  simp only [hmin]
  have hd : decide ((Split a).length - 1 < (Split b).length - 1)
      = decide ((Split a).length < (Split b).length) := by
    apply decide_eq_decide.mpr
    omega
  rw [hd]

theorem stringLess_iff (x y : String) : stringLess x y = true ↔ x < y := by
  unfold stringLess
  rw [decide_eq_true_iff, String.lt_iff_toList_lt]
  rfl

theorem componentLess_asymm (x y : String) (h : componentLess x y = true) :
    componentLess y x = false := by
  unfold componentLess at *
  cases hx : ParseUint x 64 <;> cases hy : ParseUint y 64 <;> simp only [hx, hy] at h ⊢
  · rw [stringLess_iff] at h
    rw [Bool.eq_false_iff, ne_eq, stringLess_iff]
    exact lt_asymm h
  · rw [stringLess_iff] at h
    rw [Bool.eq_false_iff, ne_eq, stringLess_iff]
    exact lt_asymm h
  · rw [stringLess_iff] at h
    rw [Bool.eq_false_iff, ne_eq, stringLess_iff]
    exact lt_asymm h
  · simp only [decide_eq_true_eq, decide_eq_false_iff_not] at h ⊢
    omega

theorem revLess_asymm (xs ys : List String) (h : revLess xs ys = true) :
    revLess ys xs = false := by
  induction xs generalizing ys with
  | nil => exact revLess_nil_right ys
  | cons x xs ih =>
    cases ys with
    | nil => simp [revLess] at h
    | cons y ys =>
      simp only [revLess] at h ⊢
      by_cases hxy : x = y
      · subst hxy
        simp only [ne_eq, not_true_eq_false, ↓reduceIte] at h ⊢
        exact ih ys h
      · have hyx : ¬ y = x := fun e => hxy e.symm
        simp only [ne_eq, hxy, not_false_eq_true, ↓reduceIte] at h
        simp only [ne_eq, hyx, not_false_eq_true, ↓reduceIte]
        by_cases h1 : xs = [] ∧ x = "*"
        · have h2 : ¬ (ys = [] ∧ y = "*") := fun h2 => hxy (h1.2.trans h2.2.symm)
          simp [h1, h2]
        · simp only [h1, ↓reduceIte] at h
          by_cases h2 : ys = [] ∧ y = "*"
          · simp [h2] at h
          · simp only [h2, ↓reduceIte] at h
            simp only [h2, h1, ↓reduceIte]
            exact componentLess_asymm x y h

theorem componentLess_plain (x y : String) (hx : ParseUint x 64 = none) :
    componentLess x y = stringLess x y := by
  unfold componentLess
  rw [hx]

theorem revLess_trans (xs ys zs : List String) (hx : ∀ x ∈ xs, ParseUint x 64 = none)
    (hy : ∀ y ∈ ys, ParseUint y 64 = none)
    (h1 : revLess xs ys = true) (h2 : revLess ys zs = true) : revLess xs zs = true := by
  induction xs generalizing ys zs with
  | nil =>
    cases ys with
    | nil => simp [revLess] at h1
    | cons y ys =>
      cases zs with
      | nil => simp [revLess] at h2
      | cons z zs => rfl
  | cons x xs ih =>
    cases ys with
    | nil => simp [revLess] at h1
    | cons y ys =>
      cases zs with
      | nil => simp [revLess] at h2
      | cons z zs =>
        have px : ParseUint x 64 = none := hx x (by simp)
        have py : ParseUint y 64 = none := hy y (by simp)
        simp only [revLess, componentLess_plain _ _ px, componentLess_plain _ _ py] at h1 h2 ⊢
        by_cases hxy : x = y
        · subst hxy
          simp only [ne_eq, not_true_eq_false, ↓reduceIte] at h1
          by_cases hxz : x = z
          · subst hxz
            simp only [ne_eq, not_true_eq_false, ↓reduceIte] at h2 ⊢
            exact ih ys zs (fun a ha => hx a (List.mem_cons_of_mem _ ha))
              (fun a ha => hy a (List.mem_cons_of_mem _ ha)) h1 h2
          · simp only [ne_eq, hxz, not_false_eq_true, ↓reduceIte] at h2 ⊢
            by_cases a1 : xs = [] ∧ x = "*"
            · simp [a1]
            · simp only [a1, ↓reduceIte]
              by_cases a2 : ys = [] ∧ x = "*"
              · rw [a2.1, revLess_nil_right] at h1; cases h1
              · simp only [a2, ↓reduceIte] at h2
                exact h2
        · simp only [ne_eq, hxy, not_false_eq_true, ↓reduceIte] at h1
          by_cases hyz : y = z
          · subst hyz
            simp only [ne_eq, not_true_eq_false, ↓reduceIte] at h2
            simp only [ne_eq, hxy, not_false_eq_true, ↓reduceIte]
            by_cases a1 : xs = [] ∧ x = "*"
            · simp [a1]
            · simp only [a1, ↓reduceIte] at h1 ⊢
              by_cases a2 : ys = [] ∧ y = "*"
              · simp [a2] at h1
              · simp only [a2, ↓reduceIte] at h1
                by_cases a3 : zs = [] ∧ y = "*"
                · rw [a3.1, revLess_nil_right] at h2; cases h2
                · simp only [a3, ↓reduceIte]
                  exact h1
          · simp only [ne_eq, hyz, not_false_eq_true, ↓reduceIte] at h2
            by_cases a1 : xs = [] ∧ x = "*"
            · by_cases hxz : x = z
              · subst hxz
                have a2 : ¬ (ys = [] ∧ y = "*") := fun a2 => hxy (a1.2.trans a2.2.symm)
                simp only [a2, ↓reduceIte] at h2
                have a3 : ¬ (zs = [] ∧ x = "*") := by
                  intro a3; simp [a3] at h2
                simp only [ne_eq, not_true_eq_false, ↓reduceIte]
                rw [a1.1]
                cases zs with
                | nil => exact absurd ⟨rfl, a1.2⟩ a3
                | cons z' zs' => rfl
              · simp only [ne_eq, hxz, not_false_eq_true, ↓reduceIte]
                rw [if_pos a1]
            · simp only [a1, ↓reduceIte] at h1
              by_cases a2 : ys = [] ∧ y = "*"
              · simp [a2] at h1
              · simp only [a2, ↓reduceIte] at h1 h2
                by_cases a3 : zs = [] ∧ z = "*"
                · simp [a3] at h2
                · simp only [a3, ↓reduceIte] at h2
                  rw [stringLess_iff] at h1 h2
                  have hlt := lt_trans h1 h2
                  have hxz : ¬ x = z := fun e => by
                    rw [e] at hlt; exact lt_irrefl _ hlt
                  simp only [ne_eq, hxz, not_false_eq_true, ↓reduceIte, a1, a3]
                  rw [stringLess_iff]
                  exact hlt

theorem zoneLabelLess_asymm (a b : String) (h : zoneLabelLess a b = true) :
    zoneLabelLess b a = false := by
  rw [zoneLabelLess_eq] at h ⊢
  by_cases hab : a = b
  · simp [hab] at h
  · have hba : ¬ b = a := fun e => hab e.symm
    simp only [hab, hba, ↓reduceIte] at h ⊢
    by_cases ha : a = "@"
    · have hb : ¬ b = "@" := fun e => hab (ha.trans e.symm)
      simp [ha, hb]
    · simp only [ha, ↓reduceIte] at h ⊢
      by_cases hb : b = "@"
      · simp [hb] at h
      · simp only [hb, ↓reduceIte] at h ⊢
        by_cases ha' : a = "*"
        · have hb' : ¬ b = "*" := fun e => hab (ha'.trans e.symm)
          simp [ha', hb']
        · simp only [ha', ↓reduceIte] at h ⊢
          by_cases hb' : b = "*"
          · simp [hb'] at h
          · simp only [hb', ↓reduceIte] at h ⊢
            exact revLess_asymm _ _ h

theorem zoneLabelLess_trans_plain (a b c : String) (pa : plainLabel a) (pb : plainLabel b)
    (h1 : zoneLabelLess a b = true) (h2 : zoneLabelLess b c = true) :
    zoneLabelLess a c = true := by
  have hac : ¬ a = c := by
    intro e
    subst e
    have := zoneLabelLess_asymm a b h1
    rw [this] at h2
    cases h2
  rw [zoneLabelLess_eq] at h1 h2 ⊢
  by_cases hab : a = b
  · simp [hab] at h1
  by_cases hbc : b = c
  · simp [hbc] at h2
  simp only [hab, hbc, hac, ↓reduceIte] at h1 h2 ⊢
  by_cases ha : a = "@"
  · simp [ha]
  simp only [ha, ↓reduceIte] at h1 ⊢
  by_cases hb : b = "@"
  · simp [hb] at h1
  simp only [hb, ↓reduceIte] at h1 h2
  by_cases hc : c = "@"
  · simp [hc] at h2
  simp only [hc, ↓reduceIte] at h2 ⊢
  by_cases ha' : a = "*"
  · simp [ha']
  simp only [ha', ↓reduceIte] at h1 ⊢
  by_cases hb' : b = "*"
  · simp [hb'] at h1
  simp only [hb', ↓reduceIte] at h1 h2
  by_cases hc' : c = "*"
  · simp [hc'] at h2
  simp only [hc', ↓reduceIte] at h2 ⊢
  exact revLess_trans _ _ _ (fun x hx => pa x (List.mem_reverse.mp hx))
    (fun y hy => pb y (List.mem_reverse.mp hy)) h1 h2

/-- The part of a strict order `zoneLabelLess` has: it is irreflexive and
antisymmetric over all label strings, and transitive from labels none of whose
components parses as an unsigned integer. -/
theorem zoneLabelLess_strict (a b c : String) :
    zoneLabelLess a a = false ∧
    (zoneLabelLess a b = true → zoneLabelLess b a = false) ∧
    (plainLabel a → plainLabel b →
      zoneLabelLess a b = true → zoneLabelLess b c = true → zoneLabelLess a c = true) :=
  ⟨by simp [zoneLabelLess], zoneLabelLess_asymm a b,
    fun pa pb h1 h2 => zoneLabelLess_trans_plain a b c pa pb h1 h2⟩

/-- The three parts at the labels `mail.example`, `www.example` and
`a.www.example`. -/
theorem zoneLabelLess_strict_witness :
    zoneLabelLess "mail.example" "www.example" = true ∧
    zoneLabelLess "www.example" "mail.example" = false ∧
    zoneLabelLess "mail.example" "a.www.example" = true :=
  ⟨by decide,
   (zoneLabelLess_strict "mail.example" "www.example" "a.www.example").2.1 (by decide),
   (zoneLabelLess_strict "mail.example" "www.example" "a.www.example").2.2
     (by decide) (by decide) (by decide) (by decide)⟩

/-- With numeric and non-numeric components mixed the order is not transitive:
`9 < 10` as numbers and `10 < 1a` as strings, but not `9 < 1a`. -/
theorem zoneLabelLess_not_transitive :
    zoneLabelLess "9" "10" = true ∧ zoneLabelLess "10" "1a" = true ∧
      zoneLabelLess "9" "1a" = false := by
  decide

/-! ## The label order: totality and the two smallest labels -/

theorem joinChars_splitChars (sep : Char) (cs : List Char) :
    joinChars sep (splitChars sep cs) = cs := by
  induction cs with
  | nil => rfl
  | cons c rest ih =>
    simp only [splitChars]
    have hne := splitChars_ne_nil sep rest
    cases h : splitChars sep rest with
    | nil => exact absurd h hne
    | cons w ws =>
      rw [h] at ih
      split_ifs with hc
      · subst hc
        simp only [joinChars, List.nil_append, ih]
      · cases ws with
        | nil =>
          simp only [joinChars] at ih ⊢
          rw [ih]
        | cons w' ws' =>
          simp only [joinChars, List.cons_append] at ih ⊢
          rw [ih]

theorem Split_injective (a b : String) (h : Split a = Split b) : a = b := by
  unfold Split at h
  have h1 : splitChars '.' a.data = splitChars '.' b.data := by
    apply List.map_injective_iff.mpr _ h
    intro x y hxy
    exact congrArg String.data hxy
  have h2 := congrArg (joinChars '.') h1
  rw [joinChars_splitChars, joinChars_splitChars] at h2
  exact String.ext h2

theorem stringLess_total (x y : String) (h : x ≠ y) :
    stringLess x y = true ∨ stringLess y x = true := by
  rw [stringLess_iff, stringLess_iff]
  exact lt_or_gt_of_ne h

theorem componentLess_total (x y : String) (h : x ≠ y) (hnum : ¬ numericTie x y) :
    componentLess x y = true ∨ componentLess y x = true := by
  unfold componentLess
  cases hx : ParseUint x 64 <;> cases hy : ParseUint y 64 <;> simp only
  · exact stringLess_total x y h
  · exact stringLess_total x y h
  · exact stringLess_total x y h
  · rename_i u v
    have : u ≠ v := fun e => hnum ⟨h, by simp [hx], by rw [hx, hy, e]⟩
    simp only [decide_eq_true_eq]
    omega

theorem revLess_total (xs ys : List String) (h : xs ≠ ys)
    (hnum : ∀ x ∈ xs, ∀ y ∈ ys, ¬ numericTie x y) :
    revLess xs ys = true ∨ revLess ys xs = true := by
  induction xs generalizing ys with
  | nil =>
    cases ys with
    | nil => exact absurd rfl h
    | cons y ys => exact Or.inl rfl
  | cons x xs ih =>
    cases ys with
    | nil => exact Or.inr rfl
    | cons y ys =>
      simp only [revLess]
      by_cases hxy : x = y
      · subst hxy
        simp only [ne_eq, not_true_eq_false, ↓reduceIte]
        apply ih ys (fun e => h (by rw [e]))
        intro a ha b hb
        exact hnum a (List.mem_cons_of_mem _ ha) b (List.mem_cons_of_mem _ hb)
      · have hyx : ¬ y = x := fun e => hxy e.symm
        simp only [ne_eq, hxy, hyx, not_false_eq_true, ↓reduceIte]
        by_cases a1 : xs = [] ∧ x = "*"
        · simp [a1]
        · by_cases a2 : ys = [] ∧ y = "*"
          · simp [a2]
          · simp only [a1, a2, ↓reduceIte]
            exact componentLess_total x y hxy (hnum x (by simp) y (by simp))

/-- For two distinct labels never both directions of `zoneLabelLess` hold, and one
of them holds whenever no component of `a` and different component of `b` are
numerals of the same value. -/
theorem zoneLabelLess_total (a b : String) (hab : a ≠ b)
    (hnum : ∀ x ∈ Split a, ∀ y ∈ Split b, ¬ numericTie x y) :
    (zoneLabelLess a b = true ∨ zoneLabelLess b a = true) ∧
      ¬ (zoneLabelLess a b = true ∧ zoneLabelLess b a = true) := by
  refine ⟨?_, fun h => by rw [zoneLabelLess_asymm a b h.1] at h; exact absurd h.2 (by simp)⟩
  have hba : ¬ b = a := fun e => hab e.symm
  rw [zoneLabelLess_eq, zoneLabelLess_eq]
  simp only [hab, hba, ↓reduceIte]
  by_cases ha : a = "@"
  · simp [ha]
  by_cases hb : b = "@"
  · simp [hb, ha]
  by_cases ha' : a = "*"
  · simp [ha', hb]
  by_cases hb' : b = "*"
  · simp [hb', ha, ha', hb]
  simp only [ha, hb, ha', hb', ↓reduceIte]
  apply revLess_total
  · intro e
    exact hab (Split_injective a b (List.reverse_injective e))
  · intro x hx y hy
    exact hnum x (List.mem_reverse.mp hx) y (List.mem_reverse.mp hy)

theorem zoneLabelLess_total_witness :
    (zoneLabelLess "9.example" "10.example" = true ∨
      zoneLabelLess "10.example" "9.example" = true) ∧
      ¬ (zoneLabelLess "9.example" "10.example" = true ∧
        zoneLabelLess "10.example" "9.example" = true) :=
  zoneLabelLess_total "9.example" "10.example" (by decide) (by decide)

/-- The labels `01` and `1` are distinct, both components parse to the number 1, and
neither label is less than the other. -/
theorem zoneLabelLess_tie :
    ("01" : String) ≠ "1" ∧ zoneLabelLess "01" "1" = false ∧ zoneLabelLess "1" "01" = false := by
  decide

/-- C12: the apex label `@` is smaller than every other label and no label is
smaller than it; `*` is smaller than every label other than `@` and itself, and
none of those is smaller than `*`. -/
theorem zoneLabelLess_apex_star (b : String) :
    (b ≠ "@" → zoneLabelLess "@" b = true ∧ zoneLabelLess b "@" = false) ∧
    (b ≠ "@" → b ≠ "*" → zoneLabelLess "*" b = true ∧ zoneLabelLess b "*" = false) := by
  constructor
  · intro hb
    have hb' : ¬ "@" = b := fun e => hb e.symm
    rw [zoneLabelLess_eq, zoneLabelLess_eq]
    simp [hb, hb']
  · intro hb hs
    have hb' : ¬ "@" = b := fun e => hb e.symm
    have hs' : ¬ "*" = b := fun e => hs e.symm
    rw [zoneLabelLess_eq, zoneLabelLess_eq]
    simp [hb, hb', hs, hs']

theorem zoneLabelLess_apex_star_witness :
    (zoneLabelLess "@" "*" = true ∧ zoneLabelLess "*" "@" = false) ∧
    (zoneLabelLess "*" "www" = true ∧ zoneLabelLess "www" "*" = false) :=
  ⟨(zoneLabelLess_apex_star "*").1 (by decide),
   (zoneLabelLess_apex_star "www").2 (by decide) (by decide)⟩

/-! ## The type order of the zone file -/

theorem zoneRrtypeLess_iff (a b : Nat) :
    zoneRrtypeLess a b = true ↔ rrtypeRank a < rrtypeRank b := by
  unfold zoneRrtypeLess rrtypeRank TypeSOA TypeNS
  split_ifs <;> simp only [Bool.false_eq_true, decide_eq_true_eq, false_iff, true_iff] <;> omega

theorem zoneRrtypeLess_false_iff (a b : Nat) :
    zoneRrtypeLess a b = false ↔ rrtypeRank b ≤ rrtypeRank a := by
  rw [← Bool.not_eq_true, zoneRrtypeLess_iff]; omega

theorem rrtypeRank_injective (a b : Nat) (h : rrtypeRank a = rrtypeRank b) : a = b := by
  unfold rrtypeRank TypeSOA TypeNS at h
  split_ifs at h <;> omega

/-- C13: `zoneRrtypeLess` is a strict total order on type codes: irreflexive,
antisymmetric, transitive, and for distinct codes one direction holds; SOA
precedes every other type, NS every type other than SOA, and two types that are
neither are ordered by ascending code. -/
theorem zoneRrtypeLess_order (a b c : Nat) :
    zoneRrtypeLess a a = false ∧
    (zoneRrtypeLess a b = true → zoneRrtypeLess b a = false) ∧
    (zoneRrtypeLess a b = true → zoneRrtypeLess b c = true → zoneRrtypeLess a c = true) ∧
    (a ≠ b → (zoneRrtypeLess a b = true ∨ zoneRrtypeLess b a = true)) ∧
    (a ≠ TypeSOA → zoneRrtypeLess TypeSOA a = true ∧ zoneRrtypeLess a TypeSOA = false) ∧
    (a ≠ TypeSOA → a ≠ TypeNS →
      zoneRrtypeLess TypeNS a = true ∧ zoneRrtypeLess a TypeNS = false) ∧
    (a ≠ TypeSOA → a ≠ TypeNS → b ≠ TypeSOA → b ≠ TypeNS →
      zoneRrtypeLess a b = decide (a < b)) := by
  refine ⟨?_, ?_, ?_, ?_, ?_, ?_, ?_⟩
  · rw [zoneRrtypeLess_false_iff]
  · rw [zoneRrtypeLess_iff, zoneRrtypeLess_false_iff]; omega
  · rw [zoneRrtypeLess_iff, zoneRrtypeLess_iff, zoneRrtypeLess_iff]; omega
  · intro h
    rw [zoneRrtypeLess_iff, zoneRrtypeLess_iff]
    have : rrtypeRank a ≠ rrtypeRank b := fun e => h (rrtypeRank_injective a b e)
    omega
  · intro h
    have h' : a ≠ 6 := h
    rw [zoneRrtypeLess_iff, zoneRrtypeLess_false_iff]
    unfold rrtypeRank TypeSOA TypeNS
    simp only [↓reduceIte]
    split_ifs <;> omega
  · intro h1 h2
    have h1' : a ≠ 6 := h1
    have h2' : a ≠ 2 := h2
    rw [zoneRrtypeLess_iff, zoneRrtypeLess_false_iff]
    unfold rrtypeRank TypeSOA TypeNS
    simp only [↓reduceIte]
    split_ifs <;> omega
  · intro h1 h2 h3 h4
    unfold zoneRrtypeLess
    have : ¬ a = b ∨ a = b := by omega
    rcases this with h | h
    · simp only [h, h1, h2, h3, h4, ↓reduceIte]
    · subst h; simp

/-- C13 at the types A (1), MX (15) and TXT (16), every premise discharged. -/
theorem zoneRrtypeLess_order_witness :
    zoneRrtypeLess 1 1 = false ∧
    zoneRrtypeLess 15 1 = false ∧
    zoneRrtypeLess 1 16 = true ∧
    (zoneRrtypeLess 1 15 = true ∨ zoneRrtypeLess 15 1 = true) ∧
    (zoneRrtypeLess TypeSOA 1 = true ∧ zoneRrtypeLess 1 TypeSOA = false) ∧
    (zoneRrtypeLess TypeNS 1 = true ∧ zoneRrtypeLess 1 TypeNS = false) ∧
    zoneRrtypeLess 1 15 = decide (1 < 15) :=
  ⟨(zoneRrtypeLess_order 1 15 16).1,
    (zoneRrtypeLess_order 1 15 16).2.1 (by decide),
    (zoneRrtypeLess_order 1 15 16).2.2.1 (by decide) (by decide),
    (zoneRrtypeLess_order 1 15 16).2.2.2.1 (by decide),
    (zoneRrtypeLess_order 1 15 16).2.2.2.2.1 (by decide),
    (zoneRrtypeLess_order 1 15 16).2.2.2.2.2.1 (by decide) (by decide),
    (zoneRrtypeLess_order 1 15 16).2.2.2.2.2.2 (by decide) (by decide) (by decide) (by decide)⟩

/-! ## The nameserver layer -/

theorem appendNameservers_eq (n : Int) (hn : n ≠ 0) (nss ns : List Nameserver) :
    appendNameservers n nss ns = ns ++ quotaNameservers n nss := by
  unfold appendNameservers quotaNameservers
  simp only [hn, ↓reduceIte]
  by_cases hpos : n > 0
  · simp only [hpos, true_and, ↓reduceIte]
    by_cases hlt : n < nss.length
    · have : min nss.length n.toNat = n.toNat := by omega
      simp only [hlt, ↓reduceIte, this]
    · have : min nss.length n.toNat = nss.length := by omega
      simp only [hlt, ↓reduceIte, this, Int.toNat_ofNat]
  · simp only [hpos, false_and, ↓reduceIte, Int.toNat_ofNat, List.take_length]

theorem determineLoop_ok (name : String) (ps : List DNSProviderInstance)
    (ns : List Nameserver)
    (hok : ∀ p ∈ ps, p.NumberOfNameservers ≠ 0 → ∃ l, p.GetNameservers name = .ok l) :
    determineLoop name ps ns
      = .ok (ns ++ ps.flatMap (fun p => quotaNameservers p.NumberOfNameservers
          (p.reported name))) := by
  induction ps generalizing ns with
  | nil => simp [determineLoop]
  | cons p rest ih =>
    have hrest := fun ns => ih ns (fun q hq => hok q (List.mem_cons_of_mem _ hq))
    simp only [determineLoop, List.flatMap_cons]
    by_cases h0 : p.NumberOfNameservers = 0
    · simp only [h0, ↓reduceIte, hrest]
      simp [quotaNameservers]
    · obtain ⟨l, hl⟩ := hok p (by simp) h0
      simp only [h0, ↓reduceIte, hl, hrest, appendNameservers_eq _ h0,
        DNSProviderInstance.reported, List.append_assoc]

/-- C18: when every queried driver succeeds, `DetermineNameservers` returns the
explicit nameservers followed, binding by binding, by nothing for quota 0 (that
driver is not queried, so it may fail), the first `min(len(L), n)` entries of the
driver list for `n > 0` and all of it for `n < 0`, each name with its trailing
dots stripped and duplicates kept. -/
theorem DetermineNameservers_quota (dc : DomainConfig)
    (hok : ∀ p ∈ dc.DNSProviderInstances, p.NumberOfNameservers ≠ 0 →
      ∃ l, p.GetNameservers dc.Name = .ok l) :
    DetermineNameservers dc
      = .ok (dc.Nameservers ++ dc.DNSProviderInstances.flatMap
          (fun p => quotaNameservers p.NumberOfNameservers (p.reported dc.Name))) :=
  determineLoop_ok dc.Name dc.DNSProviderInstances dc.Nameservers hok

theorem DetermineNameservers_quota_witness :
    DetermineNameservers
        { Records := [], KeepUnknown := false, Name := "example.com",
          Nameservers := [⟨"ns1.example.net"⟩],
          DNSProviderInstances :=
            [failingProvider 0, sampleProvider 2 ["d1.x.", "d2.x.", "d3.x."]] }
      = .ok [⟨"ns1.example.net"⟩, ⟨"d1.x"⟩, ⟨"d2.x"⟩] :=
  DetermineNameservers_quota
    { Records := [], KeepUnknown := false, Name := "example.com",
      Nameservers := [⟨"ns1.example.net"⟩],
      DNSProviderInstances :=
        [failingProvider 0, sampleProvider 2 ["d1.x.", "d2.x.", "d3.x."]] }
    (by
      intro p hp h0
      simp only [List.mem_cons, List.mem_singleton, List.not_mem_nil, or_false] at hp
      rcases hp with rfl | rfl
      · exact absurd rfl h0
      · exact ⟨_, rfl⟩)

theorem AddNSRecords_records (dc : DomainConfig) :
    (AddNSRecords dc).Records = dc.Records ++ dc.Nameservers.map (nsRecord dc (nsTTL dc)) := by
  have h : ∀ (l : List Nameserver) (recs : List RecordConfig),
      l.foldl (fun records ns => records ++ [nsRecord dc (nsTTL dc) ns]) recs
        = recs ++ l.map (nsRecord dc (nsTTL dc)) := by
    intro l
    induction l with
    | nil => simp
    | cons a rest ih => intro recs; simp [ih]
  simp only [AddNSRecords, h]

theorem HasSuffix_append_dot (s : String) : HasSuffix (s ++ ".") "." = true := by
  simp [HasSuffix, String.data_append, List.isSuffixOf_iff_suffix]

theorem nsRecord_fields (dc : DomainConfig) (ttl : Nat) (ns : Nameserver) :
    (nsRecord dc ttl ns).Type_ = "NS" ∧ (nsRecord dc ttl ns).GetLabel = "@" ∧
    (nsRecord dc ttl ns).TTL = ttl ∧
    (nsRecord dc ttl ns).GetTargetField
      = (if HasSuffix ns.Name "." then ns.Name else ns.Name ++ ".") ∧
    HasSuffix (nsRecord dc ttl ns).GetTargetField "." = true := by
  unfold nsRecord
  by_cases h : HasSuffix ns.Name "." = true
  · simp [h, RecordConfig.SetTarget, RecordConfig.SetLabel, RecordConfig.GetLabel,
      RecordConfig.GetTargetField]
  · simp [h, HasSuffix_append_dot, RecordConfig.SetTarget, RecordConfig.SetLabel,
      RecordConfig.GetLabel, RecordConfig.GetTargetField]

/-- C19: `AddNSRecords` keeps the desired records as a prefix and appends one
record per nameserver, in order; the record for the `i`-th nameserver has type
NS, label `@` and as target the nameserver name, with a `.` appended unless it
ends in one, so that every injected target ends in `.`. -/
theorem AddNSRecords_appends (dc : DomainConfig) :
    (AddNSRecords dc).Records.take dc.Records.length = dc.Records ∧
    (AddNSRecords dc).Records.length = dc.Records.length + dc.Nameservers.length ∧
    ∀ i ns, dc.Nameservers[i]? = some ns →
      ∃ rc, (AddNSRecords dc).Records[dc.Records.length + i]? = some rc ∧
        rc.Type_ = "NS" ∧ rc.GetLabel = "@" ∧
        rc.GetTargetField = (if HasSuffix ns.Name "." then ns.Name else ns.Name ++ ".") ∧
        HasSuffix rc.GetTargetField "." = true := by
  rw [AddNSRecords_records]
  refine ⟨by simp, by simp, ?_⟩
  intro i ns hi
  refine ⟨nsRecord dc (nsTTL dc) ns, ?_, ?_⟩
  · rw [List.getElem?_append_right (by omega)]
    simp [hi]
  · have := nsRecord_fields dc (nsTTL dc) ns
    exact ⟨this.1, this.2.1, this.2.2.2.1, this.2.2.2.2⟩

theorem AddNSRecords_appends_witness :
    ∃ rc, (AddNSRecords (sampleDomain [("ns_ttl", "86400")])).Records[
        (sampleDomain [("ns_ttl", "86400")]).Records.length + 1]? = some rc ∧
      rc.Type_ = "NS" ∧ rc.GetLabel = "@" ∧
      rc.GetTargetField
        = (if HasSuffix (Nameserver.mk "d1.x").Name "." then (Nameserver.mk "d1.x").Name
            else (Nameserver.mk "d1.x").Name ++ ".") ∧
      HasSuffix rc.GetTargetField "." = true :=
  (AddNSRecords_appends (sampleDomain [("ns_ttl", "86400")])).2.2 1 ⟨"d1.x"⟩ (by decide)

/-- C20: every record `AddNSRecords` appends carries one TTL: 300 when the
domain has no `ns_ttl` metadata entry, the value of the entry when it is a
non-empty string of decimal digits below `2^32`, and 300 when the entry is empty,
has a character that is not a digit (a sign, a letter) or is out of 32-bit
range; the records are appended in every case. -/
theorem AddNSRecords_ttl (dc : DomainConfig) :
    (∀ rc ∈ (AddNSRecords dc).Records.drop dc.Records.length, rc.TTL = nsTTL dc) ∧
    ((AddNSRecords dc).Records.drop dc.Records.length).length = dc.Nameservers.length ∧
    (dc.Metadata.lookup "ns_ttl" = none → nsTTL dc = 300) ∧
    (∀ ttls, dc.Metadata.lookup "ns_ttl" = some ttls →
      (ttls.data ≠ [] → ttls.data.all Char.isDigit = true → digitsValue ttls.data < 2 ^ 32 →
        nsTTL dc = digitsValue ttls.data) ∧
      (ttls.data = [] ∨ ttls.data.all Char.isDigit = false ∨ 2 ^ 32 ≤ digitsValue ttls.data →
        nsTTL dc = 300)) := by
  refine ⟨?_, ?_, ?_, ?_⟩
  · rw [AddNSRecords_records, List.drop_left]
    intro rc hrc
    obtain ⟨ns, _, rfl⟩ := List.mem_map.mp hrc
    exact (nsRecord_fields dc (nsTTL dc) ns).2.2.1
  · rw [AddNSRecords_records, List.drop_left, List.length_map]
  · intro h
    simp [nsTTL, h]
  · intro ttls h
    constructor
    · intro h1 h2 h3
      have : digitsValue ttls.data % u32 = digitsValue ttls.data :=
        Nat.mod_eq_of_lt (by unfold u32; exact h3)
      have hp : ParseUint ttls 32 = some (digitsValue ttls.data) := by
        unfold ParseUint
        rw [if_neg h1, if_pos h2, if_pos h3]
      simp only [nsTTL, h, hp, this]
    · intro hbad
      simp only [nsTTL, h, ParseUint]
      rcases hbad with h1 | h1 | h1
      · simp [h1]
      · by_cases h0 : ttls.data = []
        · simp [h0]
        · simp only [h0, ↓reduceIte, h1, Bool.false_eq_true]
      · by_cases h0 : ttls.data = []
        · simp [h0]
        · have h3 : ¬ digitsValue ttls.data < 2 ^ 32 := by omega
          simp only [h0, ↓reduceIte, h3]
          split_ifs <;> rfl

theorem AddNSRecords_ttl_witness :
    nsTTL (sampleDomain [("ns_ttl", "86400")]) = digitsValue "86400".data ∧
    nsTTL (sampleDomain [("ns_ttl", "-5")]) = 300 ∧
    nsTTL (sampleDomain [("ns_ttl", "4294967296")]) = 300 ∧
    nsTTL (sampleDomain []) = 300 :=
  ⟨((AddNSRecords_ttl (sampleDomain [("ns_ttl", "86400")])).2.2.2 "86400" (by decide)).1
      (by decide) (by decide) (by decide),
   ((AddNSRecords_ttl (sampleDomain [("ns_ttl", "-5")])).2.2.2 "-5" (by decide)).2
      (Or.inr (Or.inl (by decide))),
   ((AddNSRecords_ttl (sampleDomain [("ns_ttl", "4294967296")])).2.2.2 "4294967296"
      (by decide)).2 (Or.inr (Or.inr (by decide))),
   (AddNSRecords_ttl (sampleDomain [])).2.2.1 (by decide)⟩

/-! ## The record order within one owner name and type -/

theorem lessRR_same (lib : DnsLib) (origin : String) (a b : RR)
    (hname : a.Hdr.Name = b.Hdr.Name) (htype : a.Hdr.Rrtype = b.Hdr.Rrtype) :
    lessRR lib origin a b =
      if a.Hdr.Rrtype = TypeA then
        match a.Data, b.Data with
        | .A ta, .A tb =>
          match To4 ta, To4 tb with
          | some ipa, some ipb => some (bytesLess ipa ipb)
          | _, _ => none
        | _, _ => none
      else if a.Hdr.Rrtype = TypeAAAA then
        match a.Data, b.Data with
        | .AAAA ta, .AAAA tb => some (bytesLess (To16 ta) (To16 tb))
        | _, _ => none
      else if a.Hdr.Rrtype = TypeMX then
        match a.Data, b.Data with
        | .MX pa mxa, .MX pb mxb =>
          if pa ≠ pb then some (decide (pa < pb)) else some (stringLess mxa mxb)
        | _, _ => none
      else if a.Hdr.Rrtype = TypeSRV then
        match a.Data, b.Data with
        | .SRV prioA weightA portA _, .SRV prioB weightB portB _ =>
          if portA ≠ portB then some (decide (portA < portB))
          else if prioA ≠ prioB then some (decide (prioA < prioB))
          else if weightA ≠ weightB then some (decide (weightA < weightB))
          else some (stringLess (lib.rrString a) (lib.rrString b))
        | _, _ => none
      else if a.Hdr.Rrtype = TypePTR then
        match a.Data, b.Data with
        | .PTR pa, .PTR pb =>
          if pa ≠ pb then some (stringLess pa pb)
          else some (stringLess (lib.rrString a) (lib.rrString b))
        | _, _ => none
      else if a.Hdr.Rrtype = TypeCAA then
        match a.Data, b.Data with
        | .CAA fa ta _, .CAA fb tb _ =>
          if ta ≠ tb then some (stringLess ta tb)
          else if fa ≠ fb then some (decide (fa > fb))
          else some (stringLess (lib.rrString a) (lib.rrString b))
        | _, _ => none
      else some (stringLess (lib.rrString a) (lib.rrString b)) := by
  unfold lessRR
  simp only [hname, htype, ne_eq, not_true_eq_false, ↓reduceIte]

/-- C14: for two records with the same owner name and the same type,
`zoneGenData.Less` orders two MX records by preference and, at equal
preference, by exchange name; two SRV records by port, then priority, then
weight; two CAA records by tag and, at equal tag, the larger flag first. -/
theorem Less_same_name_type (lib : DnsLib) (z : zoneGenData) (i j : Nat) (a b : RR)
    (hi : z.Records[i]? = some a) (hj : z.Records[j]? = some b)
    (hname : a.Hdr.Name = b.Hdr.Name) (htype : a.Hdr.Rrtype = b.Hdr.Rrtype) :
    (∀ pa mxa pb mxb, a.Hdr.Rrtype = TypeMX → a.Data = .MX pa mxa → b.Data = .MX pb mxb →
      z.Less lib i j = some (if pa = pb then stringLess mxa mxb else decide (pa < pb))) ∧
    (∀ prioA weightA portA tA prioB weightB portB tB, a.Hdr.Rrtype = TypeSRV →
      a.Data = .SRV prioA weightA portA tA → b.Data = .SRV prioB weightB portB tB →
      (portA ≠ portB → z.Less lib i j = some (decide (portA < portB))) ∧
      (portA = portB → prioA ≠ prioB → z.Less lib i j = some (decide (prioA < prioB))) ∧
      (portA = portB → prioA = prioB → weightA ≠ weightB →
        z.Less lib i j = some (decide (weightA < weightB)))) ∧
    (∀ fa ta va fb tb vb, a.Hdr.Rrtype = TypeCAA →
      a.Data = .CAA fa ta va → b.Data = .CAA fb tb vb →
      (ta ≠ tb → z.Less lib i j = some (stringLess ta tb)) ∧
      (ta = tb → fa ≠ fb → z.Less lib i j = some (decide (fb < fa)))) := by
  have hless : z.Less lib i j = lessRR lib z.Origin a b := by
    simp only [zoneGenData.Less, hi, hj]
  rw [hless, lessRR_same lib z.Origin a b hname htype]
  refine ⟨?_, ?_, ?_⟩
  · intro pa mxa pb mxb ht ha hb
    rw [ht, ha, hb]
    by_cases h : pa = pb <;> simp [TypeMX, TypeA, TypeAAAA, h]
  · intro prioA weightA portA tA prioB weightB portB tB ht ha hb
    rw [ht, ha, hb]
    refine ⟨?_, ?_, ?_⟩
    · intro h1; simp [TypeSRV, TypeMX, TypeA, TypeAAAA, h1]
    · intro h1 h2; simp [TypeSRV, TypeMX, TypeA, TypeAAAA, h1, h2]
    · intro h1 h2 h3; simp [TypeSRV, TypeMX, TypeA, TypeAAAA, h1, h2, h3]
  · intro fa ta va fb tb vb ht ha hb
    rw [ht, ha, hb]
    refine ⟨?_, ?_⟩
    · intro h1; simp [TypeCAA, TypePTR, TypeSRV, TypeMX, TypeA, TypeAAAA, h1]
    · intro h1 h2; simp [TypeCAA, TypePTR, TypeSRV, TypeMX, TypeA, TypeAAAA, h1, h2]

/-- C14 at two MX records of equal preference, two SRV records and two CAA records
with the same tag. -/
theorem Less_same_name_type_witness :
    zoneGenData.Less sampleLib
        (sampleZone (sampleRR "example.com." 15 300 (.MX 10 "b."))
          (sampleRR "example.com." 15 300 (.MX 10 "a."))) 1 0
      = some (if 10 = 10 then stringLess "a." "b." else decide (10 < 10)) ∧
    zoneGenData.Less sampleLib
        (sampleZone (sampleRR "s.example.com." 33 300 (.SRV 1 5 443 "t."))
          (sampleRR "s.example.com." 33 300 (.SRV 0 0 80 "t."))) 1 0
      = some (decide (80 < 443)) ∧
    zoneGenData.Less sampleLib
        (sampleZone (sampleRR "example.com." 257 300 (.CAA 0 "issue" "x"))
          (sampleRR "example.com." 257 300 (.CAA 128 "issue" "y"))) 1 0
      = some (decide (0 < 128)) :=
  ⟨(Less_same_name_type sampleLib
      (sampleZone (sampleRR "example.com." 15 300 (.MX 10 "b."))
        (sampleRR "example.com." 15 300 (.MX 10 "a."))) 1 0
      (sampleRR "example.com." 15 300 (.MX 10 "a."))
      (sampleRR "example.com." 15 300 (.MX 10 "b.")) rfl rfl rfl rfl).1
      10 "a." 10 "b." rfl rfl rfl,
   ((Less_same_name_type sampleLib
      (sampleZone (sampleRR "s.example.com." 33 300 (.SRV 1 5 443 "t."))
        (sampleRR "s.example.com." 33 300 (.SRV 0 0 80 "t."))) 1 0
      (sampleRR "s.example.com." 33 300 (.SRV 0 0 80 "t."))
      (sampleRR "s.example.com." 33 300 (.SRV 1 5 443 "t.")) rfl rfl rfl rfl).2.1
      0 0 80 "t." 1 5 443 "t." rfl rfl rfl).1 (by decide),
   ((Less_same_name_type sampleLib
      (sampleZone (sampleRR "example.com." 257 300 (.CAA 0 "issue" "x"))
        (sampleRR "example.com." 257 300 (.CAA 128 "issue" "y"))) 1 0
      (sampleRR "example.com." 257 300 (.CAA 128 "issue" "y"))
      (sampleRR "example.com." 257 300 (.CAA 0 "issue" "x")) rfl rfl rfl rfl).2.2
      128 "issue" "y" 0 "issue" "x" rfl rfl rfl).2 rfl (by decide)⟩

/-! ## The default TTL of the zone file -/

theorem countTTLs_eq (records : List RR) :
    countTTLs records = (nonNSTTLs records).foldl TTLCounts.incr [] := by
  have h : ∀ (rs : List RR) (d : TTLCounts),
      rs.foldl (fun d r => if r.Hdr.Rrtype ≠ TypeNS then d.incr r.Hdr.Ttl else d) d
        = (nonNSTTLs rs).foldl TTLCounts.incr d := by
    intro rs
    induction rs with
    | nil => intro d; rfl
    | cons r rest ih =>
      intro d
      by_cases hr : r.Hdr.Rrtype = TypeNS
      · simp [nonNSTTLs, hr, List.filter_cons] at ih ⊢
        exact ih d
      · simp [nonNSTTLs, hr, List.filter_cons] at ih ⊢
        exact ih _
  exact h records []

theorem TTLCounts.keys_incr (d : TTLCounts) (x : Nat) :
    (d.incr x).keys = if x ∈ d.keys then d.keys else d.keys ++ [x] := by
  induction d with
  | nil => simp [TTLCounts.incr, TTLCounts.keys]
  | cons a rest ih =>
    obtain ⟨k, v⟩ := a
    simp only [TTLCounts.incr]
    by_cases hk : k = x
    · subst hk; simp [TTLCounts.keys]
    · have hk' : ¬ x = k := fun e => hk e.symm
      simp only [hk, ↓reduceIte, TTLCounts.keys, List.map_cons, List.mem_cons, hk', false_or,
        List.cons_append] at ih ⊢
      rw [ih]
      split_ifs <;> rfl

/-- Membership in the tally after one more TTL has been counted. -/
theorem TTLCounts.mem_incr (d : TTLCounts) (x : Nat) (hn : d.keys.Nodup) (k v : Nat) :
    (k, v) ∈ d.incr x ↔
      (k ≠ x ∧ (k, v) ∈ d) ∨
        (k = x ∧ ((∃ v0, (x, v0) ∈ d ∧ v = v0 + 1) ∨ (x ∉ d.keys ∧ v = 1))) := by
  induction d with
  | nil =>
    simp only [TTLCounts.incr, List.mem_singleton, Prod.mk.injEq, List.not_mem_nil, and_false,
      false_and, exists_false, TTLCounts.keys, List.map_nil, not_false_eq_true, true_and,
      false_or]
  | cons a rest ih =>
    obtain ⟨k0, v0⟩ := a
    simp only [TTLCounts.keys, List.map_cons, List.nodup_cons] at hn
    have ih' := ih hn.2
    by_cases hk : k0 = x
    · subst hk
      have hnot : ∀ w, (k0, w) ∉ rest := fun w hw => hn.1 (List.mem_map.mpr ⟨(k0, w), hw, rfl⟩)
      have e1 : TTLCounts.incr ((k0, v0) :: rest) k0 = (k0, v0 + 1) :: rest := by
        simp [TTLCounts.incr]
      rw [e1]
      constructor
      · intro h
        rcases List.mem_cons.mp h with h1 | h1
        · simp only [Prod.mk.injEq] at h1
          obtain ⟨rfl, rfl⟩ := h1
          exact Or.inr ⟨rfl, Or.inl ⟨v0, List.mem_cons_self _ _, rfl⟩⟩
        · by_cases hkk : k = k0
          · rw [hkk] at h1; exact absurd h1 (hnot v)
          · exact Or.inl ⟨hkk, List.mem_cons_of_mem _ h1⟩
      · rintro (⟨hne, h⟩ | ⟨rfl, ⟨w, h, rfl⟩ | ⟨h, _⟩⟩)
        · rcases List.mem_cons.mp h with h | h
          · simp only [Prod.mk.injEq] at h
            exact absurd h.1 hne
          · exact List.mem_cons_of_mem _ h
        · rcases List.mem_cons.mp h with h | h
          · simp only [Prod.mk.injEq] at h
            rw [h.2]; exact List.mem_cons_self _ _
          · exact absurd h (hnot w)
        · exact absurd (by simp [TTLCounts.keys]) h
    · have e1 : TTLCounts.incr ((k0, v0) :: rest) x = (k0, v0) :: TTLCounts.incr rest x := by
        simp [TTLCounts.incr, hk]
      have hk' : ¬ x = k0 := fun e => hk e.symm
      have hkeys : x ∉ TTLCounts.keys ((k0, v0) :: rest) ↔ x ∉ TTLCounts.keys rest := by
        simp [TTLCounts.keys, hk']
      rw [e1, List.mem_cons, ih', hkeys]
      constructor
      · rintro (h | ⟨hne, h⟩ | ⟨rfl, h⟩)
        · simp only [Prod.mk.injEq] at h
          obtain ⟨rfl, rfl⟩ := h
          exact Or.inl ⟨hk, List.mem_cons_self _ _⟩
        · exact Or.inl ⟨hne, List.mem_cons_of_mem _ h⟩
        · refine Or.inr ⟨rfl, ?_⟩
          rcases h with ⟨w, hw, rfl⟩ | h
          · exact Or.inl ⟨w, List.mem_cons_of_mem _ hw, rfl⟩
          · exact Or.inr h
      · rintro (⟨hne, h⟩ | ⟨rfl, h⟩)
        · rcases List.mem_cons.mp h with h | h
          · exact Or.inl h
          · exact Or.inr (Or.inl ⟨hne, h⟩)
        · refine Or.inr (Or.inr ⟨rfl, ?_⟩)
          rcases h with ⟨w, hw, rfl⟩ | h
          · rcases List.mem_cons.mp hw with hw | hw
            · simp only [Prod.mk.injEq] at hw
              exact absurd hw.1.symm hk
            · exact Or.inl ⟨w, hw, rfl⟩
          · exact Or.inr h

/-- Counting one more TTL keeps the tally exact. -/
theorem TTLCounts.counts_incr (d : TTLCounts) (ttls : List Nat) (x : Nat)
    (h : d.counts ttls) : (d.incr x).counts (ttls ++ [x]) := by
  obtain ⟨hn, hm⟩ := h
  constructor
  · rw [TTLCounts.keys_incr]
    split_ifs with hx
    · exact hn
    · rw [List.nodup_append]
      refine ⟨hn, by simp, ?_⟩
      intro a ha hb
      simp only [List.mem_singleton] at hb
      exact hx (hb ▸ ha)
  · intro k v
    rw [TTLCounts.mem_incr d x hn, List.count_append]
    have hkey : x ∈ d.keys ↔ 0 < ttls.count x := by
      constructor
      · intro hx
        obtain ⟨e, he, hek⟩ := List.mem_map.mp hx
        have := (hm e.1 e.2).mp he
        rw [hek] at this
        exact this.1 ▸ this.2
      · intro hx
        exact List.mem_map.mpr ⟨(x, ttls.count x), (hm _ _).mpr ⟨rfl, hx⟩, rfl⟩
    constructor
    · rintro (⟨hne, h⟩ | ⟨rfl, ⟨w, h, rfl⟩ | ⟨h, rfl⟩⟩)
      · have := (hm k v).mp h
        have h0 : List.count k [x] = 0 := by
          rw [List.count_eq_zero]; simpa using hne
        omega
      · have := (hm k w).mp h
        simp only [List.count_singleton_self]
        omega
      · have : ttls.count k = 0 := by
          by_contra hc
          exact h (hkey.mpr (by omega))
        simp only [List.count_singleton_self]
        omega
    · rintro ⟨hv, hpos⟩
      by_cases hkx : k = x
      · subst hkx
        refine Or.inr ⟨rfl, ?_⟩
        simp only [List.count_singleton_self] at hv
        by_cases hc : 0 < ttls.count k
        · exact Or.inl ⟨ttls.count k, (hm _ _).mpr ⟨rfl, hc⟩, hv⟩
        · exact Or.inr ⟨fun hx => hc (hkey.mp hx), by omega⟩
      · have h0 : List.count k [x] = 0 := by
          rw [List.count_eq_zero]; simpa using hkx
        exact Or.inl ⟨hkx, (hm k v).mpr ⟨by omega, hpos⟩⟩

theorem TTLCounts.counts_foldl (ttls : List Nat) (d : TTLCounts) (seen : List Nat)
    (h : d.counts seen) : (ttls.foldl TTLCounts.incr d).counts (seen ++ ttls) := by
  induction ttls generalizing d seen with
  | nil => simpa using h
  | cons x rest ih =>
    have := ih (d.incr x) (seen ++ [x]) (TTLCounts.counts_incr d seen x h)
    simpa using this

theorem TTLCounts.counts_nil : TTLCounts.counts [] [] := by
  constructor
  · simp [TTLCounts.keys]
  · intro k v; simp

/-- The loop for `mc` ends with the largest count, or with its start value. -/
theorem maxCount_foldl (d : TTLCounts) (init : Nat) :
    init ≤ d.foldl (fun (mc : Nat) e => if e.2 > mc then e.2 else mc) init ∧
    (∀ e ∈ d, e.2 ≤ d.foldl (fun (mc : Nat) e => if e.2 > mc then e.2 else mc) init) ∧
    (d.foldl (fun (mc : Nat) e => if e.2 > mc then e.2 else mc) init = init ∨
      ∃ e ∈ d, e.2 = d.foldl (fun (mc : Nat) e => if e.2 > mc then e.2 else mc) init) := by
  induction d generalizing init with
  | nil => simp
  | cons a rest ih =>
    simp only [List.foldl_cons, List.mem_cons, forall_eq_or_imp, exists_eq_or_imp]
    obtain ⟨h1, h2, h3⟩ := ih (if a.2 > init then a.2 else init)
    by_cases hc : a.2 > init
    · simp only [hc, ↓reduceIte] at h1 h2 h3 ⊢
      refine ⟨by omega, ⟨h1, h2⟩, ?_⟩
      rcases h3 with h3 | h3
      · exact Or.inr (Or.inl h3.symm)
      · exact Or.inr (Or.inr h3)
    · simp only [hc, ↓reduceIte] at h1 h2 h3 ⊢
      refine ⟨h1, ⟨by omega, h2⟩, ?_⟩
      rcases h3 with h3 | h3
      · exact Or.inl h3
      · exact Or.inr (Or.inr h3)

/-- The loop for `mk` ends with the largest key among those counted `mc` times,
or with its start value. -/
theorem maxKey_foldl (d : TTLCounts) (mc init : Nat) :
    init ≤ d.foldl (fun (mk : Nat) e =>
      if e.2 = mc then (if e.1 > mk then e.1 else mk) else mk) init ∧
    (∀ e ∈ d, e.2 = mc → e.1 ≤ d.foldl (fun (mk : Nat) e =>
      if e.2 = mc then (if e.1 > mk then e.1 else mk) else mk) init) ∧
    (d.foldl (fun (mk : Nat) e =>
        if e.2 = mc then (if e.1 > mk then e.1 else mk) else mk) init = init ∨
      ∃ e ∈ d, e.2 = mc ∧ e.1 = d.foldl (fun (mk : Nat) e =>
        if e.2 = mc then (if e.1 > mk then e.1 else mk) else mk) init) := by
  induction d generalizing init with
  | nil => simp
  | cons a rest ih =>
    simp only [List.foldl_cons, List.mem_cons, forall_eq_or_imp, exists_eq_or_imp]
    obtain ⟨h1, h2, h3⟩ := ih (if a.2 = mc then (if a.1 > init then a.1 else init) else init)
    by_cases hc : a.2 = mc
    · by_cases hd : a.1 > init
      · simp only [hc, hd, ↓reduceIte] at h1 h2 h3 ⊢
        refine ⟨by omega, ⟨fun _ => h1, h2⟩, ?_⟩
        rcases h3 with h3 | h3
        · exact Or.inr (Or.inl ⟨trivial, h3.symm⟩)
        · exact Or.inr (Or.inr h3)
      · simp only [hc, hd, ↓reduceIte] at h1 h2 h3 ⊢
        refine ⟨h1, ⟨fun _ => by omega, h2⟩, ?_⟩
        rcases h3 with h3 | h3
        · exact Or.inl h3
        · exact Or.inr (Or.inr h3)
    · simp only [hc, ↓reduceIte] at h1 h2 h3 ⊢
      refine ⟨h1, ⟨fun hf => absurd hf (by simp), h2⟩, ?_⟩
      rcases h3 with h3 | h3
      · exact Or.inl h3
      · exact Or.inr (Or.inr h3)



/-- The tally built by the first loop of `mostCommonTTL` is exact. -/
theorem countTTLs_counts (records : List RR) :
    (countTTLs records).counts (nonNSTTLs records) := by
  rw [countTTLs_eq]
  simpa using TTLCounts.counts_foldl (nonNSTTLs records) [] [] TTLCounts.counts_nil

/-- Dropping the NS records leaves the counted TTLs unchanged. -/
theorem nonNSTTLs_filter (records : List RR) :
    nonNSTTLs (records.filter (fun r => decide (r.Hdr.Rrtype ≠ TypeNS))) = nonNSTTLs records := by
  simp [nonNSTTLs, List.filter_filter]

/-- The winner of the two loops is an entry of the tally, with the largest count and
the largest key among the entries of that count. -/
theorem mostCommonTTL_entry (records : List RR) (h : nonNSTTLs records ≠ []) :
    ∃ mc : Nat, (mostCommonTTL records, mc) ∈ countTTLs records ∧
      (∀ e ∈ countTTLs records, e.2 ≤ mc) ∧
      (∀ e ∈ countTTLs records, e.2 = mc → e.1 ≤ mostCommonTTL records) := by
  obtain ⟨-, hm⟩ := countTTLs_counts records
  obtain ⟨x, hx⟩ := List.exists_mem_of_ne_nil _ h
  have hxpos : 0 < (nonNSTTLs records).count x := List.count_pos_iff.mpr hx
  have hxd : (x, (nonNSTTLs records).count x) ∈ countTTLs records := (hm _ _).mpr ⟨rfl, hxpos⟩
  obtain ⟨-, c2, c3⟩ := maxCount_foldl (countTTLs records) 0
  obtain ⟨-, k2, k3⟩ := maxKey_foldl (countTTLs records)
    ((countTTLs records).foldl (fun (mc : Nat) e => if e.2 > mc then e.2 else mc) 0) 0
  refine ⟨(countTTLs records).foldl (fun (mc : Nat) e => if e.2 > mc then e.2 else mc) 0,
    ?_, c2, k2⟩
  have hpos := c2 _ hxd
  simp only at hpos
  obtain ⟨e, he, hec⟩ : ∃ e ∈ countTTLs records,
      e.2 = (countTTLs records).foldl (fun (mc : Nat) e => if e.2 > mc then e.2 else mc) 0 := by
    rcases c3 with c3 | c3
    · omega
    · exact c3
  show ((countTTLs records).foldl (fun (mk : Nat) e =>
      if e.2 = (countTTLs records).foldl (fun (mc : Nat) e => if e.2 > mc then e.2 else mc) 0
      then (if e.1 > mk then e.1 else mk) else mk) 0, _) ∈ countTTLs records
  rcases k3 with k3 | ⟨e2, he2, hc2, hk2⟩
  · have hle := k2 e he hec
    rw [k3] at hle ⊢
    have h0 : e.1 = 0 := by omega
    have he0 : e = (0, (countTTLs records).foldl
        (fun (mc : Nat) e => if e.2 > mc then e.2 else mc) 0) := Prod.ext h0 hec
    rw [← he0]
    exact he
  · have he0 : e2 = (_, (countTTLs records).foldl
        (fun (mc : Nat) e => if e.2 > mc then e.2 else mc) 0) := Prod.ext hk2 hc2
    rw [← he0]
    exact he2

/-- C15: for a record list with at least one non-NS record, `mostCommonTTL` returns a
TTL carried by a non-NS record, no TTL occurs more often among the non-NS records,
and every other TTL occurring equally often is smaller; the result is the one for
the list without its NS records; with no non-NS record the result is 0. -/
theorem mostCommonTTL_spec (records : List RR) :
    (nonNSTTLs records ≠ [] →
      mostCommonTTL records ∈ nonNSTTLs records ∧
      (∀ k, (nonNSTTLs records).count k ≤ (nonNSTTLs records).count (mostCommonTTL records)) ∧
      (∀ k, k ≠ mostCommonTTL records →
        (nonNSTTLs records).count k = (nonNSTTLs records).count (mostCommonTTL records) →
        k < mostCommonTTL records)) ∧
    mostCommonTTL records
      = mostCommonTTL (records.filter (fun r => decide (r.Hdr.Rrtype ≠ TypeNS))) ∧
    (nonNSTTLs records = [] → mostCommonTTL records = 0) := by
  refine ⟨?_, ?_, ?_⟩
  · intro h
    obtain ⟨mc, hmem, hmax, hkey⟩ := mostCommonTTL_entry records h
    obtain ⟨-, hm⟩ := countTTLs_counts records
    obtain ⟨hmc, hpos⟩ := (hm _ _).mp hmem
    refine ⟨List.count_pos_iff.mp (hmc ▸ hpos), ?_, ?_⟩
    · intro k
      by_cases hk : 0 < (nonNSTTLs records).count k
      · have := hmax _ ((hm _ _).mpr ⟨rfl, hk⟩)
        simp only at this
        omega
      · omega
    · intro k hne heq
      have hk : (k, mc) ∈ countTTLs records := (hm _ _).mpr ⟨by omega, hpos⟩
      have := hkey _ hk rfl
      simp only at this
      omega
  · unfold mostCommonTTL
    rw [countTTLs_eq records, countTTLs_eq (records.filter _), nonNSTTLs_filter]
  · intro h
    unfold mostCommonTTL
    rw [countTTLs_eq, h]
    rfl

/-- C15 at a list with an NS record and a tie between the TTLs 300 and 600. -/
theorem mostCommonTTL_spec_witness :
    nonNSTTLs [sampleRR "a." 1 300 (.A [1, 2, 3, 4]), sampleRR "a." 2 7 (.other ""),
        sampleRR "b." 1 600 (.A [1, 2, 3, 4]), sampleRR "c." 2 7 (.other "")] ≠ [] ∧
      mostCommonTTL [sampleRR "a." 1 300 (.A [1, 2, 3, 4]), sampleRR "a." 2 7 (.other ""),
        sampleRR "b." 1 600 (.A [1, 2, 3, 4]), sampleRR "c." 2 7 (.other "")] = 600 ∧
      300 < mostCommonTTL [sampleRR "a." 1 300 (.A [1, 2, 3, 4]), sampleRR "a." 2 7 (.other ""),
        sampleRR "b." 1 600 (.A [1, 2, 3, 4]), sampleRR "c." 2 7 (.other "")] ∧
      nonNSTTLs [sampleRR "a." 2 7 (.other "")] = [] ∧
      mostCommonTTL [sampleRR "a." 2 7 (.other "")] = 0 :=
  ⟨by decide, by decide,
    ((mostCommonTTL_spec [sampleRR "a." 1 300 (.A [1, 2, 3, 4]), sampleRR "a." 2 7 (.other ""),
        sampleRR "b." 1 600 (.A [1, 2, 3, 4]), sampleRR "c." 2 7 (.other "")]).1 (by decide)).2.2
      300 (by decide) (by decide),
    by decide,
    (mostCommonTTL_spec [sampleRR "a." 2 7 (.other "")]).2.2 (by decide)⟩


/-! ## The columns of a zone file line -/

/-- The byte length of a concatenation. -/
theorem utf8ByteSize_append (a b : String) :
    (a ++ b).utf8ByteSize = a.utf8ByteSize + b.utf8ByteSize := by
  show String.utf8Len (a ++ b).data = String.utf8Len a.data + String.utf8Len b.data
  rw [String.data_append, String.utf8Len_append]

/-- The byte length of a run of spaces. -/
theorem utf8ByteSize_spaces (n : Nat) : (spaces n).utf8ByteSize = n := by
  simp only [spaces, String.utf8ByteSize_mk]
  induction n with
  | zero => rfl
  | succ n ih =>
    rw [List.replicate_succ, String.utf8Len_cons, ih]
    have : Char.utf8Size ' ' = 1 := by decide
    omega

/-- Padding a shorter buffer brings it to the column start. -/
theorem utf8ByteSize_padTo (result : String) (c : Int) (h : (result.utf8ByteSize : Int) ≤ c) :
    ((padTo result c).utf8ByteSize : Int) = c := by
  simp only [padTo, utf8ByteSize_append, utf8ByteSize_spaces]
  omega

/-- A sum within the range of `int` is not wrapped. -/
theorem wrapInt64_eq (x : Int) (h0 : 0 ≤ x) (h1 : x < 2 ^ 63) : wrapInt64 x = x := by
  unfold wrapInt64
  omega

/-- The buffer after the loop is the buffer before it followed by the columns. -/
theorem formatLineLoop_cells (lengths : List Int) :
    ∀ (fields : List String) (c : Int) (result : String), lengths.length ≤ fields.length →
      ∃ pads : List Nat, pads.length = lengths.length ∧
        formatLineLoop lengths fields c result = some (result ++ cells pads fields) := by
  induction lengths with
  | nil =>
    intro fields c result _
    exact ⟨[], rfl, by simp [formatLineLoop, cells]⟩
  | cons w ls ih =>
    intro fields c result hlen
    cases fields with
    | nil => simp at hlen
    | cons item rest =>
      simp only [List.length_cons, Nat.add_le_add_iff_right] at hlen
      simp only [formatLineLoop]
      obtain ⟨pads, hp, hloop⟩ := ih rest (wrapInt64 (c + (w + 1)))
        (if item ≠ "" then padTo result c ++ item ++ " " else padTo result c) hlen
      refine ⟨(c - result.utf8ByteSize).toNat :: pads, by simp [hp], ?_⟩
      rw [hloop]
      by_cases hi : item = ""
      · simp [hi, cells, cell, padTo, String.append_assoc]
      · simp [hi, cells, cell, padTo, String.append_assoc]

/-- The column starts do not decrease when no width is negative. -/
theorem sum_widths_nonneg (ls : List Int) (h : ∀ w ∈ ls, 0 ≤ w) :
    0 ≤ (ls.map (fun w => w + 1)).sum := by
  induction ls with
  | nil => simp
  | cons w ls ih =>
    simp only [List.map_cons, List.sum_cons]
    have := h w (by simp)
    have := ih (fun x hx => h x (by simp [hx]))
    omega

/-- The buffer after the loop holds field `i` at the offset of its column. -/
theorem formatLineLoop_offset (lengths : List Int) :
    ∀ (fields : List String) (c : Int) (result : String) (i : Nat),
      lengths.length ≤ fields.length → (result.utf8ByteSize : Int) ≤ c →
      (∀ w ∈ lengths, 0 ≤ w) → c + (lengths.map (fun w => w + 1)).sum < 2 ^ 63 →
      i < lengths.length → fields.getD i "" ≠ "" →
      (∀ k < i, fields.getD k "" ≠ "" →
        ((fields.getD k "").utf8ByteSize : Int) ≤ lengths.getD k 0) →
      ∃ pre post : String,
        formatLineLoop lengths fields c result = some (pre ++ fields.getD i "" ++ " " ++ post) ∧
        (pre.utf8ByteSize : Int) = c + ((lengths.take i).map (fun w => w + 1)).sum := by
  induction lengths with
  | nil => intro fields c result i _ _ _ _ hi; simp at hi
  | cons w ls ih =>
    intro fields c result i hlen hc hw hsum hi hne hfit
    cases fields with
    | nil => simp at hlen
    | cons item rest =>
      simp only [List.length_cons, Nat.add_le_add_iff_right] at hlen
      have hw0 : 0 ≤ w := hw w (by simp)
      have hls : ∀ x ∈ ls, 0 ≤ x := fun x hx => hw x (by simp [hx])
      have hrest := sum_widths_nonneg ls hls
      simp only [List.map_cons, List.sum_cons] at hsum
      have hc0 : (0 : Int) ≤ c := le_trans (by omega) hc
      have hwrap : wrapInt64 (c + (w + 1)) = c + (w + 1) :=
        wrapInt64_eq _ (by omega) (by omega)
      simp only [formatLineLoop, hwrap]
      cases i with
      | zero =>
        simp only [List.getD_cons_zero] at hne
        simp only [List.getD_cons_zero, ne_eq, hne, not_false_eq_true, ↓reduceIte]
        obtain ⟨pads, -, hloop⟩ := formatLineLoop_cells ls rest (c + (w + 1))
          (padTo result c ++ item ++ " ") hlen
        exact ⟨padTo result c, cells pads rest, hloop, by
          simp [utf8ByteSize_padTo result c hc]⟩
      | succ i =>
        simp only [List.getD_cons_succ] at hne
        simp only [List.length_cons, Nat.add_lt_add_iff_right] at hi
        have hfit0 := hfit 0 (by omega)
        simp only [List.getD_cons_zero] at hfit0
        have hsize : (((if item ≠ "" then padTo result c ++ item ++ " "
            else padTo result c).utf8ByteSize : Nat) : Int) ≤ c + (w + 1) := by
          by_cases hitem : item = ""
          · simp only [hitem, ne_eq, not_true_eq_false, ↓reduceIte,
              utf8ByteSize_padTo result c hc]
            omega
          · have h1 := hfit0 hitem
            have h2 := utf8ByteSize_padTo result c hc
            have h3 : (" " : String).utf8ByteSize = 1 := by decide
            simp only [ne_eq, hitem, not_false_eq_true, ↓reduceIte,
              utf8ByteSize_append, h3]
            push_cast
            omega
        obtain ⟨pre, post, hloop, hpre⟩ := ih rest (c + (w + 1))
          (if item ≠ "" then padTo result c ++ item ++ " " else padTo result c) i hlen hsize
          hls (by omega) hi hne (fun k hk hk1 => by
            have := hfit (k + 1) (by omega)
            simp only [List.getD_cons_succ] at this
            exact this hk1)
        refine ⟨pre, post, ?_, ?_⟩
        · simpa only [List.getD_cons_succ] using hloop
        · rw [hpre]
          simp only [List.take_succ_cons, List.map_cons, List.sum_cons]
          omega


/-- Trimming leaves a text that ends in a character outside the cutset, and what
precedes it, in place. -/
theorem trim_keeps (p : Char → Bool) (x y : List Char) (c : Char) (hc : p c = false) :
    ∃ z, ((x ++ [c] ++ y).reverse.dropWhile p).reverse = x ++ [c] ++ z := by
  have e : (x ++ [c] ++ y).reverse = y.reverse ++ c :: x.reverse := by simp
  rw [e, List.dropWhile_append]
  split_ifs with h
  · refine ⟨[], ?_⟩
    rw [List.dropWhile_cons_of_neg (by simp [hc])]
    simp
  · refine ⟨(y.reverse.dropWhile p).reverse, ?_⟩
    simp

/-- A string ends with a space when its last character is one. -/
theorem HasSuffix_space_iff (s : String) :
    HasSuffix s " " = true ↔ ∃ x, s.data = x ++ [' '] := by
  unfold HasSuffix
  rw [List.isSuffixOf_iff_suffix]
  constructor
  · rintro ⟨x, hx⟩; exact ⟨x, hx.symm⟩
  · rintro ⟨x, hx⟩; exact ⟨x, hx.symm⟩

/-- The line returned by `TrimRight` does not end with a space. -/
theorem TrimRight_no_space (s : String) : HasSuffix (TrimRight s " ") " " = false := by
  rw [Bool.eq_false_iff]
  intro h
  obtain ⟨x, hx⟩ := (HasSuffix_space_iff _).mp h
  simp only [TrimRight] at hx
  have h2 := congrArg List.reverse hx
  simp only [List.reverse_reverse, List.reverse_append, List.reverse_singleton,
    List.singleton_append] at h2
  have h3 : (List.dropWhile (fun c => (" " : String).data.contains c) s.data.reverse).head?
      = some ' ' := by rw [h2]; rfl
  have h4 := List.head?_dropWhile_not (fun c => (" " : String).data.contains c) s.data.reverse
  rw [h3] at h4
  simp at h4

/-- A field that is not empty and does not end with a space survives the trimming of
the line, with everything before it. -/
theorem TrimRight_keeps (pre f post : String) (hf : f ≠ "") (hs : HasSuffix f " " = false) :
    ∃ post2 : String, TrimRight (pre ++ f ++ post) " " = pre ++ f ++ post2 := by
  have hd : f.data ≠ [] := fun h => hf (String.ext h)
  obtain ⟨x, c, hx⟩ : ∃ x c, f.data = x ++ [c] :=
    ⟨f.data.dropLast, f.data.getLast hd, (List.dropLast_append_getLast hd).symm⟩
  have hc : c ≠ ' ' := by
    rintro rfl
    have := (HasSuffix_space_iff f).mpr ⟨x, hx⟩
    rw [hs] at this
    exact Bool.false_ne_true this
  obtain ⟨z, hz⟩ := trim_keeps (fun c => (" " : String).data.contains c)
    (pre.data ++ x) post.data c (by simpa using hc)
  refine ⟨⟨z⟩, ?_⟩
  apply String.ext
  simp only [TrimRight, String.data_append, hx]
  simpa [List.append_assoc] using hz

/-- A field between a prefix and a suffix starts at the byte length of the prefix. -/
theorem startsAt_intro (pre f post : String) (o : Int) (h : (pre.utf8ByteSize : Int) = o) :
    startsAt (pre ++ f ++ post) f o = true := by
  unfold startsAt
  rw [List.any_eq_true]
  refine ⟨pre.length, ?_, ?_⟩
  · simp only [List.mem_range, String.length_append]
    omega
  · have e : (pre ++ f ++ post).data = pre.data ++ (f.data ++ post.data) := by
      simp [String.data_append]
    have hl : pre.data.length = pre.length := rfl
    rw [e, ← hl, List.take_left, List.drop_left]
    simp only [Bool.and_eq_true, decide_eq_true_eq]
    refine ⟨h, ?_⟩
    rw [List.isPrefixOf_iff_prefix]
    exact List.prefix_append _ _

/-- C16: given a field for every width, `formatLine` returns a line; it is the columns
in order, each the padding followed by the field and one space if the field is not
empty, without the trailing spaces, so it does not end with a space; and for widths
that are not negative and sum to less than 2^63, a non-empty field `i` that does not
end with a space starts at byte offset `sum over k < i of (w_k + 1)` whenever every
non-empty field before it is no longer than its width. -/
theorem formatLine_columns (lengths : List Int) (fields : List String)
    (hlen : lengths.length ≤ fields.length) :
    ∃ line, formatLine lengths fields = some line ∧
      HasSuffix line " " = false ∧
      (∃ pads : List Nat, pads.length = lengths.length ∧
        line = TrimRight (cells pads fields) " ") ∧
      ((∀ w ∈ lengths, 0 ≤ w) → (lengths.map (fun w => w + 1)).sum < 2 ^ 63 →
        ∀ i < lengths.length, fields.getD i "" ≠ "" → HasSuffix (fields.getD i "") " " = false →
          (∀ k < i, fields.getD k "" ≠ "" →
            ((fields.getD k "").utf8ByteSize : Int) ≤ lengths.getD k 0) →
          startsAt line (fields.getD i "") ((lengths.take i).map (fun w => w + 1)).sum = true) := by
  obtain ⟨pads, hp, hloop⟩ := formatLineLoop_cells lengths fields 0 "" hlen
  refine ⟨TrimRight ("" ++ cells pads fields) " ", by simp [formatLine, hloop],
    TrimRight_no_space _, ⟨pads, hp, by simp⟩, ?_⟩
  intro hw hsum i hi hne hsp hfit
  obtain ⟨pre, post, hl, hpre⟩ := formatLineLoop_offset lengths fields 0 "" i hlen
    (by decide) hw (by omega) hi hne hfit
  rw [hloop] at hl
  rw [Option.some.inj hl]
  obtain ⟨post2, h2⟩ := TrimRight_keeps pre (fields.getD i "") (" " ++ post) hne hsp
  rw [String.append_assoc (pre ++ fields.getD i "") " " post, h2]
  exact startsAt_intro _ _ _ _ (by omega)

/-- C16 at the widths 10, 5, 2, 5, 0 of the zone file: the target starts at offset 26. -/
theorem formatLine_columns_witness :
    formatLine [10, 5, 2, 5, 0] ["www", "300", "IN", "A", "1.2.3.4"]
        = some "www        300   IN A     1.2.3.4" ∧
      ∃ line, formatLine [10, 5, 2, 5, 0] ["www", "300", "IN", "A", "1.2.3.4"] = some line ∧
        startsAt line "1.2.3.4" 26 = true := by
  refine ⟨by decide, ?_⟩
  obtain ⟨line, h1, -, -, h4⟩ :=
    formatLine_columns [10, 5, 2, 5, 0] ["www", "300", "IN", "A", "1.2.3.4"] (by decide)
  exact ⟨line, h1, h4 (by decide) (by decide) 4 (by decide) (by decide) (by decide) (by decide)⟩

/-- C16 as stated fails: a field that is one space is not empty and is trimmed away,
and after a negative width the offset is not the sum. -/
theorem formatLine_trimmed_field :
    formatLine [10, 5, 2, 5, 0] ["a", " ", "", "", ""] = some "a" ∧
      startsAt "a" " " 11 = false ∧
      formatLine [-5, 3] ["", "x"] = some "x" ∧ startsAt "x" "x" (-4) = false := by
  decide


/-! ## The lines of the zone file -/

/-- A piece without the separator is split off as it is. -/
theorem splitNChars_piece (sep : Char) (n : Nat) (p r : List Char) (hp : sep ∉ p) :
    splitNChars sep (n + 2) (p ++ sep :: r) = p :: splitNChars sep (n + 1) r := by
  induction p with
  | nil => simp [splitNChars]
  | cons c p ih =>
    simp only [List.mem_cons, not_or] at hp
    have hc : ¬ c = sep := fun e => hp.1 e.symm
    have e : c :: p ++ sep :: r = c :: (p ++ sep :: r) := rfl
    rw [e, splitNChars, if_neg hc, ih hp.2]

/-- The five pieces of a text of four tab-free pieces and a rest. -/
theorem SplitN_five (p0 p1 p2 p3 rest : String) (h0 : '\t' ∉ p0.data) (h1 : '\t' ∉ p1.data)
    (h2 : '\t' ∉ p2.data) (h3 : '\t' ∉ p3.data) :
    SplitN (p0 ++ "\t" ++ p1 ++ "\t" ++ p2 ++ "\t" ++ p3 ++ "\t" ++ rest) 5
      = [p0, p1, p2, p3, rest] := by
  have e : (p0 ++ "\t" ++ p1 ++ "\t" ++ p2 ++ "\t" ++ p3 ++ "\t" ++ rest).data
      = p0.data ++ '\t' :: (p1.data ++ '\t' :: (p2.data ++ '\t' :: (p3.data ++ '\t' ::
        rest.data))) := by
    simp [String.data_append]
  unfold SplitN
  rw [e, splitNChars_piece _ _ _ _ h0, splitNChars_piece _ _ _ _ h1,
    splitNChars_piece _ _ _ _ h2, splitNChars_piece _ _ _ _ h3]
  simp [splitNChars]

/-- The decimal text of a number has no tab. -/
theorem repr_no_tab (n : Nat) : '\t' ∉ (Nat.repr n).data := by
  intro h
  have := List.all_eq_true.mp (allDigits_repr n) _ h
  revert this
  decide

/-- Trimming leaves a text whose first piece has no tab in that form. -/
theorem trimLine_header (p0 rest : String) (h0 : '\t' ∉ p0.data) :
    ∃ q0 : String, trimLine (p0 ++ "\t" ++ rest) = some (q0 ++ "\t" ++ rest) ∧
      '\t' ∉ q0.data := by
  have e : (p0 ++ "\t" ++ rest).data = p0.data ++ '\t' :: rest.data := by
    simp [String.data_append]
  cases hp : p0.data with
  | nil =>
    refine ⟨p0, ?_, h0⟩
    unfold trimLine
    rw [e, hp]
    simp
  | cons c cs =>
    by_cases hc : c = ';'
    · refine ⟨⟨cs⟩, ?_, ?_⟩
      · unfold trimLine
        rw [e, hp]
        simp only [List.cons_append, hc, ↓reduceIte, Option.some.injEq]
        apply String.ext
        simp [String.data_append]
      · intro h
        exact h0 (hp ▸ List.mem_cons_of_mem c h)
    · refine ⟨p0, ?_, h0⟩
      unfold trimLine
      rw [e, hp]
      simp [hc]

/-- The items of a record: five pieces, the second the TTL in decimal. -/
theorem zoneItems_header (lib : ZoneLib) (rr : RR) :
    ∃ name cls typ rdata : String,
      zoneItems lib.toDnsLib rr = some [name, Nat.repr rr.Hdr.Ttl, cls, typ, rdata] := by
  obtain ⟨name, cls, typ, rdata, hs, h0, h2, h3⟩ := lib.rrString_header rr
  have hs2 : lib.rrString rr = name ++ "\t" ++
      (Nat.repr rr.Hdr.Ttl ++ "\t" ++ cls ++ "\t" ++ typ ++ "\t" ++ rdata) := by
    rw [hs]
    simp only [String.append_assoc]
  obtain ⟨q0, hq, hq0⟩ := trimLine_header name
    (Nat.repr rr.Hdr.Ttl ++ "\t" ++ cls ++ "\t" ++ typ ++ "\t" ++ rdata) h0
  refine ⟨q0, cls, typ, rdata, ?_⟩
  have hs3 : q0 ++ "\t" ++ (Nat.repr rr.Hdr.Ttl ++ "\t" ++ cls ++ "\t" ++ typ ++ "\t" ++ rdata)
      = q0 ++ "\t" ++ Nat.repr rr.Hdr.Ttl ++ "\t" ++ cls ++ "\t" ++ typ ++ "\t" ++ rdata := by
    simp only [String.append_assoc]
  simp only [zoneItems, hs2, hq, hs3,
    SplitN_five q0 (Nat.repr rr.Hdr.Ttl) cls typ rdata hq0 (repr_no_tab _) h2 h3]

/-- The decimal text of a number is not empty. -/
theorem repr_ne_empty (n : Nat) : Nat.repr n ≠ "" := fun h =>
  repr_ne_nil n (congrArg String.data h)

/-- The fields of a record of class `IN` whose text has five pieces. -/
theorem zoneFields_ok (lib : DnsLib) (z : zoneGenData)
    (i : Nat) (prev : String) (rr : RR) (items : List String)
    (hitems : zoneItems lib rr = some items) (hlen : items.length = 5)
    (hclass : rr.Hdr.Class = ClassINET) :
    zoneFields lib z i prev rr = .ok
      [if i > 0 ∧ lib.TrimDomainName rr.Hdr.Name z.Origin = prev then ""
        else lib.TrimDomainName rr.Hdr.Name z.Origin,
       if rr.Hdr.Ttl ≠ z.DefaultTTL ∧ rr.Hdr.Ttl ≠ 0 then items.getD 1 "" else "",
       "IN", lib.TypeToString rr.Hdr.Rrtype, items.getD 4 ""] := by
  match items, hlen with
  | [a, b, c, d, e], _ =>
    unfold zoneFields
    simp only [hitems, hclass, ne_eq, not_true_eq_false, ↓reduceIte]
    by_cases h : ¬ rr.Hdr.Ttl = z.DefaultTTL ∧ ¬ rr.Hdr.Ttl = 0
    · simp [h]
    · simp [h]

/-- A line is printed for every list of five fields. -/
theorem formatLine_five (fields : List String) (h : fields.length = 5) :
    ∃ line, formatLine [10, 5, 2, 5, 0] fields = some line := by
  obtain ⟨pads, -, hloop⟩ := formatLineLoop_cells [10, 5, 2, 5, 0] fields 0 "" (by simp [h])
  exact ⟨TrimRight ("" ++ cells pads fields) " ", by simp [formatLine, hloop]⟩

/-- The loop prints one line for each record, from the fields of that record and the
short name of the record before it. -/
theorem zoneLinesLoop_ok (lib : DnsLib) (z : zoneGenData) (rs : List RR) :
    ∀ (i : Nat) (prev : String),
      (∀ rr ∈ rs, rr.Hdr.Class = ClassINET) →
      (∀ rr ∈ rs, (zoneItems lib rr).map List.length = some 5) →
      ∃ lines, zoneLinesLoop lib z i prev rs = .ok lines ∧ lines.length = rs.length ∧
        ∀ k rr, rs[k]? = some rr →
          ∃ fields, zoneFields lib z (i + k)
              (match k with
                | 0 => prev
                | j + 1 => (rs[j]?.map (fun p => lib.TrimDomainName p.Hdr.Name z.Origin)).getD "")
              rr = .ok fields ∧
            lines[k]? = formatLine [10, 5, 2, 5, 0] fields := by
  induction rs with
  | nil =>
    intro i prev _ _
    exact ⟨[], rfl, rfl, by simp⟩
  | cons r rest ih =>
    intro i prev hclass hitems
    obtain ⟨items, hi1, hi2⟩ := Option.map_eq_some'.mp (hitems r (by simp))
    have hf := zoneFields_ok lib z i prev r items hi1 hi2 (hclass r (by simp))
    obtain ⟨line, hline⟩ := formatLine_five _ (by simp :
      [if i > 0 ∧ lib.TrimDomainName r.Hdr.Name z.Origin = prev then ""
        else lib.TrimDomainName r.Hdr.Name z.Origin,
       if r.Hdr.Ttl ≠ z.DefaultTTL ∧ r.Hdr.Ttl ≠ 0 then items.getD 1 "" else "",
       "IN", lib.TypeToString r.Hdr.Rrtype, items.getD 4 ""].length = 5)
    obtain ⟨lines, hl1, hl2, hl3⟩ := ih (i + 1) (lib.TrimDomainName r.Hdr.Name z.Origin)
      (fun rr hrr => hclass rr (by simp [hrr])) (fun rr hrr => hitems rr (by simp [hrr]))
    refine ⟨line :: lines, ?_, by simp [hl2], ?_⟩
    · simp only [zoneLinesLoop, hf, hline, hl1]
    · intro k rr hk
      cases k with
      | zero =>
        simp only [List.getElem?_cons_zero, Option.some.injEq] at hk
        subst hk
        exact ⟨_, hf, by rw [hline, List.getElem?_cons_zero]⟩
      | succ k =>
        simp only [List.getElem?_cons_succ] at hk
        obtain ⟨fields, h1, h2⟩ := hl3 k rr hk
        refine ⟨fields, ?_, by simpa using h2⟩
        have e : i + (k + 1) = i + 1 + k := by omega
        rw [e]
        cases k with
        | zero => simpa using h1
        | succ j => simpa using h1

/-- C17: when the sort returns and every record is of class `IN`,
`generateZoneFileHelper` writes the `$TTL` line and one line for each record in
sorted order, printed by `formatLine` from the five fields the loop body computes for
the record; the ttl field is empty exactly when the TTL of the record is the default
TTL or zero, and is the TTL in decimal otherwise; the name field is empty exactly
when the record is not the first one and its short name is the short name of the
record before it, and is the short name otherwise. -/
theorem generateZoneFileHelper_columns (lib : ZoneLib)
    (sortSort : (RR → RR → Option Bool) → List RR → Option (List RR))
    (z : zoneGenData) (records : List RR)
    (hsort : sortSort (lessRR lib.toDnsLib z.Origin) z.Records = some records)
    (hclass : ∀ rr ∈ records, rr.Hdr.Class = ClassINET) :
    ∃ lines, generateZoneFileHelper lib.toDnsLib sortSort z
        = .ok (("$TTL " ++ toString z.DefaultTTL) :: lines) ∧
      lines.length = records.length ∧
      ∀ i rr, records[i]? = some rr →
        ∃ fields,
          zoneFields lib.toDnsLib { z with Records := records } i
              (match i with
                | 0 => ""
                | j + 1 =>
                  (records[j]?.map (fun p => lib.TrimDomainName p.Hdr.Name z.Origin)).getD "")
              rr = .ok fields ∧
          lines[i]? = formatLine [10, 5, 2, 5, 0] fields ∧
          fields.length = 5 ∧
          (fields.getD 1 "" = "" ↔ rr.Hdr.Ttl = z.DefaultTTL ∨ rr.Hdr.Ttl = 0) ∧
          (fields.getD 1 "" ≠ "" → fields.getD 1 "" = Nat.repr rr.Hdr.Ttl) ∧
          (fields.getD 0 "" = "" ↔ 0 < i ∧ ∃ p, records[i - 1]? = some p ∧
            lib.TrimDomainName rr.Hdr.Name z.Origin
              = lib.TrimDomainName p.Hdr.Name z.Origin) ∧
          (fields.getD 0 "" ≠ "" →
            fields.getD 0 "" = lib.TrimDomainName rr.Hdr.Name z.Origin) := by
  have hitems : ∀ rr ∈ records, (zoneItems lib.toDnsLib rr).map List.length = some 5 := by
    intro rr _
    obtain ⟨name, cls, typ, rdata, h⟩ := zoneItems_header lib rr
    rw [h]
    rfl
  obtain ⟨lines, hl1, hl2, hl3⟩ := zoneLinesLoop_ok lib.toDnsLib
    { z with Records := records } records 0 "" hclass hitems
  refine ⟨lines, ?_, hl2, ?_⟩
  · simp only [generateZoneFileHelper, hsort, hl1]
  · intro i rr hi
    obtain ⟨fields, hf, hline⟩ := hl3 i rr hi
    rw [Nat.zero_add] at hf
    refine ⟨fields, hf, hline, ?_⟩
    have hmem : rr ∈ records := List.mem_iff_getElem?.mpr ⟨i, hi⟩
    obtain ⟨name, cls, typ, rdata, hi1⟩ := zoneItems_header lib rr
    rw [zoneFields_ok lib.toDnsLib _ _ _ rr _ hi1 rfl (hclass rr hmem)] at hf
    have hf2 := Except.ok.inj hf
    subst hf2
    have hne := lib.TrimDomainName_ne rr.Hdr.Name z.Origin
    have h1 : Nat.repr rr.Hdr.Ttl ≠ "" := repr_ne_empty _
    refine ⟨rfl, ?_, ?_, ?_, ?_⟩
    · show (if rr.Hdr.Ttl ≠ z.DefaultTTL ∧ rr.Hdr.Ttl ≠ 0 then Nat.repr rr.Hdr.Ttl else "")
        = "" ↔ _
      by_cases h : rr.Hdr.Ttl = z.DefaultTTL ∨ rr.Hdr.Ttl = 0
      · rw [if_neg (fun hc => h.elim hc.1 hc.2)]
        exact ⟨fun _ => h, fun _ => rfl⟩
      · rw [if_pos (not_or.mp h)]
        exact ⟨fun e => absurd e h1, fun e => absurd e h⟩
    · show (if rr.Hdr.Ttl ≠ z.DefaultTTL ∧ rr.Hdr.Ttl ≠ 0 then Nat.repr rr.Hdr.Ttl else "")
        ≠ "" → (if rr.Hdr.Ttl ≠ z.DefaultTTL ∧ rr.Hdr.Ttl ≠ 0 then Nat.repr rr.Hdr.Ttl else "")
          = Nat.repr rr.Hdr.Ttl
      split_ifs
      · exact fun _ => rfl
      · exact fun h => absurd rfl h
    · cases i with
      | zero => simp [hne]
      | succ j =>
        have hj : j < records.length := by
          have := (List.getElem?_eq_some.mp hi).1
          omega
        simp only [List.getD_cons_zero, Nat.add_one_sub_one, Nat.zero_lt_succ, true_and,
          gt_iff_lt, List.getElem?_eq_getElem hj, Option.map_some', Option.getD_some,
          Option.some.injEq, exists_eq_left']
        by_cases h : lib.TrimDomainName rr.Hdr.Name z.Origin
            = lib.TrimDomainName records[j].Hdr.Name z.Origin
        · simp [h]
        · simp [h, hne]
    · simp only [List.getD_cons_zero]
      split_ifs
      · exact fun h => absurd rfl h
      · exact fun _ => rfl

/-- C17 at the sample zone, sorted by `insertionSort`: the lines are the apex, `ftp`
with its TTL 0 left out, `mail` with its TTL 7200, `www` with the default TTL left
out and the second `www` record without its name and with its TTL 600. -/
theorem generateZoneFileHelper_columns_witness :
    mostCommonTTL sampleZoneFile.Records = sampleZoneFile.DefaultTTL ∧
    insertionSort (lessRR sampleZoneLib.toDnsLib sampleZoneFile.Origin) sampleZoneFile.Records
      = some [sampleRR "example.com." 1 300 (.A [1, 1, 1, 1]),
          sampleRR "ftp.example.com." 1 0 (.A [5, 6, 7, 8]),
          sampleRR "mail.example.com." 1 7200 (.A [9, 9, 9, 9]),
          sampleRR "www.example.com." 1 300 (.A [1, 2, 3, 4]),
          sampleRR "www.example.com." 1 600 (.A [1, 2, 3, 5])] ∧
    generateZoneFileHelper sampleZoneLib.toDnsLib insertionSort sampleZoneFile
      = .ok ["$TTL 300",
          "@                IN A     1.1.1.1",
          "ftp              IN A     5.6.7.8",
          "mail       7200  IN A     9.9.9.9",
          "www              IN A     1.2.3.4",
          "           600   IN A     1.2.3.5"] ∧
    ∃ lines fields, generateZoneFileHelper sampleZoneLib.toDnsLib insertionSort sampleZoneFile
        = .ok (("$TTL " ++ toString sampleZoneFile.DefaultTTL) :: lines) ∧
      lines.length = 5 ∧
      lines[4]? = formatLine [10, 5, 2, 5, 0] fields ∧
      (fields.getD 1 "" = "" ↔ (600 : Nat) = 300 ∨ (600 : Nat) = 0) ∧
      (fields.getD 0 "" = "" ↔ 0 < 4 ∧
        ∃ p, [sampleRR "example.com." 1 300 (.A [1, 1, 1, 1]),
            sampleRR "ftp.example.com." 1 0 (.A [5, 6, 7, 8]),
            sampleRR "mail.example.com." 1 7200 (.A [9, 9, 9, 9]),
            sampleRR "www.example.com." 1 300 (.A [1, 2, 3, 4]),
            sampleRR "www.example.com." 1 600 (.A [1, 2, 3, 5])][4 - 1]? = some p ∧
          sampleZoneLib.TrimDomainName "www.example.com." sampleZoneFile.Origin
            = sampleZoneLib.TrimDomainName p.Hdr.Name sampleZoneFile.Origin) := by
  refine ⟨by decide, by decide, by decide, ?_⟩
  obtain ⟨lines, h1, h2, h3⟩ := generateZoneFileHelper_columns sampleZoneLib insertionSort
    sampleZoneFile _ (by decide :
      insertionSort (lessRR sampleZoneLib.toDnsLib sampleZoneFile.Origin)
        sampleZoneFile.Records
      = some [sampleRR "example.com." 1 300 (.A [1, 1, 1, 1]),
          sampleRR "ftp.example.com." 1 0 (.A [5, 6, 7, 8]),
          sampleRR "mail.example.com." 1 7200 (.A [9, 9, 9, 9]),
          sampleRR "www.example.com." 1 300 (.A [1, 2, 3, 4]),
          sampleRR "www.example.com." 1 600 (.A [1, 2, 3, 5])]) (by decide)
  obtain ⟨fields, -, h4, -, h5, -, h6, -⟩ :=
    h3 4 (sampleRR "www.example.com." 1 600 (.A [1, 2, 3, 5])) rfl
  exact ⟨lines, fields, h1, h2, h4, h5, h6⟩

/-! ## The default SOA record -/

/-- A string of byte length zero is the empty string. -/
theorem utf8ByteSize_eq_zero_iff (s : String) : s.utf8ByteSize = 0 ↔ s = "" := by
  constructor
  · intro h
    apply String.ext
    cases hs : s.data with
    | nil => rfl
    | cons c cs =>
      have e : s.utf8ByteSize = String.utf8Len (c :: cs) := by
        rw [← hs]; rfl
      rw [String.utf8Len_cons] at e
      have := Char.utf8Size_pos c
      omega
  · rintro rfl
    rfl

/-- C21: `makeDefaultSOA` returns a record of type SOA with label `@` whose target is
the text `master mbox serial refresh retry expire minttl`, with an empty master or
mbox replaced by `DEFAULT_NOT_SET.`, a zero serial, refresh, retry, expire or minttl
replaced by 1, 3600, 600, 604800 and 1440, and every other field as configured. -/
theorem makeDefaultSOA_target (info : SoaInfo) (origin : String) :
    (makeDefaultSOA info origin).Type_ = "SOA" ∧
    (makeDefaultSOA info origin).GetLabel = "@" ∧
    (makeDefaultSOA info origin).GetTargetField =
      (if info.Ns = "" then "DEFAULT_NOT_SET." else info.Ns) ++ " " ++
      (if info.Mbox = "" then "DEFAULT_NOT_SET." else info.Mbox) ++ " " ++
      Nat.repr (if info.Serial = 0 then 1 else info.Serial) ++ " " ++
      Nat.repr (if info.Refresh = 0 then 3600 else info.Refresh) ++ " " ++
      Nat.repr (if info.Retry = 0 then 600 else info.Retry) ++ " " ++
      Nat.repr (if info.Expire = 0 then 604800 else info.Expire) ++ " " ++
      Nat.repr (if info.Minttl = 0 then 1440 else info.Minttl) ∧
    (makeDefaultSOA info origin).GetTargetCombined
      = (makeDefaultSOA info origin).GetTargetField := by
  refine ⟨?_, ?_, ?_, ?_⟩
  · simp [makeDefaultSOA, RecordConfig.SetTargetSOA, RecordConfig.SetLabel]
  · simp [makeDefaultSOA, RecordConfig.SetTargetSOA, RecordConfig.SetLabel,
      RecordConfig.GetLabel]
  · simp only [makeDefaultSOA, RecordConfig.SetTargetSOA, RecordConfig.GetTargetField,
      SoaInfo.String, utf8ByteSize_eq_zero_iff]
    by_cases h1 : info.Ns = "" <;> by_cases h2 : info.Mbox = "" <;>
      by_cases h3 : info.Serial = 0 <;> by_cases h4 : info.Refresh = 0 <;>
      by_cases h5 : info.Retry = 0 <;> by_cases h6 : info.Expire = 0 <;>
      by_cases h7 : info.Minttl = 0 <;> simp [h1, h2, h3, h4, h5, h6, h7]
  · simp [makeDefaultSOA, RecordConfig.SetTargetSOA, RecordConfig.GetTargetField,
      RecordConfig.GetTargetCombined]

/-- C21 at an empty configuration and at a configuration with every field set. -/
theorem makeDefaultSOA_target_witness :
    (makeDefaultSOA ⟨"", "", 0, 0, 0, 0, 0⟩ "example.com").GetTargetField
        = "DEFAULT_NOT_SET. DEFAULT_NOT_SET. 1 3600 600 604800 1440" ∧
      (makeDefaultSOA ⟨"ns1.example.com.", "admin.example.com.", 2019010101, 7200, 900,
          86400, 300⟩ "example.com").GetTargetField
        = "ns1.example.com. admin.example.com. 2019010101 7200 900 86400 300" :=
  ⟨(makeDefaultSOA_target ⟨"", "", 0, 0, 0, 0, 0⟩ "example.com").2.2.1.trans (by decide),
    (makeDefaultSOA_target ⟨"ns1.example.com.", "admin.example.com.", 2019010101, 7200, 900,
      86400, 300⟩ "example.com").2.2.1.trans (by decide)⟩

/-! ## The credentials after the environment has been read -/

/-- Writing to a key of the map replaces the value at the entry of that key. -/
theorem ValueMap.set_append (pre rest : ValueMap) (k v w : String)
    (hk : k ∉ pre.map Prod.fst) :
    ValueMap.set (pre ++ (k, v) :: rest) k w = pre ++ (k, w) :: rest := by
  induction pre with
  | nil => simp [ValueMap.set]
  | cons a pre ih =>
    obtain ⟨k', v'⟩ := a
    simp only [List.map_cons, List.mem_cons, not_or] at hk
    have hne : ¬ k' = k := fun e => hk.1 e.symm
    have e : (k', v') :: pre ++ (k, v) :: rest = (k', v') :: (pre ++ (k, v) :: rest) := rfl
    rw [e, ValueMap.set, if_neg hne, ih hk.2]
    rfl

/-- The inner loop rewrites each entry in place when every key occurs once. -/
theorem replaceKeys_eq (environ : Environ) (rest : List (String × String)) :
    ∀ pre : ValueMap, (∀ e ∈ rest, e.1 ∉ pre.map Prod.fst) → (rest.map Prod.fst).Nodup →
      replaceKeys environ rest (pre ++ rest) = pre ++ rest.map (fun kv =>
        (kv.1, if HasPrefix kv.2 "$" then Getenv environ ⟨kv.2.data.drop 1⟩ else kv.2)) := by
  induction rest with
  | nil => intro pre _ _; simp [replaceKeys]
  | cons a rest ih =>
    intro pre hpre hn
    obtain ⟨k, v⟩ := a
    have hk : k ∉ pre.map Prod.fst := hpre (k, v) (by simp)
    simp only [List.map_cons, List.nodup_cons] at hn
    have hstep : ∀ w : String, (∀ e ∈ rest, e.1 ∉ (pre ++ [(k, w)]).map Prod.fst) := by
      intro w e he
      simp only [List.map_append, List.map_cons, List.map_nil, List.mem_append,
        List.mem_singleton, not_or]
      refine ⟨hpre e (by simp [he]), ?_⟩
      intro hek
      exact hn.1 (hek ▸ List.mem_map_of_mem Prod.fst he)
    by_cases hv : HasPrefix v "$" = true
    · simp only [replaceKeys, hv, ↓reduceIte, ValueMap.set_append pre rest k v _ hk]
      have := ih (pre ++ [(k, Getenv environ ⟨v.data.drop 1⟩)]) (hstep _) hn.2
      simpa [List.append_assoc, hv] using this
    · simp only [replaceKeys, hv, Bool.false_eq_true, ↓reduceIte]
      have := ih (pre ++ [(k, v)]) (hstep _) hn.2
      simpa [List.append_assoc, hv] using this

/-- C22: `replaceEnvVars` returns no error; the instance names and the keys of every
instance are unchanged; a value that begins with `$` becomes the value of the
environment variable named by the rest of it, the empty string when the variable is
not set, and every other value is unchanged. -/
theorem replaceEnvVars_values (environ : Environ) (m : List (String × ValueMap))
    (hn : ∀ e ∈ m, (e.2.map Prod.fst).Nodup) :
    ∃ m', replaceEnvVars environ m = .ok m' ∧
      m'.map Prod.fst = m.map Prod.fst ∧
      m'.map (fun e => e.2.map Prod.fst) = m.map (fun e => e.2.map Prod.fst) ∧
      m' = m.map (fun e => (e.1, e.2.map (fun kv =>
        (kv.1, if HasPrefix kv.2 "$" then Getenv environ ⟨kv.2.data.drop 1⟩ else kv.2)))) ∧
      ∀ key, environ.lookup key = none → Getenv environ key = "" := by
  have hm : m.map (fun e => (e.1, replaceKeys environ e.2 e.2))
      = m.map (fun e => (e.1, e.2.map (fun kv =>
        (kv.1, if HasPrefix kv.2 "$" then Getenv environ ⟨kv.2.data.drop 1⟩ else kv.2)))) := by
    apply List.map_congr_left
    intro e he
    have := replaceKeys_eq environ e.2 [] (by simp) (hn e he)
    simp only [List.nil_append] at this
    rw [this]
  refine ⟨_, rfl, ?_, ?_, hm, ?_⟩
  · simp [List.map_map, Function.comp_def]
  · rw [hm]
    simp [List.map_map, Function.comp_def]
  · intro key h
    simp [Getenv, h]

/-- C22 at a credentials file with one instance, one variable set and one not. -/
theorem replaceEnvVars_values_witness :
    ∃ m', replaceEnvVars [("CF_TOKEN", "s3cret")]
        [("cloudflare", [("apitoken", "$CF_TOKEN"), ("apiuser", "me"), ("extra", "$NOPE")])]
        = .ok m' ∧
      m' = [("cloudflare", [("apitoken", "s3cret"), ("apiuser", "me"), ("extra", "")])] := by
  obtain ⟨m', h1, -, -, h4, -⟩ := replaceEnvVars_values [("CF_TOKEN", "s3cret")]
    [("cloudflare", [("apitoken", "$CF_TOKEN"), ("apiuser", "me"), ("extra", "$NOPE")])]
    (by decide)
  exact ⟨m', h1, h4.trans (by decide)⟩


/-! ## Names and their sub-names -/

/-- Splitting at a separator splits the text before it and the text after it. -/
theorem splitChars_append (sep : Char) (u v : List Char) :
    splitChars sep (u ++ sep :: v) = splitChars sep u ++ splitChars sep v := by
  induction u with
  | nil => simp [splitChars]
  | cons c u ih =>
    by_cases hc : c = sep
    · simp [splitChars, hc, ih]
    · simp only [List.cons_append, splitChars, hc, ↓reduceIte]
      rw [show u.append (sep :: v) = u ++ sep :: v from rfl, ih]
      cases hs : splitChars sep u with
      | nil => exact absurd hs (splitChars_ne_nil sep u)
      | cons w ws => simp

/-- The components of `x.a` are those of `x` followed by those of `a`. -/
theorem Split_dot (x a : String) : Split (x ++ "." ++ a) = Split x ++ Split a := by
  unfold Split
  have e : (x ++ "." ++ a).data = x.data ++ '.' :: a.data := by
    simp [String.data_append]
  rw [e, splitChars_append, List.map_append]

/-- A label that runs out first, all its components equal, is the smaller one. -/
theorem revLess_prefix (xs ys : List String) (h : ys ≠ []) : revLess xs (xs ++ ys) = true := by
  induction xs with
  | nil =>
    cases ys with
    | nil => exact absurd rfl h
    | cons y ys => rfl
  | cons x xs ih => simpa [revLess] using ih

/-- C23: a label whose components are a proper right-aligned suffix of those of
another label sorts before it and not after it; this is so for `a` and every `x.a`. -/
theorem zoneLabelLess_subname (a b : String) :
    ((∃ pre : List String, pre ≠ [] ∧ Split b = pre ++ Split a) →
      zoneLabelLess a b = true ∧ zoneLabelLess b a = false) ∧
    (∀ x : String, zoneLabelLess a (x ++ "." ++ a) = true ∧
      zoneLabelLess (x ++ "." ++ a) a = false) := by
  have main : ∀ b : String, (∃ pre : List String, pre ≠ [] ∧ Split b = pre ++ Split a) →
      zoneLabelLess a b = true ∧ zoneLabelLess b a = false := by
    intro b hb
    obtain ⟨pre, hpre, hb⟩ := hb
    have hlen : (Split a).length < (Split b).length := by
      rw [hb, List.length_append]
      have : 0 < pre.length := List.length_pos.mpr hpre
      omega
    have h2 : 2 ≤ (Split b).length := by
      have := Split_length_pos a
      omega
    have hab : ¬ a = b := by
      rintro rfl
      omega
    have hb1 : ¬ b = "@" := by
      rintro rfl
      revert h2
      decide
    have hb2 : ¬ b = "*" := by
      rintro rfl
      revert h2
      decide
    have hlt : zoneLabelLess a b = true := by
      rw [zoneLabelLess_eq]
      simp only [hab, hb1, hb2, ↓reduceIte]
      by_cases ha1 : a = "@"
      · simp [ha1]
      by_cases ha2 : a = "*"
      · simp [ha2]
      simp only [ha1, ha2, ↓reduceIte, hb, List.reverse_append]
      exact revLess_prefix _ _ (by simpa using hpre)
    exact ⟨hlt, zoneLabelLess_asymm a b hlt⟩
  refine ⟨main b, fun x => main _ ⟨Split x, ?_, Split_dot x a⟩⟩
  exact fun h => absurd (Split_length_pos x) (by simp [h])

/-- C23 at the labels `foo` and `bar.foo`. -/
theorem zoneLabelLess_subname_witness :
    zoneLabelLess "foo" "bar.foo" = true ∧ zoneLabelLess "bar.foo" "foo" = false :=
  (zoneLabelLess_subname "foo" "bar.foo").1 ⟨["bar"], by decide, by decide⟩

/-! ## The branches of the serial generator -/

/-- C24 (as amended): when `oldSerial` is `draft + 1` and `draft + 2` fits in 32 bits,
`generateSerial` takes its first branch, `oldSerial > draft`, and returns
`oldSerial + 1 = draft + 2`. -/
theorem generateSerial_draft_plus_one (today : UTCDate) (hv : today.valid)
    (hdraft : today.yyyymmdd * 100 + 3 < 2 ^ 32) :
    generateSerialMethod (today.yyyymmdd * 100 + 1 + 1) today = some "o>d" ∧
      generateSerial (today.yyyymmdd * 100 + 1 + 1) today
        = .ok (today.yyyymmdd * 100 + 1 + 2) := by
  obtain ⟨_, hm, _, hd⟩ := hv
  constructor
  · have e : (today.yyyymmdd % u32 * 100 + 1) % u32 = today.yyyymmdd * 100 + 1 := by
      unfold u32
      omega
    simp only [generateSerialMethod,
      ParseUint_Format today (by omega) (by omega) (by omega), e, serialBranch]
    rw [if_pos (by omega)]
  · rw [generateSerial_eq_max _ today ⟨by assumption, hm, by assumption, hd⟩ (by omega)
      (by omega)]
    congr 1
    omega

/-- C24 at 1 January 2019 and the old serial 2019010102. -/
theorem generateSerial_draft_plus_one_witness :
    generateSerialMethod (20190101 * 100 + 1 + 1) ⟨2019, 1, 1⟩ = some "o>d" ∧
      generateSerial (20190101 * 100 + 1 + 1) ⟨2019, 1, 1⟩ = .ok (20190101 * 100 + 1 + 2) :=
  generateSerial_draft_plus_one ⟨2019, 1, 1⟩ (by decide) (by decide)

/-- C24, counterexample: on 1 January 2019 the draft is 2019010101; with the old
serial 2019010102 the branch taken is `o>d`, not `default`, and the serial returned
is 2019010103, not the draft. -/
theorem generateSerial_not_default :
    generateSerialMethod 2019010102 ⟨2019, 1, 1⟩ = some "o>d" ∧
      generateSerialMethod 2019010102 ⟨2019, 1, 1⟩ ≠ some "default" ∧
      generateSerial 2019010102 ⟨2019, 1, 1⟩ = .ok 2019010103 ∧
      generateSerial 2019010102 ⟨2019, 1, 1⟩ ≠ .ok 2019010101 := by
  decide


/-- The final check `oldSerial == newSerial` never fires. -/
theorem generateSerial_ne_oldEqNew (o : Nat) (t : UTCDate) (ho : o < 2 ^ 32) :
    generateSerial o t ≠ .error .oldEqNew := by
  cases h : ParseUint t.Format20060102 32 with
  | none => simp [generateSerial, h]
  | some n =>
    simp only [generateSerial, h]
    have key : ¬ o = (if (serialBranch o ((n % u32 * 100 + 1) % u32) (FormatUint o)
          t.Format20060102).2 = 0 then 1
        else (serialBranch o ((n % u32 * 100 + 1) % u32) (FormatUint o)
          t.Format20060102).2) := by
      unfold serialBranch u32
      split_ifs <;> omega
    rw [if_neg key]
    split_ifs <;> simp

/-- At the largest old serial the increment wraps to 0, is reset to 1, and the final
check `oldSerial > newSerial` fires. -/
theorem generateSerial_at_max (today : UTCDate) (hv : today.valid)
    (hdraft : today.yyyymmdd * 100 + 1 < 2 ^ 32) :
    generateSerial 4294967295 today = .error .oldGtNew := by
  obtain ⟨_, hm, _, hd⟩ := hv
  have e : (today.yyyymmdd % u32 * 100 + 1) % u32 = today.yyyymmdd * 100 + 1 := by
    unfold u32
    omega
  have hb : (serialBranch 4294967295 (today.yyyymmdd * 100 + 1) (FormatUint 4294967295)
      today.Format20060102).2 = 0 := by
    unfold serialBranch
    rw [if_pos (by omega)]
    rfl
  simp only [generateSerial, ParseUint_Format today (by omega) (by omega) (by omega), e, hb]
  decide

/-- C25: for a date whose draft fits in 32 bits and a 32-bit old serial,
`generateSerial` ends in one of its two final checks exactly when the old serial is
4294967295, when it ends in the check `oldSerial > newSerial`; for every other old
serial a strictly larger serial is returned; and the check `oldSerial == newSerial`
fires for no old serial and no date. -/
theorem generateSerial_failure (oldSerial : Nat) (today : UTCDate) (hold : oldSerial < 2 ^ 32)
    (hv : today.valid) (hdraft : today.yyyymmdd * 100 + 1 < 2 ^ 32) :
    ((generateSerial oldSerial today = .error .oldEqNew ∨
        generateSerial oldSerial today = .error .oldGtNew) ↔ oldSerial = 4294967295) ∧
    (oldSerial = 4294967295 → generateSerial oldSerial today = .error .oldGtNew) ∧
    (oldSerial ≠ 4294967295 →
      ∃ s, generateSerial oldSerial today = .ok s ∧ oldSerial < s) ∧
    (∀ (o : Nat) (t : UTCDate), o < 2 ^ 32 → generateSerial o t ≠ .error .oldEqNew) := by
  have hmax : oldSerial = 4294967295 → generateSerial oldSerial today = .error .oldGtNew := by
    rintro rfl
    exact generateSerial_at_max today hv hdraft
  have hok : oldSerial ≠ 4294967295 →
      ∃ s, generateSerial oldSerial today = .ok s ∧ oldSerial < s := by
    intro hne
    refine ⟨_, generateSerial_eq_max oldSerial today hv hdraft (by omega), ?_⟩
    omega
  refine ⟨⟨?_, fun h => Or.inr (hmax h)⟩, hmax, hok, generateSerial_ne_oldEqNew⟩
  intro h
  by_contra hne
  obtain ⟨s, hs, _⟩ := hok hne
  rw [hs] at h
  rcases h with h | h <;> cases h

/-- C25 at 1 January 2019: the old serial 2018123105 gives a larger serial, the old
serial 4294967295 ends in the check `oldSerial > newSerial`. -/
theorem generateSerial_failure_witness :
    (∃ s, generateSerial 2018123105 ⟨2019, 1, 1⟩ = .ok s ∧ 2018123105 < s) ∧
      generateSerial 4294967295 ⟨2019, 1, 1⟩ = .error .oldGtNew ∧
      generateSerial 4294967295 ⟨2019, 1, 1⟩ ≠ .error .oldEqNew :=
  ⟨(generateSerial_failure 2018123105 ⟨2019, 1, 1⟩ (by decide) (by decide) (by decide)).2.2.1
      (by decide),
    (generateSerial_failure 4294967295 ⟨2019, 1, 1⟩ (by decide) (by decide) (by decide)).2.1
      rfl,
    (generateSerial_failure 4294967295 ⟨2019, 1, 1⟩ (by decide) (by decide) (by decide)).2.2.2
      4294967295 ⟨2019, 1, 1⟩ (by decide)⟩


/-! ## The pairs of a plan -/

/-- An unchanged correlation of one key pairs two records with one fingerprint. -/
theorem keyPlan_unchanged_mem (d : differ) (ex de : List RecordConfig) (c : Correlation)
    (hc : c ∈ (keyPlan d ex de).unchanged) :
    ∃ e m, c = ⟨some e, some m⟩ ∧ d.fingerprint m = d.fingerprint e := by
  simp only [keyPlan, List.mem_map] at hc
  obtain ⟨x, hx, rfl⟩ := hc
  have := greedyPairs_pairs (sameContent d) ex de x hx
  exact ⟨x.1, x.2, rfl, by simpa [sameContent] using this⟩

/-- A modify correlation of one key pairs two records with different
fingerprints. -/
theorem keyPlan_modify_mem (d : differ) (ex de : List RecordConfig) (hok : keyOk d ex de)
    (c : Correlation) (hc : c ∈ (keyPlan d ex de).modify) :
    ∃ e m, c = ⟨some e, some m⟩ ∧ d.fingerprint m ≠ d.fingerprint e := by
  simp only [keyPlan, List.mem_append, List.mem_map] at hc
  rcases hc with ⟨x, hx, rfl⟩ | ⟨x, hx, rfl⟩
  · refine ⟨x.1, x.2, rfl, afterExact_disjoint d ex de x.1 ?_ x.2 ?_⟩
    · exact (greedyPairs_perm_existing sameTarget _ _).symm.subset
        (List.mem_append_right _ (List.mem_map_of_mem Prod.fst hx))
    · exact (greedyPairs_perm_desired sameTarget _ _).symm.subset
        (List.mem_append_right _ (List.mem_map_of_mem Prod.snd hx))
  · obtain ⟨x1, x2⟩ := x
    have h1 := (List.of_mem_zip hx).1
    have h2 := (List.of_mem_zip hx).2
    refine ⟨x1, x2, rfl, afterExact_disjoint d ex de x1 ?_ x2 ?_⟩
    · exact afterTarget_existing_subset d ex de ((byFingerprint_perm d _ hok.1).subset h1)
    · exact afterTarget_desired_subset d ex de ((byFingerprint_perm d _ hok.2).subset h2)

/-- C26: in a plan `IncrementalDiff` returns, every unchanged correlation pairs an
existing and a desired record with the same RecordKey and the same fingerprint, and
every modify correlation pairs an existing and a desired record with the same
RecordKey and different fingerprints; after the exact-match pass no remaining
existing record has the fingerprint of a remaining desired record, and the loop of
the residual pass over the records found in both lookups changes nothing. -/
theorem IncrementalDiff_pairs (d : differ) (existing : List RecordConfig) (p : Plan)
    (h : d.IncrementalDiff existing = .ok p) :
    (∀ c ∈ p.unchanged, ∃ e m, c = ⟨some e, some m⟩ ∧ e.Key = m.Key ∧
      d.content e = d.content m) ∧
    (∀ c ∈ p.modify, ∃ e m, c = ⟨some e, some m⟩ ∧ e.Key = m.Key ∧
      d.content e ≠ d.content m) ∧
    (∀ ex de un ex1 de1 un1, exactMatchPass d ex de un = .ok (ex1, de1, un1) →
      (∀ e ∈ ex1, ∀ m ∈ de1, d.content m ≠ d.content e) ∧
      ∀ mo ex2 de2 mo2 eL dL, sameTargetPass ex1 de1 mo = (ex2, de2, mo2) →
        buildLookup d .duplicateExisting ex2 [] = .ok eL →
        buildLookup d .duplicateDesired de2 [] = .ok dL →
        commonContent eL eL dL un1 = (eL, dL, un1)) := by
  obtain ⟨-, hok, rfl⟩ := (diff_ok_iff d existing p).mp h
  have hkeys : ∀ (sel : Plan → Changeset), sel Plan.empty = [] →
      (∀ p q, sel (p.append q) = sel p ++ sel q) →
      ∀ c ∈ sel (keysPlan d (d.existingBuckets existing) d.desiredBuckets),
        ∃ k, keyOk d (underKey (d.kept existing) k) (underKey d.dc.Records k) ∧
          c ∈ sel (keyPlan d (underKey (d.kept existing) k) (underKey d.dc.Records k)) := by
    intro sel h0 happ c hc
    obtain ⟨e, he, hce⟩ := mem_keysPlan_sel sel h0 happ d _ _ c hc
    have hk := hok e he
    have e2 := existingBuckets_entry d existing e.1 e.2 he
    rw [desiredBuckets_get] at hk hce
    rw [e2] at hk hce
    exact ⟨e.1, hk, hce⟩
  have hside : ∀ k c, keyOk d (underKey (d.kept existing) k) (underKey d.dc.Records k) →
      c ∈ (keyPlan d (underKey (d.kept existing) k) (underKey d.dc.Records k)).all →
      ∀ e m, c = ⟨some e, some m⟩ → e.Key = m.Key := by
    intro k c hk hc e m hcem
    have := keyPlan_sides_mem d _ _ hk c (by simpa [Plan.all] using hc)
    have h1 := ((mem_underKey _ _ _).mp (this.1 e (by rw [hcem]))).2
    have h2 := ((mem_underKey _ _ _).mp (this.2 m (by rw [hcem]))).2
    rw [h1, h2]
  refine ⟨?_, ?_, ?_⟩
  · intro c hc
    obtain ⟨k, hk, hck⟩ := hkeys Plan.unchanged rfl (fun _ _ => rfl) c hc
    obtain ⟨e, m, rfl, hfp⟩ := keyPlan_unchanged_mem d _ _ c hck
    refine ⟨e, m, rfl, hside k _ hk (by simp [Plan.all, hck]) e m rfl, ?_⟩
    rw [content_ok, content_ok, hfp]
  · intro c hc
    obtain ⟨k, hk, hck⟩ := hkeys Plan.modify rfl (fun _ _ => rfl) c hc
    obtain ⟨e, m, rfl, hfp⟩ := keyPlan_modify_mem d _ _ hk c hck
    refine ⟨e, m, rfl, hside k _ hk (by simp [Plan.all, hck]) e m rfl, ?_⟩
    rw [content_ok, content_ok]
    intro heq
    exact hfp (Except.ok.inj heq).symm
  · intro ex de un ex1 de1 un1 hpass
    rw [exactMatchPass_eq] at hpass
    have hp := Except.ok.inj hpass
    simp only [Prod.mk.injEq] at hp
    obtain ⟨rfl, rfl, rfl⟩ := hp
    have hdis : ∀ e ∈ (afterExact d ex de).1, ∀ m ∈ (afterExact d ex de).2.1,
        d.fingerprint m ≠ d.fingerprint e := fun e he m hm => afterExact_disjoint d ex de e he m hm
    refine ⟨?_, ?_⟩
    · intro e he m hm
      rw [content_ok, content_ok]
      intro heq
      exact hdis e he m hm (Except.ok.inj heq)
    · intro mo ex2 de2 mo2 eL dL hst hbe hbd
      rw [sameTargetPass_eq] at hst
      simp only [Prod.mk.injEq] at hst
      obtain ⟨rfl, rfl, -⟩ := hst
      rw [buildLookup_nil] at hbe hbd
      split_ifs at hbe hbd
      have he := Except.ok.inj hbe
      have hd := Except.ok.inj hbd
      subst he hd
      apply commonContent_noop
      intro en hen
      obtain ⟨r, hr, rfl⟩ := List.mem_map.mp hen
      rw [lookup_eq_none_iff]
      simp only [List.map_map, Function.comp_def, List.mem_map, not_exists, not_and]
      intro m hm
      exact hdis r (greedyPairs_existing_subset _ _ _ hr) m (greedyPairs_desired_subset _ _ _ hm)

/-- C26 at a plan with one unchanged and one modify correlation. -/
theorem IncrementalDiff_pairs_witness :
    (∃ e m, (⟨some (sampleA "www" 300 "1.2.3.4"), some (sampleA "www" 600 "1.2.3.4")⟩ :
          Correlation) = ⟨some e, some m⟩ ∧ e.Key = m.Key ∧
        (sampleDiffer [sampleA "www" 600 "1.2.3.4", sampleA "ftp" 300 "5.6.7.8"] false
            []).content e ≠
          (sampleDiffer [sampleA "www" 600 "1.2.3.4", sampleA "ftp" 300 "5.6.7.8"] false
            []).content m) ∧
      (∃ e m, (⟨some (sampleA "ftp" 300 "5.6.7.8"), some (sampleA "ftp" 300 "5.6.7.8")⟩ :
          Correlation) = ⟨some e, some m⟩ ∧ e.Key = m.Key ∧
        (sampleDiffer [sampleA "www" 600 "1.2.3.4", sampleA "ftp" 300 "5.6.7.8"] false
            []).content e =
          (sampleDiffer [sampleA "www" 600 "1.2.3.4", sampleA "ftp" 300 "5.6.7.8"] false
            []).content m) :=
  ⟨(IncrementalDiff_pairs
      (sampleDiffer [sampleA "www" 600 "1.2.3.4", sampleA "ftp" 300 "5.6.7.8"] false [])
      [sampleA "www" 300 "1.2.3.4", sampleA "ftp" 300 "5.6.7.8"]
      ⟨[⟨some (sampleA "ftp" 300 "5.6.7.8"), some (sampleA "ftp" 300 "5.6.7.8")⟩], [], [],
        [⟨some (sampleA "www" 300 "1.2.3.4"), some (sampleA "www" 600 "1.2.3.4")⟩]⟩
      (by decide)).2.1 _ (by decide),
    (IncrementalDiff_pairs
      (sampleDiffer [sampleA "www" 600 "1.2.3.4", sampleA "ftp" 300 "5.6.7.8"] false [])
      [sampleA "www" 300 "1.2.3.4", sampleA "ftp" 300 "5.6.7.8"]
      ⟨[⟨some (sampleA "ftp" 300 "5.6.7.8"), some (sampleA "ftp" 300 "5.6.7.8")⟩], [], [],
        [⟨some (sampleA "www" 300 "1.2.3.4"), some (sampleA "www" 600 "1.2.3.4")⟩]⟩
      (by decide)).1 _ (by decide)⟩


/-! ## The label order under `sort.Sort` -/

/-- For two records with different fully qualified owner names, neither the origin
with its dot, `Less` is `zoneLabelLess` on the two names. -/
theorem lessRR_by_label (lib : DnsLib) (origin : String) (a b : RR)
    (ha : lib.AddOrigin a.Hdr.Name (origin ++ ".") = a.Hdr.Name)
    (hb : lib.AddOrigin b.Hdr.Name (origin ++ ".") = b.Hdr.Name)
    (hab : a.Hdr.Name ≠ b.Hdr.Name) (hao : a.Hdr.Name ≠ origin ++ ".")
    (hbo : b.Hdr.Name ≠ origin ++ ".") :
    lessRR lib origin a b = some (zoneLabelLess a.Hdr.Name b.Hdr.Name) := by
  unfold lessRR
  simp only [ha, hb, ne_eq, hab, not_false_eq_true, ↓reduceIte, hao, hbo]

/-- C10: the owner names `9.example.com.`, `10.example.com.` and `1a.example.com.`
form a cycle of `zoneLabelLess`, and of `zoneGenData.Less` on three records with
these names whenever `AddOrigin` leaves a name that ends with a dot as it is: `9`
is before `10` as a number, `10` before `1a` and `1a` before `9` as text, and `9`
is not before `1a`. -/
theorem Less_cycle (lib : DnsLib)
    (hfq : ∀ s origin : String, HasSuffix s "." = true → lib.AddOrigin s origin = s) :
    zoneLabelLess "9.example.com." "10.example.com." = true ∧
    zoneLabelLess "10.example.com." "1a.example.com." = true ∧
    zoneLabelLess "1a.example.com." "9.example.com." = true ∧
    zoneLabelLess "9.example.com." "1a.example.com." = false ∧
    cycleZone.Less lib 0 1 = some true ∧
    cycleZone.Less lib 1 2 = some true ∧
    cycleZone.Less lib 2 0 = some true ∧
    cycleZone.Less lib 0 2 = some false := by
  refine ⟨by decide, by decide, by decide, by decide, ?_, ?_, ?_, ?_⟩
  · show lessRR lib "example.com." (sampleRR "9.example.com." 1 300 (.A [1, 2, 3, 4]))
      (sampleRR "10.example.com." 1 300 (.A [1, 2, 3, 4])) = _
    rw [lessRR_by_label lib _ _ _ (hfq _ _ (by decide)) (hfq _ _ (by decide)) (by decide)
      (by decide) (by decide)]
    exact congrArg some (by decide)
  · show lessRR lib "example.com." (sampleRR "10.example.com." 1 300 (.A [1, 2, 3, 4]))
      (sampleRR "1a.example.com." 1 300 (.A [1, 2, 3, 4])) = _
    rw [lessRR_by_label lib _ _ _ (hfq _ _ (by decide)) (hfq _ _ (by decide)) (by decide)
      (by decide) (by decide)]
    exact congrArg some (by decide)
  · show lessRR lib "example.com." (sampleRR "1a.example.com." 1 300 (.A [1, 2, 3, 4]))
      (sampleRR "9.example.com." 1 300 (.A [1, 2, 3, 4])) = _
    rw [lessRR_by_label lib _ _ _ (hfq _ _ (by decide)) (hfq _ _ (by decide)) (by decide)
      (by decide) (by decide)]
    exact congrArg some (by decide)
  · show lessRR lib "example.com." (sampleRR "9.example.com." 1 300 (.A [1, 2, 3, 4]))
      (sampleRR "1a.example.com." 1 300 (.A [1, 2, 3, 4])) = _
    rw [lessRR_by_label lib _ _ _ (hfq _ _ (by decide)) (hfq _ _ (by decide)) (by decide)
      (by decide) (by decide)]
    exact congrArg some (by decide)

/-- C10 at the sample library: the three records are in a cycle of `Less`, and the
order `insertionSort` leaves them in depends on the order they come in. -/
theorem Less_cycle_witness :
    cycleZone.Less sampleZoneLib.toDnsLib 0 1 = some true ∧
      cycleZone.Less sampleZoneLib.toDnsLib 1 2 = some true ∧
      cycleZone.Less sampleZoneLib.toDnsLib 2 0 = some true ∧
      cycleZone.Less sampleZoneLib.toDnsLib 0 2 = some false ∧
      insertionSort (lessRR sampleZoneLib.toDnsLib "example.com.")
          [sampleRR "9.example.com." 1 300 (.A [1, 2, 3, 4]),
            sampleRR "10.example.com." 1 300 (.A [1, 2, 3, 4]),
            sampleRR "1a.example.com." 1 300 (.A [1, 2, 3, 4])]
        = some [sampleRR "9.example.com." 1 300 (.A [1, 2, 3, 4]),
            sampleRR "10.example.com." 1 300 (.A [1, 2, 3, 4]),
            sampleRR "1a.example.com." 1 300 (.A [1, 2, 3, 4])] ∧
      insertionSort (lessRR sampleZoneLib.toDnsLib "example.com.")
          [sampleRR "10.example.com." 1 300 (.A [1, 2, 3, 4]),
            sampleRR "1a.example.com." 1 300 (.A [1, 2, 3, 4]),
            sampleRR "9.example.com." 1 300 (.A [1, 2, 3, 4])]
        = some [sampleRR "10.example.com." 1 300 (.A [1, 2, 3, 4]),
            sampleRR "1a.example.com." 1 300 (.A [1, 2, 3, 4]),
            sampleRR "9.example.com." 1 300 (.A [1, 2, 3, 4])] :=
  ⟨(Less_cycle sampleZoneLib.toDnsLib (fun s origin h => by
      show (if HasSuffix s "." = true then s else _) = s
      rw [if_pos h])).2.2.2.2.1,
    (Less_cycle sampleZoneLib.toDnsLib (fun s origin h => by
      show (if HasSuffix s "." = true then s else _) = s
      rw [if_pos h])).2.2.2.2.2.1,
    (Less_cycle sampleZoneLib.toDnsLib (fun s origin h => by
      show (if HasSuffix s "." = true then s else _) = s
      rw [if_pos h])).2.2.2.2.2.2.1,
    (Less_cycle sampleZoneLib.toDnsLib (fun s origin h => by
      show (if HasSuffix s "." = true then s else _) = s
      rw [if_pos h])).2.2.2.2.2.2.2,
    by decide, by decide⟩

/-- C11: the owner names `01.example.com.` and `1.example.com.` are different and
neither is before the other, for `zoneLabelLess` and for `zoneGenData.Less` on two
records with these names whenever `AddOrigin` leaves a name that ends with a dot
as it is: both first components are the number 1. -/
theorem Less_tie (lib : DnsLib)
    (hfq : ∀ s origin : String, HasSuffix s "." = true → lib.AddOrigin s origin = s) :
    ("01.example.com." : String) ≠ "1.example.com." ∧
    zoneLabelLess "01.example.com." "1.example.com." = false ∧
    zoneLabelLess "1.example.com." "01.example.com." = false ∧
    tieZone.Less lib 0 1 = some false ∧
    tieZone.Less lib 1 0 = some false := by
  refine ⟨by decide, by decide, by decide, ?_, ?_⟩
  · show lessRR lib "example.com." (sampleRR "01.example.com." 1 300 (.A [1, 2, 3, 4]))
      (sampleRR "1.example.com." 1 300 (.A [1, 2, 3, 4])) = _
    rw [lessRR_by_label lib _ _ _ (hfq _ _ (by decide)) (hfq _ _ (by decide)) (by decide)
      (by decide) (by decide)]
    exact congrArg some (by decide)
  · show lessRR lib "example.com." (sampleRR "1.example.com." 1 300 (.A [1, 2, 3, 4]))
      (sampleRR "01.example.com." 1 300 (.A [1, 2, 3, 4])) = _
    rw [lessRR_by_label lib _ _ _ (hfq _ _ (by decide)) (hfq _ _ (by decide)) (by decide)
      (by decide) (by decide)]
    exact congrArg some (by decide)

/-- C11 at the sample library: the two records are left unordered by `Less`, and
`insertionSort` leaves them in the order they come in. -/
theorem Less_tie_witness :
    tieZone.Less sampleZoneLib.toDnsLib 0 1 = some false ∧
      tieZone.Less sampleZoneLib.toDnsLib 1 0 = some false ∧
      insertionSort (lessRR sampleZoneLib.toDnsLib "example.com.")
          [sampleRR "01.example.com." 1 300 (.A [1, 2, 3, 4]),
            sampleRR "1.example.com." 1 300 (.A [1, 2, 3, 4])]
        = some [sampleRR "01.example.com." 1 300 (.A [1, 2, 3, 4]),
            sampleRR "1.example.com." 1 300 (.A [1, 2, 3, 4])] ∧
      insertionSort (lessRR sampleZoneLib.toDnsLib "example.com.")
          [sampleRR "1.example.com." 1 300 (.A [1, 2, 3, 4]),
            sampleRR "01.example.com." 1 300 (.A [1, 2, 3, 4])]
        = some [sampleRR "1.example.com." 1 300 (.A [1, 2, 3, 4]),
            sampleRR "01.example.com." 1 300 (.A [1, 2, 3, 4])] :=
  ⟨(Less_tie sampleZoneLib.toDnsLib (fun s origin h => by
      show (if HasSuffix s "." = true then s else _) = s
      rw [if_pos h])).2.2.2.1,
    (Less_tie sampleZoneLib.toDnsLib (fun s origin h => by
      show (if HasSuffix s "." = true then s else _) = s
      rw [if_pos h])).2.2.2.2,
    by decide, by decide⟩

end Dnscontrol
